import Mathlib

/-!
Group allocation by a genetic algorithm (`allocation.c`)

A shallow embedding of the solver in `allocation.c` and proofs about it.

Modelling conventions.

* The globals `persons`, `groups`, `pref` form an `Instance`.  `persons` and `groups` are
  natural numbers; `pref[p][g]` is the function `pref p g`.
* A `CONFIG` (`int*` of length `persons`) is a `List Int`; the entry `-1` is "unassigned".
  A read `config[p]` is `c.getD p (-1)`, a write `config[p] = v` is `c.set p v`.
* C `int` values are modelled by unbounded `Int`/`Nat`: signed overflow is undefined in C,
  so all statements are about runs in which the sums stay in range.
* `rand()` is a stream `rand : Nat → Nat` of non-negative draws together with the number `i`
  of draws consumed so far; every function that calls `rand()` returns the new counter.
* Loops that may spin forever (`for (;;)`, `while`) return `none` when they do not exit.
  A circular scan over `n` indices is given `n` probes: after `n` probes it is back at its
  start with nothing changed, so failing `n` probes is failing forever.  A division by zero
  (`% 0`, `/ 0`) is `none` as well.
-/

namespace Allocation

/-- The globals `persons`, `groups` and `pref` of `allocation.c`. -/
structure Instance where
  persons : Nat
  groups : Nat
  pref : Nat → Nat → Int

/-- `typedef int* CONFIG`: one entry per person, `-1` for "not assigned". -/
abbrev CONFIG := List Int

/-- `new_config`: every person unassigned. -/
def new_config (inst : Instance) : CONFIG :=
  List.replicate inst.persons (-1)

/-- The inner loop of `read_input` for one person: the running maximum `max` of the row,
started at `0`. -/
def row_max (inst : Instance) (p : Nat) : Int :=
  (List.range inst.groups).foldl
    (fun mx g => if inst.pref p g > mx then inst.pref p g else mx) 0

/-- The value `read_input` leaves in the global `max_fitness`. -/
def max_fitness (inst : Instance) : Int :=
  (List.range inst.persons).foldl (fun mf p => mf + row_max inst p) 0

/-- `fitness`: the sum of `pref[p][config[p]]` over all persons.  (Reading `pref[p][-1]` is out
of bounds in C; here a negative index reads column `0`.) -/
def fitness (inst : Instance) (config : CONFIG) : Int :=
  (List.range inst.persons).foldl
    (fun f p => f + inst.pref p (config.getD p (-1)).toNat) 0

/-- `groupsize`: a zeroed array of length `groups`, then one increment per assigned person. -/
def groupsize (inst : Instance) (config : CONFIG) : List Nat :=
  (List.range inst.persons).foldl
    (fun gs p =>
      if config.getD p (-1) ≥ 0 then
        gs.set (config.getD p (-1)).toNat (gs.getD (config.getD p (-1)).toNat 0 + 1)
      else gs)
    (List.replicate inst.groups 0)

/-- The scan `for (p = start;; p = (p+1) % n) if (ok p) break;`, with `fuel` probes left.
The result is the index at which the loop breaks. -/
def circScan (n : Nat) (ok : Nat → Bool) : Nat → Nat → Option Nat
  | 0, _ => none
  | fuel + 1, p => if ok p then some p else circScan n ok fuel ((p + 1) % n)

/-- The local state of `greedy`: the configuration being completed, the `group_size` array,
the number of random draws consumed, and the number of warnings emitted so far. -/
structure GState where
  config : CONFIG
  group_size : List Nat
  i : Nat
  warnings : Nat
deriving DecidableEq, Repr

/-- The `min_g` loop of `greedy`: the first group of minimum size. -/
def min_group (inst : Instance) (group_size : List Nat) : Nat :=
  (List.range inst.groups).foldl
    (fun min_g g => if group_size.getD g 0 < group_size.getD min_g 0 then g else min_g) 0

/-- The `max_pref` loop of `greedy`: the highest preference for `min_g` among the unassigned
persons, started at `0`. -/
def max_pref (inst : Instance) (config : CONFIG) (min_g : Nat) : Int :=
  (List.range inst.persons).foldl
    (fun mp p =>
      if config.getD p (-1) ≥ 0 then mp
      else if mp ≥ inst.pref p min_g then mp
      else inst.pref p min_g) 0

/-- The test of the person scan in `greedy`: `config[p]==-1 && pref[p][min_g]==max_pref`. -/
def greedy_ok (inst : Instance) (config : CONFIG) (min_g : Nat) (mp : Int) (p : Nat) : Bool :=
  config.getD p (-1) == -1 && inst.pref p min_g == mp

/-- One iteration of the outer loop of `greedy`. -/
def greedy_step (inst : Instance) (rand : Nat → Nat) (s : GState) : Option GState :=
  let min_g := min_group inst s.group_size
  let mp := max_pref inst s.config min_g
  match circScan inst.persons (greedy_ok inst s.config min_g mp) inst.persons
      (rand s.i % inst.persons) with
  | none => none
  | some p =>
    some { config := s.config.set p (min_g : Int)
           group_size := s.group_size.set min_g (s.group_size.getD min_g 0 + 1)
           i := s.i + 1
           warnings := if mp = 0 then s.warnings + 1 else s.warnings }

/-- The outer loop of `greedy` run for `n` iterations. -/
def greedy_loop (inst : Instance) (rand : Nat → Nat) : Nat → GState → Option GState
  | 0, s => some s
  | n + 1, s => (greedy_step inst rand s).bind (greedy_loop inst rand n)

/-- The sum `total_group_size` computed at the start of `greedy`. -/
def total_group_size (inst : Instance) (group_size : List Nat) : Nat :=
  (List.range inst.groups).foldl (fun t g => t + group_size.getD g 0) 0

/-- The number of iterations of `for (; total_group_size < persons; total_group_size++)`. -/
def greedy_iterations (inst : Instance) (config : CONFIG) : Nat :=
  inst.persons - total_group_size inst (groupsize inst config)

/-- The state in which the outer loop of `greedy` starts. -/
def greedy_init (inst : Instance) (config : CONFIG) (i : Nat) : GState :=
  { config := config, group_size := groupsize inst config, i := i, warnings := 0 }

/-- `greedy`, with its warnings: the final loop state. -/
def greedy_run (inst : Instance) (rand : Nat → Nat) (config : CONFIG) (i : Nat) :
    Option GState :=
  greedy_loop inst rand (greedy_iterations inst config) (greedy_init inst config i)

/-- `greedy`: the completed configuration and the new draw counter. -/
def greedy (inst : Instance) (rand : Nat → Nat) (config : CONFIG) (i : Nat) :
    Option (CONFIG × Nat) :=
  (greedy_run inst rand config i).map (fun s => (s.config, s.i))

/-- `groupavg` in `repair`: `persons / groups`, plus one when the division leaves a rest. -/
def groupavg (inst : Instance) : Nat :=
  inst.persons / inst.groups + (if inst.persons % inst.groups = 0 then 0 else 1)

/-- The first loop of `repair`, started at group `g` with `fuel` iterations left.  One
iteration either moves on to the next group (`continue`) or removes one member of group `g`
and looks at `g` again (`g--` followed by `g++`). -/
def evict_loop (inst : Instance) (rand : Nat → Nat) :
    Nat → Nat → CONFIG → List Nat → Nat → Option (CONFIG × Nat)
  | 0, _, _, _, _ => none
  | fuel + 1, g, config, size, i =>
    if g < inst.groups then
      if size.getD g 0 ≤ groupavg inst then
        evict_loop inst rand fuel (g + 1) config size i
      else
        match circScan inst.persons (fun p => config.getD p (-1) == (g : Int)) inst.persons
            (rand i % inst.persons) with
        | none => none
        | some p =>
          evict_loop inst rand fuel g (config.set p (-1)) (size.set g (size.getD g 0 - 1))
            (i + 1)
    else some (config, i)

/-- The eviction phase of `repair`.  Every iteration of the loop either advances `g` or
unassigns a person, so `groups + persons + 1` iterations are enough for it to exit. -/
def evict (inst : Instance) (rand : Nat → Nat) (config : CONFIG) (i : Nat) :
    Option (CONFIG × Nat) :=
  evict_loop inst rand (inst.groups + inst.persons + 1) 0 config (groupsize inst config) i

/-- `repair`: evict from the groups that are too large, then `greedy`.  `persons / groups`
with `groups = 0` is a division by zero. -/
def repair (inst : Instance) (rand : Nat → Nat) (config : CONFIG) (i : Nat) :
    Option (CONFIG × Nat) :=
  if inst.groups = 0 then none
  else (evict inst rand config i).bind (fun r => greedy inst rand r.1 r.2)

/-- The merge loop of `mutate`: the first `persons/2` entries of `config1`, the rest of
`config2`, written into a fresh configuration. -/
def merge (inst : Instance) (config1 config2 : CONFIG) : CONFIG :=
  (List.range inst.persons).foldl
    (fun config p =>
      config.set p (if p < inst.persons / 2 then config1.getD p (-1) else config2.getD p (-1)))
    (new_config inst)

/-- `mutate`: merge the two parents, then `repair`. -/
def mutate (inst : Instance) (rand : Nat → Nat) (config1 config2 : CONFIG) (i : Nat) :
    Option (CONFIG × Nat) :=
  repair inst rand (merge inst config1 config2) i

/-- The constants of the genetic algorithm: `POPSIZE` and the three counts that `iteration`
derives from it, `(int)(GOOD_RATIO*POPSIZE)`, `(int)(RANDOM_RATIO*POPSIZE)` and
`(int)(MUTATE_RATIO*POPSIZE)`.  The floating-point products are not modelled; their integer
results are the fields. -/
structure Params where
  POPSIZE : Nat
  num_good : Nat
  num_random : Nat
  num_mutate : Int

/-- The constants compiled into `allocation.c`: `POPSIZE 1000` and the ratios `0.3`, `0.2`
and `0.2`. -/
def compiled : Params :=
  { POPSIZE := 1000, num_good := 300, num_random := 200, num_mutate := 200 }

/-- The array `CONFIG configs[]`: a slot holds a configuration or `NULL`. -/
abbrev Population := List (Option CONFIG)

/-- The body of the scan over `c2` in the elite selection of `iteration`: a `NULL` slot is
skipped, a candidate that beats the running `max_fitness` replaces it and sets `max_c`. -/
def best_scan_step (inst : Instance) (configs : Population) (acc : Int × Option Nat)
    (c2 : Nat) : Int × Option Nat :=
  match configs.getD c2 none with
  | none => acc
  | some config =>
    if fitness inst config > acc.1 then (fitness inst config, some c2) else acc

/-- The scan over `c2` in the elite selection of `iteration`: the running `max_fitness`,
started at `-1`, and `max_c`, which has no value until the first candidate beats `-1`. -/
def best_scan (inst : Instance) (POPSIZE : Nat) (configs : Population) : Int × Option Nat :=
  (List.range POPSIZE).foldl (best_scan_step inst configs) (-1, none)

/-- The loop "select the best solutions" of `iteration`, with `n` rounds left: every round
moves `configs[max_c]` to the end of `configs_good` and sets the slot to `NULL`.  Reading
`max_c` without a value has no result. -/
def select_good (inst : Instance) (POPSIZE : Nat) :
    Nat → Population → Population → Option (Population × Population)
  | 0, configs, configs_good => some (configs, configs_good)
  | n + 1, configs, configs_good =>
    match (best_scan inst POPSIZE configs).2 with
    | none => none
    | some max_c =>
      select_good inst POPSIZE n (configs.set max_c none)
        (configs_good ++ [configs.getD max_c none])

/-- The loop "select random solutions" of `iteration`, with `n` rounds left: a draw, a
circular scan for a slot that is not `NULL`, and the move of that slot to `configs_random`. -/
def select_random (rand : Nat → Nat) (POPSIZE : Nat) :
    Nat → Population → Population → Nat → Option (Population × Population × Nat)
  | 0, configs, configs_random, i => some (configs, configs_random, i)
  | n + 1, configs, configs_random, i =>
    match circScan POPSIZE (fun c2 => (configs.getD c2 none).isSome) POPSIZE
        (rand i % POPSIZE) with
    | none => none
    | some c2 =>
      select_random rand POPSIZE n (configs.set c2 none)
        (configs_random ++ [configs.getD c2 none]) (i + 1)

/-- The loop "drop the remaining solutions" of `iteration`: every slot becomes `NULL`. -/
def drop_rest (POPSIZE : Nat) (configs : Population) : Population :=
  (List.range POPSIZE).foldl
    (fun cf c => if (cf.getD c none).isNone then cf else cf.set c none) configs

/-- The two loops "put the selected configurations back" of `iteration`. -/
def put_back (num_good num_random : Nat) (configs configs_good configs_random : Population) :
    Population :=
  (List.range num_random).foldl
    (fun cf c => cf.set (num_good + c) (configs_random.getD c none))
    ((List.range num_good).foldl (fun cf c => cf.set c (configs_good.getD c none)) configs)

/-- The loop "fill some gaps with mutations" of `iteration`, at slot `c` with `fuel` slots
up to `POPSIZE` left; `nsel` is `num_random+num_good`.  The result holds the value of `c`
with which the loop is left: `break` leaves `c` at the slot just written. -/
def mutate_loop (inst : Instance) (rand : Nat → Nat) (nsel : Nat) :
    Nat → Nat → Int → Population → Nat → Option (Population × Nat × Nat)
  | 0, c, _, configs, i => some (configs, c, i)
  | fuel + 1, c, num_mutate, configs, i =>
    match circScan nsel (fun k => (configs.getD k none).isSome) nsel (rand i % nsel) with
    | none => none
    | some c1 =>
      match circScan nsel (fun k => (configs.getD k none).isSome && k != c1) nsel
          (rand (i + 1) % nsel) with
      | none => none
      | some c2 =>
        match configs.getD c1 none, configs.getD c2 none with
        | some config1, some config2 =>
          match mutate inst rand config1 config2 (i + 2) with
          | none => none
          | some (child, i') =>
            if num_mutate - 1 ≤ 0 then some (configs.set c (some child), c, i')
            else
              mutate_loop inst rand nsel fuel (c + 1) (num_mutate - 1)
                (configs.set c (some child)) i'
        | _, _ => none

/-- The inner loop of the last phase of `iteration`: `config[p] = rand()%groups` for every
person, written into a fresh configuration. -/
def random_config (inst : Instance) (rand : Nat → Nat) (i : Nat) : CONFIG :=
  (List.range inst.persons).foldl
    (fun config p => config.set p ((rand (i + p) % inst.groups : Nat) : Int))
    (new_config inst)

/-- One new random configuration, repaired: `persons` draws, then `repair`. -/
def fresh (inst : Instance) (rand : Nat → Nat) (i : Nat) : Option (CONFIG × Nat) :=
  repair inst rand (random_config inst rand i) (i + inst.persons)

/-- The loop "fill the remaining gaps with random new configurations" of `iteration`, at
slot `c` with `fuel` slots up to `POPSIZE` left. -/
def fresh_loop (inst : Instance) (rand : Nat → Nat) :
    Nat → Nat → Population → Nat → Option (Population × Nat)
  | 0, _, configs, i => some (configs, i)
  | fuel + 1, c, configs, i =>
    match fresh inst rand i with
    | none => none
    | some (config, i') => fresh_loop inst rand fuel (c + 1) (configs.set c (some config)) i'

/-- The population after the selection phases of `iteration`: the survivors in the first
`num_good + num_random` slots, `NULL` in the others. -/
def survivors (prm : Params) (inst : Instance) (rand : Nat → Nat) (configs : Population)
    (i : Nat) : Option (Population × Nat) :=
  match select_good inst prm.POPSIZE prm.num_good configs [] with
  | none => none
  | some (configs1, configs_good) =>
    match select_random rand prm.POPSIZE prm.num_random configs1 [] i with
    | none => none
    | some (configs2, configs_random, i1) =>
      some (put_back prm.num_good prm.num_random (drop_rest prm.POPSIZE configs2)
        configs_good configs_random, i1)

/-- The population, the loop counter `c` and the draw counter after the crossover phase of
`iteration`. -/
def crossover (prm : Params) (inst : Instance) (rand : Nat → Nat) (configs : Population)
    (i : Nat) : Option (Population × Nat × Nat) :=
  match survivors prm inst rand configs i with
  | none => none
  | some (configs4, i1) =>
    mutate_loop inst rand (prm.num_random + prm.num_good)
      (prm.POPSIZE - (prm.num_good + prm.num_random)) (prm.num_good + prm.num_random)
      prm.num_mutate configs4 i1

/-- `iteration`: one generation step. -/
def iteration (prm : Params) (inst : Instance) (rand : Nat → Nat) (configs : Population)
    (i : Nat) : Option (Population × Nat) :=
  match crossover prm inst rand configs i with
  | none => none
  | some (configs5, c, i2) => fresh_loop inst rand (prm.POPSIZE - c) c configs5 i2

/-- The body of the loop of `max`.  Calling `fitness` on a `NULL` slot has no result. -/
def max_scan_step (inst : Instance) (config : Population) (acc : Option (Int × Option Nat))
    (c : Nat) : Option (Int × Option Nat) :=
  match acc, config.getD c none with
  | some (mf, max_c), some cfg =>
    if fitness inst cfg > mf then some (fitness inst cfg, some c) else some (mf, max_c)
  | _, _ => none

/-- The loop of `max`: the running `max_fitness`, started at `-1`, and `max_c`. -/
def max_scan (inst : Instance) (POPSIZE : Nat) (config : Population) :
    Option (Int × Option Nat) :=
  (List.range POPSIZE).foldl (max_scan_step inst config) (some (-1, none))

/-- `max`: the first configuration of maximum fitness, `config[max_c]`. -/
def max (inst : Instance) (POPSIZE : Nat) (config : Population) : Option CONFIG :=
  match max_scan inst POPSIZE config with
  | some (_, some max_c) => config.getD max_c none
  | _ => none

/-- What `solve` prints for a new best configuration: the configuration (`print` shows it
as a grid), its fitness and `max_fitness`, and its group sizes. -/
structure Report where
  config : CONFIG
  fitness : Int
  max_fitness : Int
  sizes : List Nat
deriving DecidableEq, Repr

/-- The state of the loop of `solve`: the population, `cur_fitness` and the draw counter. -/
structure SState where
  configs : Population
  cur_fitness : Int
  i : Nat
deriving DecidableEq, Repr

/-- The seed loop of `solve`, at slot `c` with `n` slots left: `greedy` on a new
configuration for every slot. -/
def seed_loop (inst : Instance) (rand : Nat → Nat) :
    Nat → Population → Nat → Option (Population × Nat)
  | 0, configs, i => some (configs, i)
  | n + 1, configs, i =>
    match greedy inst rand (new_config inst) i with
    | none => none
    | some (config, i') => seed_loop inst rand n (configs ++ [some config]) i'

/-- The state in which the `while (1)` loop of `solve` starts. -/
def solve_init (prm : Params) (inst : Instance) (rand : Nat → Nat) (i : Nat) :
    Option SState :=
  match seed_loop inst rand prm.POPSIZE [] i with
  | none => none
  | some (configs, i') => some { configs := configs, cur_fitness := 0, i := i' }

/-- One pass through the `while (1)` loop of `solve`: the new state and the report printed,
if any. -/
def solve_step (prm : Params) (inst : Instance) (rand : Nat → Nat) (s : SState) :
    Option (SState × Option Report) :=
  match iteration prm inst rand s.configs s.i with
  | none => none
  | some (configs, i') =>
    match max inst prm.POPSIZE configs with
    | none => none
    | some maxconfig =>
      if s.cur_fitness ≥ fitness inst maxconfig then
        some ({ configs := configs, cur_fitness := s.cur_fitness, i := i' }, none)
      else
        some ({ configs := configs, cur_fitness := fitness inst maxconfig, i := i' },
          some { config := maxconfig, fitness := fitness inst maxconfig,
                 max_fitness := max_fitness inst, sizes := groupsize inst maxconfig })

/-- The first `n` passes through the loop of `solve`: the state reached and the reports
printed, in order. -/
def solve_run (prm : Params) (inst : Instance) (rand : Nat → Nat) :
    Nat → SState → Option (SState × List Report)
  | 0, s => some (s, [])
  | n + 1, s =>
    match solve_step prm inst rand s with
    | none => none
    | some (s1, out) =>
      match solve_run prm inst rand n s1 with
      | none => none
      | some (s2, reports) => some (s2, out.toList ++ reports)

/-- The capacity ceiling of the specification, `ceil(persons/groups)`. -/
def ceiling (inst : Instance) : Nat := ⌈(inst.persons : ℚ) / (inst.groups : ℚ)⌉₊

/-- A well-formed instance: at least one person, at least one group, no negative preference. -/
def WellFormed (inst : Instance) : Prop :=
  1 ≤ inst.persons ∧ 1 ≤ inst.groups ∧
    ∀ p, p < inst.persons → ∀ g, g < inst.groups → 0 ≤ inst.pref p g

/-- A candidate whose entries are each `-1` or a group index. -/
def Partial (inst : Instance) (c : CONFIG) : Prop :=
  c.length = inst.persons ∧ ∀ x ∈ c, x = -1 ∨ (0 ≤ x ∧ x < (inst.groups : Int))

/-- A fully-assigned candidate: every entry is a group index. -/
def Assigned (inst : Instance) (c : CONFIG) : Prop :=
  c.length = inst.persons ∧ ∀ x ∈ c, 0 ≤ x ∧ x < (inst.groups : Int)

/-- The number of members of group `g` in a candidate. -/
def members (c : CONFIG) (g : Nat) : Nat := c.count (g : Int)

/-- No group has more than `ceil(persons/groups)` members. -/
def Capped (inst : Instance) (c : CONFIG) : Prop :=
  ∀ g, g < inst.groups → members c g ≤ ceiling inst

/-- A feasible candidate: fully assigned and within the capacity ceiling. -/
def Feasible (inst : Instance) (c : CONFIG) : Prop := Assigned inst c ∧ Capped inst c

/-- The invariant of the loops of `greedy` and `repair`: the candidate is partial and the
size array holds the member count of every group. -/
def SizeInv (inst : Instance) (c : CONFIG) (size : List Nat) : Prop :=
  Partial inst c ∧ size.length = inst.groups ∧
    ∀ g, g < inst.groups → size.getD g 0 = members c g

/-- The population with the slots listed in `taken` set to `NULL`. -/
def without (configs : Population) (taken : List Nat) : Population :=
  taken.foldl (fun cf j => cf.set j none) configs

/-- Slot `m` holds a candidate of greatest fitness among the slots below `POPSIZE` that are
not `NULL`, and every such slot before `m` holds a candidate of smaller fitness: the
maximum-fitness candidate still remaining, the lowest-index one on ties. -/
def FirstBest (inst : Instance) (POPSIZE : Nat) (configs : Population) (m : Nat) : Prop :=
  m < POPSIZE ∧ ∃ cm, configs.getD m none = some cm ∧
    ∀ j c, j < POPSIZE → configs.getD j none = some c →
      fitness inst c ≤ fitness inst cm ∧ (j < m → fitness inst c < fitness inst cm)

/-- Slot `m` is the first slot that is not `NULL` at or circularly after slot `start`. -/
def FirstLive (POPSIZE : Nat) (configs : Population) (start m : Nat) : Prop :=
  ∃ j, j < POPSIZE ∧ m = (start + j) % POPSIZE ∧ (configs.getD m none).isSome = true ∧
    ∀ j', j' < j → configs.getD ((start + j') % POPSIZE) none = none

/-- The candidate `k` is a crossover child of two survivors: `mutate` applied to the
candidates in two different slots of `S` returns it. -/
def IsChild (inst : Instance) (rand : Nat → Nat) (S : List CONFIG) (k : CONFIG) : Prop :=
  ∃ c1 c2 j j', c1 < S.length ∧ c2 < S.length ∧ c1 ≠ c2 ∧
    mutate inst rand (S.getD c1 []) (S.getD c2 []) j = some (k, j')

/-- The candidate `k` is a fresh one: a random configuration, repaired. -/
def IsFresh (inst : Instance) (rand : Nat → Nat) (k : CONFIG) : Prop :=
  ∃ j j', fresh inst rand j = some (k, j')

/-- The number of calls of `mutate` after which the crossover loop of `iteration` reaches
its `break`: `num_mutate`, or one if `num_mutate` is below one (the counter is only tested
after a child has been made). -/
def mutate_calls (prm : Params) : Nat :=
  if prm.num_mutate ≤ 1 then 1 else prm.num_mutate.toNat

/-- The number of crossover children in the population `iteration` returns.  When the loop
is left by `break`, the counter `c` still points at the last child and the fresh fill, which
starts at `c`, writes over it. -/
def children_kept (prm : Params) : Nat :=
  if mutate_calls prm ≤ prm.POPSIZE - (prm.num_good + prm.num_random) then mutate_calls prm - 1
  else prm.POPSIZE - (prm.num_good + prm.num_random)

/-- The instance of the concrete scenario: 4 persons, 2 groups and the preference matrix
`[[5,1],[1,5],[3,3],[0,10]]`. -/
def scenario : Instance :=
  { persons := 4, groups := 2
    pref := fun p g => ([[5, 1], [1, 5], [3, 3], [0, 10]].getD p []).getD g 0 }

/-- The smallest instance: one person, one group, preference `0`. -/
def tiny : Instance := { persons := 1, groups := 1, pref := fun _ _ => 0 }

/-- The single-midpoint merge in the words of the specification: entry `p` is `A[p]` for
`p < floor(persons/2)` and `B[p]` otherwise. -/
def midpoint_merge (inst : Instance) (A B : CONFIG) : CONFIG :=
  (List.range inst.persons).map
    (fun p => if p < inst.persons / 2 then A.getD p (-1) else B.getD p (-1))

/-- An instance with two persons, two groups and all preferences `0`. -/
def pairs : Instance := { persons := 2, groups := 2, pref := fun _ _ => 0 }

/-- A small configuration of the algorithm: six slots, two elite, one retained at random and
two crossover calls. -/
def small : Params := { POPSIZE := 6, num_good := 2, num_random := 1, num_mutate := 2 }

/-- A population of six feasible candidates of the concrete scenario. -/
def small_pop : List CONFIG :=
  [[0, 0, 1, 1], [1, 1, 0, 0], [0, 1, 1, 0], [1, 0, 1, 0], [1, 0, 0, 1], [0, 1, 1, 0]]

/-- A degenerate configuration: two slots, one elite, nothing else. -/
def lonely : Params := { POPSIZE := 2, num_good := 1, num_random := 0, num_mutate := 0 }

/-- An instance with a negative preference: one person, one group, preference `-1`. -/
def sour : Instance := { persons := 1, groups := 1, pref := fun _ _ => -1 }

/-- The invariant of the population of `solve`: exactly `POPSIZE` slots, none of them `NULL`,
each holding a fully-assigned candidate with at most `ceil(persons/groups)` members in every
group. -/
def PopInv (prm : Params) (inst : Instance) (configs : Population) : Prop :=
  ∃ popc : List CONFIG, configs = popc.map some ∧ popc.length = prm.POPSIZE ∧
    ∀ c ∈ popc, Feasible inst c

/-- The persons that the eviction phase of `repair` removes from group `g`: members of `g`
in the input `c` that are unassigned in the candidate `e` handed to `greedy`. -/
def evicted (inst : Instance) (c e : CONFIG) (g : Nat) : Finset Nat :=
  (Finset.range inst.persons).filter
    (fun p => c.getD p (-1) = (g : Int) ∧ e.getD p (-1) = -1)

/-- The persons whose group differs between the candidates `c` and `r`. -/
def changed (inst : Instance) (c r : CONFIG) : Finset Nat :=
  (Finset.range inst.persons).filter (fun p => r.getD p (-1) ≠ c.getD p (-1))

/-! ## Arrays as lists -/

theorem getD_set_self {α : Type} (l : List α) (p : Nat) (a d : α) (h : p < l.length) :
    (l.set p a).getD p d = a := by
  simp [List.getD_eq_getElem?_getD, List.getElem?_set, h]

theorem getD_set_other {α : Type} (l : List α) (p q : Nat) (a d : α) (h : p ≠ q) :
    (l.set p a).getD q d = l.getD q d := by
  simp [List.getD_eq_getElem?_getD, List.getElem?_set, h]

theorem getD_mem {α : Type} (l : List α) (p : Nat) (d : α) (h : p < l.length) :
    l.getD p d ∈ l := by
  rw [List.getD_eq_getElem l d h]
  exact List.getElem_mem h

theorem foldl_range_succ {β : Type} (f : β → Nat → β) (b : β) (n : Nat) :
    (List.range (n + 1)).foldl f b = f ((List.range n).foldl f b) n := by
  rw [List.range_succ, List.foldl_append]
  rfl

theorem foldl_range_add_int (f : Nat → Int) (n : Nat) :
    (List.range n).foldl (fun a p => a + f p) 0 = ∑ p in Finset.range n, f p := by
  induction n with
  | zero => rfl
  | succ n ih => rw [foldl_range_succ, ih, Finset.sum_range_succ]

theorem foldl_range_add_nat (f : Nat → Nat) (n : Nat) :
    (List.range n).foldl (fun a p => a + f p) 0 = ∑ p in Finset.range n, f p := by
  induction n with
  | zero => rfl
  | succ n ih => rw [foldl_range_succ, ih, Finset.sum_range_succ]

/-! ## The circular scan -/

theorem circScan_ok (n : Nat) (ok : Nat → Bool) (fuel p q : Nat)
    (h : circScan n ok fuel p = some q) : ok q = true := by
  induction fuel generalizing p with
  | zero => simp [circScan] at h
  | succ k ih =>
    unfold circScan at h
    by_cases hp : ok p = true
    · simp [hp] at h; subst h; exact hp
    · simp [hp] at h; exact ih _ h

theorem circScan_lt (n : Nat) (ok : Nat → Bool) (fuel p q : Nat) (hp : p < n)
    (h : circScan n ok fuel p = some q) : q < n := by
  induction fuel generalizing p with
  | zero => simp [circScan] at h
  | succ k ih =>
    unfold circScan at h
    by_cases hp1 : ok p = true
    · simp [hp1] at h; subst h; exact hp
    · simp [hp1] at h
      exact ih _ (Nat.mod_lt _ (by omega)) h

/-- The scan stops at the first index, in circular order from `p`, that passes the test. -/
theorem circScan_first (n : Nat) (ok : Nat → Bool) (fuel p : Nat) (hp : p < n)
    (h : ∃ j, j < fuel ∧ ok ((p + j) % n) = true) :
    ∃ j, j < fuel ∧ circScan n ok fuel p = some ((p + j) % n) ∧ ok ((p + j) % n) = true ∧
      ∀ j', j' < j → ok ((p + j') % n) = false := by
  induction fuel generalizing p with
  | zero => obtain ⟨j, hj, _⟩ := h; omega
  | succ k ih =>
    obtain ⟨j, hj, hok⟩ := h
    unfold circScan
    by_cases hp1 : ok p = true
    · refine ⟨0, by omega, ?_, ?_, ?_⟩
      · simp [hp1, Nat.mod_eq_of_lt hp]
      · simpa [Nat.mod_eq_of_lt hp] using hp1
      · intro j' hj'; omega
    · have hj0 : j ≠ 0 := by
        rintro rfl
        simp [Nat.mod_eq_of_lt hp] at hok
        exact hp1 hok
      obtain ⟨j1, rfl⟩ : ∃ j1, j = j1 + 1 := ⟨j - 1, by omega⟩
      have hshift : ∀ m, ((p + 1) % n + m) % n = (p + (m + 1)) % n := by
        intro m
        rw [Nat.add_mod, Nat.mod_mod, ← Nat.add_mod]
        congr 1; omega
      obtain ⟨j2, hj2, hres, hok2, hfirst⟩ :=
        ih ((p + 1) % n) (Nat.mod_lt _ (by omega)) ⟨j1, by omega, by rw [hshift]; exact hok⟩
      rw [hshift] at hres hok2
      refine ⟨j2 + 1, by omega, ?_, hok2, ?_⟩
      · simpa [hp1] using hres
      · intro j' hj'
        rcases Nat.eq_zero_or_pos j' with h0 | hpos
        · subst h0
          simpa [Nat.mod_eq_of_lt hp] using hp1
        · obtain ⟨j3, rfl⟩ : ∃ j3, j' = j3 + 1 := ⟨j' - 1, by omega⟩
          rw [← hshift]; exact hfirst j3 (by omega)

theorem circ_reach (p q n : Nat) (hp : p < n) (hq : q < n) :
    (p + (q + n - p) % n) % n = q := by
  rw [Nat.add_mod, Nat.mod_mod, ← Nat.add_mod]
  have : p + (q + n - p) = q + n := by omega
  rw [this, Nat.add_mod_right, Nat.mod_eq_of_lt hq]

/-- A full round of the scan finds a match whenever there is one. -/
theorem circScan_finds (n : Nat) (ok : Nat → Bool) (p q : Nat) (hp : p < n) (hq : q < n)
    (hok : ok q = true) :
    ∃ r, circScan n ok n p = some r ∧ r < n ∧ ok r = true := by
  have hj : ∃ j, j < n ∧ ok ((p + j) % n) = true := by
    refine ⟨(q + n - p) % n, Nat.mod_lt _ (by omega), ?_⟩
    rw [circ_reach p q n hp hq]; exact hok
  obtain ⟨j, _, hres, hok2, _⟩ := circScan_first n ok n p hp hj
  exact ⟨_, hres, Nat.mod_lt _ (by omega), hok2⟩

/-- The value `groupavg` is the least `k` with `persons ≤ k * groups`. -/
theorem groupavg_spec (inst : Instance) (hg : 1 ≤ inst.groups) :
    inst.persons ≤ groupavg inst * inst.groups ∧
      ∀ k, inst.persons ≤ k * inst.groups → groupavg inst ≤ k := by
  unfold groupavg
  have hdm := Nat.div_add_mod inst.persons inst.groups
  have hlt := Nat.mod_lt inst.persons (show 0 < inst.groups by omega)
  generalize inst.persons / inst.groups = q at *
  generalize inst.persons % inst.groups = r at *
  constructor
  · split_ifs with h0
    · subst h0; rw [Nat.add_zero, Nat.mul_comm q]; omega
    · rw [Nat.add_mul, Nat.mul_comm q]; omega
  · intro k hk
    by_contra hcon
    split_ifs at hcon with h0
    · have : inst.groups * (k + 1) ≤ inst.groups * q := Nat.mul_le_mul_left _ (by omega)
      rw [Nat.mul_add, Nat.mul_comm inst.groups k] at this
      omega
    · have : inst.groups * k ≤ inst.groups * q := Nat.mul_le_mul_left _ (by omega)
      rw [Nat.mul_comm inst.groups k] at this
      omega

theorem groupavg_eq_ceiling (inst : Instance) (hg : 1 ≤ inst.groups) :
    groupavg inst = ceiling inst := by
  have hq : (0 : ℚ) < inst.groups := by exact_mod_cast hg
  obtain ⟨h1, h2⟩ := groupavg_spec inst hg
  apply le_antisymm
  · apply h2
    have h3 : (inst.persons : ℚ) / inst.groups ≤ (ceiling inst : ℚ) := Nat.le_ceil _
    rw [div_le_iff₀ hq] at h3
    exact_mod_cast h3
  · unfold ceiling
    rw [Nat.ceil_le, div_le_iff₀ hq]
    exact_mod_cast h1

/-! ## Group sizes and member counts -/

theorem count_single (a b : Int) : List.count a [b] = if b = a then 1 else 0 := by
  by_cases h : b = a
  · simp [h]
  · simp [h, List.count_cons]

theorem take_succ_getD (c : CONFIG) (n : Nat) (h : n < c.length) :
    c.take (n + 1) = c.take n ++ [c.getD n (-1)] := by
  rw [List.take_succ, List.getD_eq_getElem c (-1) h, List.getElem?_eq_getElem h]
  rfl

theorem partial_getD (inst : Instance) (c : CONFIG) (hc : Partial inst c) (p : Nat)
    (hp : p < inst.persons) :
    c.getD p (-1) = -1 ∨ (0 ≤ c.getD p (-1) ∧ c.getD p (-1) < (inst.groups : Int)) :=
  hc.2 _ (getD_mem c p (-1) (by rw [hc.1]; exact hp))

theorem groupsize_upto (inst : Instance) (c : CONFIG) (hc : Partial inst c) (n : Nat)
    (hn : n ≤ inst.persons) :
    ((List.range n).foldl
      (fun gs p =>
        if c.getD p (-1) ≥ 0 then
          gs.set (c.getD p (-1)).toNat (gs.getD (c.getD p (-1)).toNat 0 + 1)
        else gs)
      (List.replicate inst.groups 0)).length = inst.groups ∧
    ∀ g, g < inst.groups →
      ((List.range n).foldl
        (fun gs p =>
          if c.getD p (-1) ≥ 0 then
            gs.set (c.getD p (-1)).toNat (gs.getD (c.getD p (-1)).toNat 0 + 1)
          else gs)
        (List.replicate inst.groups 0)).getD g 0 = (c.take n).count (g : Int) := by
  induction n with
  | zero =>
    refine ⟨by simp, fun g hg => ?_⟩
    simp [List.getD_eq_getElem?_getD, hg]
  | succ n ih =>
    obtain ⟨ihl, ihc⟩ := ih (by omega)
    have hlen : n < c.length := by rw [hc.1]; omega
    rw [foldl_range_succ, take_succ_getD c n hlen]
    generalize (List.range n).foldl _ _ = gs at ihl ihc
    rcases partial_getD inst c hc n (by omega) with hx | ⟨hx0, hxg⟩
    · rw [hx]
      refine ⟨by simpa using ihl, fun g hg => ?_⟩
      have : (-1 : Int) ≠ (g : Int) := by omega
      simp only [ge_iff_le, show ¬ (0 : Int) ≤ -1 by omega, if_false]
      rw [List.count_append, ← ihc g hg, count_single, if_neg this, Nat.add_zero]
    · generalize c.getD n (-1) = x at hx0 hxg
      obtain ⟨k, rfl⟩ : ∃ k : Nat, x = (k : Int) := ⟨x.toNat, by omega⟩
      have hk : k < inst.groups := by omega
      simp only [ge_iff_le, hx0, if_true, Int.toNat_ofNat]
      refine ⟨by simpa using ihl, fun g hg => ?_⟩
      rw [List.count_append, ← ihc g hg]
      by_cases hkg : k = g
      · subst hkg
        rw [getD_set_self _ _ _ _ (by omega), count_single, if_pos rfl]
      · rw [getD_set_other _ _ _ _ _ hkg]
        have : (k : Int) ≠ (g : Int) := by omega
        rw [count_single, if_neg this, Nat.add_zero]

/-- `groupsize` counts, for every group, the persons assigned to it. -/
theorem groupsize_spec (inst : Instance) (c : CONFIG) (hc : Partial inst c) :
    (groupsize inst c).length = inst.groups ∧
      ∀ g, g < inst.groups → (groupsize inst c).getD g 0 = members c g := by
  have h := groupsize_upto inst c hc inst.persons le_rfl
  rw [← hc.1, List.take_length] at h
  unfold groupsize members
  rw [← hc.1]
  exact h

/-- Every person is unassigned or a member of exactly one group. -/
theorem sum_members (groups : Nat) (c : CONFIG)
    (hc : ∀ x ∈ c, x = -1 ∨ (0 ≤ x ∧ x < (groups : Int))) :
    (∑ g in Finset.range groups, members c g) + c.count (-1) = c.length := by
  induction c with
  | nil => simp [members]
  | cons x c ih =>
    have ih := ih (fun y hy => hc y (List.mem_cons_of_mem _ hy))
    have hx := hc x (List.mem_cons_self _ _)
    simp only [members, List.count_cons, List.length_cons, Finset.sum_add_distrib] at ih ⊢
    rcases hx with hx | ⟨hx0, hxg⟩
    · subst hx
      have : ∑ g in Finset.range groups, (if ((-1 : Int) == (g : Int)) = true then 1 else 0) = 0 := by
        apply Finset.sum_eq_zero
        intro g _
        have : (-1 : Int) ≠ (g : Int) := by omega
        simp [this]
      simp only [this]
      simp
      omega
    · obtain ⟨k, rfl⟩ : ∃ k : Nat, x = (k : Int) := ⟨x.toNat, by omega⟩
      have hk : k < groups := by omega
      have : ∑ g in Finset.range groups, (if ((k : Int) == (g : Int)) = true then 1 else 0) = 1 := by
        rw [Finset.sum_eq_single k]
        · simp
        · intro g _ hg
          have : (k : Int) ≠ (g : Int) := by omega
          simp [this]
        · intro h; exact absurd (Finset.mem_range.mpr hk) h
      simp only [this]
      have : ((k : Int) == (-1 : Int)) = false := by
        rw [beq_eq_false_iff_ne]; omega
      simp [this]
      omega

/-! ## The loops of `greedy` -/

theorem total_group_size_eq (inst : Instance) (size : List Nat) :
    total_group_size inst size = ∑ g in Finset.range inst.groups, size.getD g 0 :=
  foldl_range_add_nat _ _

theorem min_group_upto (size : List Nat) (n : Nat) :
    ((List.range n).foldl
        (fun min_g g => if size.getD g 0 < size.getD min_g 0 then g else min_g) 0 < n ∨
      (List.range n).foldl
        (fun min_g g => if size.getD g 0 < size.getD min_g 0 then g else min_g) 0 = 0) ∧
    (∀ g, g < n → size.getD ((List.range n).foldl
        (fun min_g g => if size.getD g 0 < size.getD min_g 0 then g else min_g) 0) 0
          ≤ size.getD g 0) ∧
    (∀ g, g < (List.range n).foldl
        (fun min_g g => if size.getD g 0 < size.getD min_g 0 then g else min_g) 0 →
      size.getD ((List.range n).foldl
        (fun min_g g => if size.getD g 0 < size.getD min_g 0 then g else min_g) 0) 0
          < size.getD g 0) := by
  induction n with
  | zero => simp
  | succ n ih =>
    rw [foldl_range_succ]
    generalize (List.range n).foldl _ 0 = m at ih
    obtain ⟨h1, h2, h3⟩ := ih
    by_cases hlt : size.getD n 0 < size.getD m 0
    · simp only [hlt, if_true]
      refine ⟨Or.inl (by omega), fun g hg => ?_, fun g hg => ?_⟩
      · rcases Nat.lt_succ_iff_lt_or_eq.mp hg with h | h
        · have := h2 g h; omega
        · subst h; exact le_rfl
      · have := h2 g hg; omega
    · simp only [hlt, if_false]
      refine ⟨?_, fun g hg => ?_, h3⟩
      · rcases h1 with h | h
        · exact Or.inl (by omega)
        · exact Or.inr h
      · rcases Nat.lt_succ_iff_lt_or_eq.mp hg with h | h
        · exact h2 g h
        · subst h; omega

/-- `min_g` is the lowest-index group among those of minimum size. -/
theorem min_group_spec (inst : Instance) (size : List Nat) (hg : 1 ≤ inst.groups) :
    min_group inst size < inst.groups ∧
      (∀ g, g < inst.groups → size.getD (min_group inst size) 0 ≤ size.getD g 0) ∧
      (∀ g, g < min_group inst size → size.getD (min_group inst size) 0 < size.getD g 0) := by
  obtain ⟨h1, h2, h3⟩ := min_group_upto size inst.groups
  refine ⟨?_, h2, h3⟩
  unfold min_group
  rcases h1 with h | h <;> omega

theorem max_pref_upto (inst : Instance) (c : CONFIG) (min_g n : Nat) :
    0 ≤ (List.range n).foldl
        (fun mp p =>
          if c.getD p (-1) ≥ 0 then mp
          else if mp ≥ inst.pref p min_g then mp
          else inst.pref p min_g) 0 ∧
    (∀ p, p < n → ¬ c.getD p (-1) ≥ 0 → inst.pref p min_g ≤
      (List.range n).foldl
        (fun mp p =>
          if c.getD p (-1) ≥ 0 then mp
          else if mp ≥ inst.pref p min_g then mp
          else inst.pref p min_g) 0) ∧
    ((List.range n).foldl
        (fun mp p =>
          if c.getD p (-1) ≥ 0 then mp
          else if mp ≥ inst.pref p min_g then mp
          else inst.pref p min_g) 0 = 0 ∨
      ∃ p, p < n ∧ ¬ c.getD p (-1) ≥ 0 ∧ inst.pref p min_g =
        (List.range n).foldl
          (fun mp p =>
            if c.getD p (-1) ≥ 0 then mp
            else if mp ≥ inst.pref p min_g then mp
            else inst.pref p min_g) 0) := by
  induction n with
  | zero => simp
  | succ n ih =>
    rw [foldl_range_succ]
    generalize (List.range n).foldl _ (0 : Int) = m at ih
    obtain ⟨h1, h2, h3⟩ := ih
    by_cases ha : c.getD n (-1) ≥ 0
    · simp only [ha, if_true]
      refine ⟨h1, fun p hp hpa => ?_, ?_⟩
      · rcases Nat.lt_succ_iff_lt_or_eq.mp hp with h | h
        · exact h2 p h hpa
        · subst h; exact absurd ha hpa
      · rcases h3 with h | ⟨p, hp, hpa, hpe⟩
        · exact Or.inl h
        · exact Or.inr ⟨p, by omega, hpa, hpe⟩
    · rw [if_neg ha]
      by_cases hb : m ≥ inst.pref n min_g
      · rw [if_pos hb]
        refine ⟨h1, fun p hp hpa => ?_, ?_⟩
        · rcases Nat.lt_succ_iff_lt_or_eq.mp hp with h | h
          · exact h2 p h hpa
          · subst h; exact hb
        · rcases h3 with h | ⟨p, hp, hpa, hpe⟩
          · exact Or.inl h
          · exact Or.inr ⟨p, by omega, hpa, hpe⟩
      · rw [if_neg hb]
        refine ⟨by omega, fun p hp hpa => ?_, Or.inr ⟨n, by omega, ha, rfl⟩⟩
        rcases Nat.lt_succ_iff_lt_or_eq.mp hp with h | h
        · have := h2 p h hpa; omega
        · subst h; exact le_rfl

/-- With no negative preference, `max_pref` is the preference of some unassigned person for
`min_g`, and no unassigned person has a higher one. -/
theorem max_pref_spec (inst : Instance) (c : CONFIG) (min_g : Nat) (hc : Partial inst c)
    (hpref : ∀ p, p < inst.persons → 0 ≤ inst.pref p min_g)
    (q : Nat) (hq : q < inst.persons) (hqu : c.getD q (-1) = -1) :
    (∀ p, p < inst.persons → c.getD p (-1) = -1 → inst.pref p min_g ≤ max_pref inst c min_g) ∧
      ∃ p, p < inst.persons ∧ c.getD p (-1) = -1 ∧ inst.pref p min_g = max_pref inst c min_g := by
  obtain ⟨h1, h2, h3⟩ := max_pref_upto inst c min_g inst.persons
  have hneg : ∀ p, c.getD p (-1) = -1 → ¬ c.getD p (-1) ≥ 0 := by
    intro p hp; rw [hp]; omega
  have hle : ∀ p, p < inst.persons → c.getD p (-1) = -1 →
      inst.pref p min_g ≤ max_pref inst c min_g := fun p hp hpu => h2 p hp (hneg p hpu)
  refine ⟨hle, ?_⟩
  rcases h3 with h | ⟨p, hp, hpa, hpe⟩
  · refine ⟨q, hq, hqu, ?_⟩
    have := hle q hq hqu
    have := hpref q hq
    unfold max_pref at *
    omega
  · refine ⟨p, hp, ?_, hpe⟩
    rcases partial_getD inst c hc p hp with h | ⟨h, _⟩
    · exact h
    · exact absurd h hpa

/-! ## Writing one entry of a candidate -/

theorem count_set_getD (c : CONFIG) (p : Nat) (a b : Int) (h : p < c.length) :
    (c.set p a).count b =
      c.count b - (if c.getD p (-1) = b then 1 else 0) + (if a = b then 1 else 0) := by
  rw [List.count_set a b c p h, List.getD_eq_getElem c (-1) h]
  simp only [beq_iff_eq]

theorem count_pos_of_getD (c : CONFIG) (p : Nat) (b : Int) (h : p < c.length)
    (hb : c.getD p (-1) = b) : 0 < c.count b := by
  rw [List.count_pos_iff]
  rw [← hb]
  exact getD_mem c p (-1) h

theorem exists_getD_of_count_pos (c : CONFIG) (b : Int) (h : 0 < c.count b) :
    ∃ p, p < c.length ∧ c.getD p (-1) = b := by
  rw [List.count_pos_iff] at h
  obtain ⟨p, hp, hpe⟩ := List.getElem_of_mem h
  exact ⟨p, hp, by rw [List.getD_eq_getElem c (-1) hp]; exact hpe⟩

theorem partial_set (inst : Instance) (c : CONFIG) (hc : Partial inst c) (p : Nat) (a : Int)
    (ha : a = -1 ∨ (0 ≤ a ∧ a < (inst.groups : Int))) : Partial inst (c.set p a) := by
  refine ⟨by rw [List.length_set]; exact hc.1, fun x hx => ?_⟩
  rcases List.mem_or_eq_of_mem_set hx with h | h
  · exact hc.2 x h
  · rw [h]; exact ha

/-- Assigning an unassigned person to group `g`: one unassigned entry less, one more member
of `g`, every other group as before. -/
theorem assign_counts (c : CONFIG) (p g : Nat) (h : p < c.length) (hu : c.getD p (-1) = -1) :
    (c.set p (g : Int)).count (-1) + 1 = c.count (-1) ∧
      ∀ g', members (c.set p (g : Int)) g' = members c g' + (if g = g' then 1 else 0) := by
  have hpos := count_pos_of_getD c p (-1) h hu
  constructor
  · rw [count_set_getD c p _ _ h, hu]
    have : ¬ ((g : Int) = -1) := by omega
    simp only [if_true, this, if_false]
    omega
  · intro g'
    unfold members
    rw [count_set_getD c p _ _ h, hu]
    have : ¬ ((-1 : Int) = (g' : Int)) := by omega
    simp only [this, if_false, Nat.cast_inj]
    omega

/-- Unassigning a member of group `g`: one more unassigned entry, one member of `g` less,
every other group as before. -/
theorem unassign_counts (c : CONFIG) (p g : Nat) (h : p < c.length)
    (hu : c.getD p (-1) = (g : Int)) :
    (c.set p (-1)).count (-1) = c.count (-1) + 1 ∧ 0 < members c g ∧
      ∀ g', members (c.set p (-1)) g' = members c g' - (if g = g' then 1 else 0) := by
  have hpos := count_pos_of_getD c p _ h hu
  refine ⟨?_, hpos, ?_⟩
  · rw [count_set_getD c p _ _ h, hu]
    have : ¬ ((g : Int) = -1) := by omega
    simp only [if_true, this, if_false]
    omega
  · intro g'
    unfold members
    rw [count_set_getD c p _ _ h, hu]
    have : ¬ ((-1 : Int) = (g' : Int)) := by omega
    simp only [this, if_false, Nat.cast_inj]
    omega

/-! ## One iteration of `greedy` -/

/-- With an unassigned person left, an iteration of `greedy` finds a person for `min_g`:
an unassigned one whose preference for `min_g` is `max_pref`. -/
theorem greedy_step_some (inst : Instance) (rand : Nat → Nat) (hg : 1 ≤ inst.groups)
    (hpref : ∀ p, p < inst.persons → ∀ g, g < inst.groups → 0 ≤ inst.pref p g)
    (s : GState) (hc : Partial inst s.config) (hun : 0 < s.config.count (-1)) :
    ∃ p, p < inst.persons ∧ s.config.getD p (-1) = -1 ∧
      inst.pref p (min_group inst s.group_size) =
        max_pref inst s.config (min_group inst s.group_size) ∧
      greedy_step inst rand s = some
        { config := s.config.set p (min_group inst s.group_size : Int)
          group_size := s.group_size.set (min_group inst s.group_size)
            (s.group_size.getD (min_group inst s.group_size) 0 + 1)
          i := s.i + 1
          warnings := if max_pref inst s.config (min_group inst s.group_size) = 0
            then s.warnings + 1 else s.warnings } := by
  obtain ⟨hmin, -, -⟩ := min_group_spec inst s.group_size hg
  obtain ⟨q, hq, hqu⟩ := exists_getD_of_count_pos s.config (-1) hun
  rw [hc.1] at hq
  obtain ⟨-, p0, hp0, hp0u, hp0e⟩ :=
    max_pref_spec inst s.config _ hc (fun p hp => hpref p hp _ hmin) q hq hqu
  have hok0 : greedy_ok inst s.config (min_group inst s.group_size)
      (max_pref inst s.config (min_group inst s.group_size)) p0 = true := by
    unfold greedy_ok
    rw [hp0u, hp0e]
    simp
  obtain ⟨r, hr, hrlt, hrok⟩ := circScan_finds inst.persons _ (rand s.i % inst.persons) p0
    (Nat.mod_lt _ (by omega)) hp0 hok0
  simp only [greedy_ok, Bool.and_eq_true, beq_iff_eq] at hrok
  refine ⟨r, hrlt, hrok.1, hrok.2, ?_⟩
  simp only [greedy_step, hr]

/-- The effect of one iteration of `greedy` on the loop invariant and on the counts. -/
theorem greedy_step_spec (inst : Instance) (rand : Nat → Nat) (hg : 1 ≤ inst.groups)
    (hpref : ∀ p, p < inst.persons → ∀ g, g < inst.groups → 0 ≤ inst.pref p g)
    (s : GState) (hinv : SizeInv inst s.config s.group_size) (hun : 0 < s.config.count (-1)) :
    ∃ s' p, greedy_step inst rand s = some s' ∧ p < inst.persons ∧
      s.config.getD p (-1) = -1 ∧
      s'.config = s.config.set p (min_group inst s.group_size : Int) ∧
      s'.i = s.i + 1 ∧
      SizeInv inst s'.config s'.group_size ∧
      s'.config.count (-1) + 1 = s.config.count (-1) ∧
      ∀ g, members s'.config g =
        members s.config g + (if min_group inst s.group_size = g then 1 else 0) := by
  obtain ⟨p, hp, hpu, -, hstep⟩ := greedy_step_some inst rand hg hpref s hinv.1 hun
  obtain ⟨hmin, -, -⟩ := min_group_spec inst s.group_size hg
  obtain ⟨hc, hlen, hsz⟩ := hinv
  have hpl : p < s.config.length := by rw [hc.1]; exact hp
  obtain ⟨hcnt, hmem⟩ := assign_counts s.config p (min_group inst s.group_size) hpl hpu
  refine ⟨_, p, hstep, hp, hpu, rfl, rfl, ⟨?_, ?_, ?_⟩, hcnt, hmem⟩
  · exact partial_set inst _ hc p _ (Or.inr ⟨by omega, by exact_mod_cast hmin⟩)
  · simp only [List.length_set]; exact hlen
  · intro g hg
    simp only
    rw [hmem g]
    by_cases hmg : min_group inst s.group_size = g
    · subst hmg
      rw [getD_set_self _ _ _ _ (by omega), hsz _ hmin]
      simp
    · rw [getD_set_other _ _ _ _ _ hmg, hsz g hg]
      simp [hmg]

/-! ## The outer loop of `greedy` -/

theorem sum_sizes (inst : Instance) (c : CONFIG) (size : List Nat)
    (hinv : SizeInv inst c size) :
    (∑ g in Finset.range inst.groups, size.getD g 0) + c.count (-1) = inst.persons := by
  obtain ⟨hc, -, hsz⟩ := hinv
  rw [← hc.1, ← sum_members inst.groups c hc.2]
  congr 1
  exact Finset.sum_congr rfl (fun g hg => hsz g (Finset.mem_range.mp hg))

theorem sizeInv_groupsize (inst : Instance) (c : CONFIG) (hc : Partial inst c) :
    SizeInv inst c (groupsize inst c) :=
  ⟨hc, (groupsize_spec inst c hc).1, (groupsize_spec inst c hc).2⟩

/-- The outer loop of `greedy` runs once per unassigned person. -/
theorem greedy_iterations_eq (inst : Instance) (c : CONFIG) (hc : Partial inst c) :
    greedy_iterations inst c = c.count (-1) := by
  have h := sum_sizes inst c _ (sizeInv_groupsize inst c hc)
  unfold greedy_iterations
  rw [total_group_size_eq]
  omega

/-- While a person is unassigned, the group `greedy` fills is below the ceiling. -/
theorem min_group_below_cap (inst : Instance) (hg : 1 ≤ inst.groups) (c : CONFIG)
    (size : List Nat) (hinv : SizeInv inst c size) (hun : 0 < c.count (-1)) :
    members c (min_group inst size) < groupavg inst := by
  obtain ⟨hmin, hle, -⟩ := min_group_spec inst size hg
  have hsum := sum_sizes inst c size hinv
  have hcap := (groupavg_spec inst hg).1
  rw [← hinv.2.2 _ hmin]
  have hmul : (Finset.range inst.groups).card • size.getD (min_group inst size) 0 ≤
      ∑ g in Finset.range inst.groups, size.getD g 0 :=
    Finset.card_nsmul_le_sum _ _ _ (fun g hg => hle g (Finset.mem_range.mp hg))
  rw [Finset.card_range, smul_eq_mul] at hmul
  by_contra hcon
  have : inst.groups * groupavg inst ≤ inst.groups * size.getD (min_group inst size) 0 :=
    Nat.mul_le_mul_left _ (by omega)
  rw [Nat.mul_comm inst.groups (groupavg inst)] at this
  omega

theorem greedy_loop_succ (inst : Instance) (rand : Nat → Nat) (j : Nat) (s : GState) :
    greedy_loop inst rand (j + 1) s =
      (greedy_loop inst rand j s).bind (greedy_step inst rand) := by
  induction j generalizing s with
  | zero =>
    cases h : greedy_step inst rand s <;> simp [greedy_loop, h]
  | succ j ih =>
    rw [greedy_loop]
    cases h : greedy_step inst rand s with
    | none => simp [greedy_loop, h]
    | some s1 =>
      simp only [Option.some_bind]
      rw [ih s1]
      simp [greedy_loop, h]

/-- The first `j` iterations of `greedy`, for `j` at most the number of unassigned persons:
they all complete, each assigns one unassigned person and leaves the others alone. -/
theorem greedy_loop_spec (inst : Instance) (rand : Nat → Nat) (hg : 1 ≤ inst.groups)
    (hpref : ∀ p, p < inst.persons → ∀ g, g < inst.groups → 0 ≤ inst.pref p g)
    (j : Nat) (s : GState) (hinv : SizeInv inst s.config s.group_size)
    (hj : j ≤ s.config.count (-1)) :
    ∃ s', greedy_loop inst rand j s = some s' ∧ SizeInv inst s'.config s'.group_size ∧
      s'.config.count (-1) + j = s.config.count (-1) ∧ s'.i = s.i + j ∧
      (∀ p, s.config.getD p (-1) ≠ -1 → s'.config.getD p (-1) = s.config.getD p (-1)) ∧
      ((∀ g, g < inst.groups → members s.config g ≤ groupavg inst) →
        ∀ g, g < inst.groups → members s'.config g ≤ groupavg inst) := by
  induction j generalizing s with
  | zero => exact ⟨s, rfl, hinv, rfl, rfl, fun _ _ => rfl, fun h => h⟩
  | succ j ih =>
    obtain ⟨s1, p, hstep, hp, hpu, hcfg, hi, hinv1, hcnt, hmem⟩ :=
      greedy_step_spec inst rand hg hpref s hinv (by omega)
    obtain ⟨s2, hloop, hinv2, hcnt2, hi2, hframe, hcap⟩ := ih s1 hinv1 (by omega)
    refine ⟨s2, ?_, hinv2, by omega, by omega, ?_, ?_⟩
    · simp only [greedy_loop, hstep, Option.some_bind, hloop]
    · intro q hq
      rw [hframe q, hcfg, getD_set_other]
      · rintro rfl; exact hq hpu
      · rw [hcfg, getD_set_other]
        · exact hq
        · rintro rfl; exact hq hpu
    · intro hcap0
      apply hcap
      intro g hg'
      rw [hmem g]
      by_cases hmg : min_group inst s.group_size = g
      · subst hmg
        have := min_group_below_cap inst hg s.config s.group_size hinv (by omega)
        simp
        omega
      · simp only [hmg, if_false]
        exact hcap0 g hg'

theorem assigned_of_complete (inst : Instance) (c : CONFIG) (hc : Partial inst c)
    (h : c.count (-1) = 0) : Assigned inst c := by
  refine ⟨hc.1, fun x hx => ?_⟩
  rcases hc.2 x hx with h1 | h1
  · subst h1
    exact absurd hx (List.count_eq_zero.mp h)
  · exact h1

theorem partial_of_assigned (inst : Instance) (c : CONFIG) (hc : Assigned inst c) :
    Partial inst c := ⟨hc.1, fun x hx => Or.inr (hc.2 x hx)⟩

/-- `greedy` on a partial candidate: it returns, after one draw per unassigned person, a
fully-assigned candidate that agrees with the input on every assigned person and respects
the ceiling if the input does. -/
theorem greedy_spec (inst : Instance) (rand : Nat → Nat) (hg : 1 ≤ inst.groups)
    (hpref : ∀ p, p < inst.persons → ∀ g, g < inst.groups → 0 ≤ inst.pref p g)
    (c : CONFIG) (i : Nat) (hc : Partial inst c) :
    ∃ r, greedy inst rand c i = some (r, i + c.count (-1)) ∧ Assigned inst r ∧
      (∀ p, c.getD p (-1) ≠ -1 → r.getD p (-1) = c.getD p (-1)) ∧
      ((∀ g, g < inst.groups → members c g ≤ groupavg inst) →
        ∀ g, g < inst.groups → members r g ≤ groupavg inst) := by
  obtain ⟨s', hloop, hinv, hcnt, hi, hframe, hcap⟩ :=
    greedy_loop_spec inst rand hg hpref (c.count (-1)) (greedy_init inst c i)
      (sizeInv_groupsize inst c hc) le_rfl
  refine ⟨s'.config, ?_, ?_, hframe, hcap⟩
  · unfold greedy greedy_run
    rw [greedy_iterations_eq inst c hc, hloop]
    simp only [Option.map_some', hi]
    rfl
  · apply assigned_of_complete inst _ hinv.1
    simp only [greedy_init] at hcnt
    omega

/-! ## The eviction loop of `repair` -/

/-- The eviction loop from group `g` on, given fuel for every remaining iteration: it exits,
only ever unassigns persons, cuts every group from `g` on down to the ceiling and leaves the
groups before `g` alone; it draws once per eviction. -/
theorem evict_loop_spec (inst : Instance) (rand : Nat → Nat)
    (fuel g : Nat) (c : CONFIG) (size : List Nat) (i : Nat) (hinv : SizeInv inst c size)
    (hg : g ≤ inst.groups)
    (hfuel : (inst.groups - g) + (inst.persons - c.count (-1)) < fuel) :
    ∃ r i', evict_loop inst rand fuel g c size i = some (r, i') ∧ Partial inst r ∧
      (∀ p, r.getD p (-1) = c.getD p (-1) ∨ r.getD p (-1) = -1) ∧
      (∀ g', g' < inst.groups → members r g' =
        if g ≤ g' then min (members c g') (groupavg inst) else members c g') ∧
      i' + c.count (-1) = i + r.count (-1) := by
  induction fuel generalizing g c size i with
  | zero => omega
  | succ fuel ih =>
    unfold evict_loop
    by_cases hgl : g < inst.groups
    · rw [if_pos hgl]
      by_cases hsz : size.getD g 0 ≤ groupavg inst
      · rw [if_pos hsz]
        obtain ⟨r, i', hres, hpart, hframe, hmem, hi⟩ :=
          ih (g + 1) c size i hinv (by omega) (by omega)
        refine ⟨r, i', hres, hpart, hframe, fun g' hg' => ?_, hi⟩
        rw [hmem g' hg']
        by_cases h1 : g + 1 ≤ g'
        · rw [if_pos h1, if_pos (by omega)]
        · rw [if_neg h1]
          by_cases h2 : g ≤ g'
          · have : g' = g := by omega
            subst this
            rw [if_pos h2]
            rw [hinv.2.2 _ hgl] at hsz
            exact (min_eq_left hsz).symm
          · rw [if_neg h2]
      · rw [if_neg hsz]
        have hmg : groupavg inst < members c g := by
          rw [← hinv.2.2 _ hgl]; omega
        obtain ⟨q, hq, hqe⟩ := exists_getD_of_count_pos c (g : Int)
          (show 0 < members c g by omega)
        rw [hinv.1.1] at hq
        have hok : (fun p => c.getD p (-1) == (g : Int)) q = true := by
          simp only [beq_iff_eq]; exact hqe
        obtain ⟨p, hp, hplt, hpok⟩ := circScan_finds inst.persons
          (fun p => c.getD p (-1) == (g : Int))
          (rand i % inst.persons) q (Nat.mod_lt _ (by omega)) hq hok
        simp only [beq_iff_eq] at hpok
        rw [hp]
        simp only
        have hpl : p < c.length := by rw [hinv.1.1]; exact hplt
        obtain ⟨hcnt, -, hmem1⟩ := unassign_counts c p g hpl hpok
        have hsum := sum_sizes inst c size hinv
        have hpos : 0 < ∑ g in Finset.range inst.groups, size.getD g 0 := by
          have : size.getD g 0 ≤ ∑ g in Finset.range inst.groups, size.getD g 0 :=
            Finset.single_le_sum (f := fun g => size.getD g 0) (fun _ _ => Nat.zero_le _)
              (Finset.mem_range.mpr hgl)
          omega
        have hinv1 : SizeInv inst (c.set p (-1)) (size.set g (size.getD g 0 - 1)) := by
          refine ⟨partial_set inst c hinv.1 p _ (Or.inl rfl), ?_, fun g' hg' => ?_⟩
          · rw [List.length_set]; exact hinv.2.1
          · rw [hmem1 g']
            by_cases hgg : g = g'
            · subst hgg
              rw [getD_set_self _ _ _ _ (by rw [hinv.2.1]; exact hgl), hinv.2.2 _ hgl]
              simp
            · rw [getD_set_other _ _ _ _ _ hgg, hinv.2.2 _ hg']
              simp [hgg]
        obtain ⟨r, i', hres, hpart, hframe, hmem, hi⟩ :=
          ih g (c.set p (-1)) (size.set g (size.getD g 0 - 1)) (i + 1) hinv1 hg
            (by rw [hcnt]; omega)
        refine ⟨r, i', hres, hpart, fun p' => ?_, fun g' hg' => ?_, by omega⟩
        · rcases hframe p' with h | h
          · by_cases hpp : p = p'
            · subst hpp
              rw [getD_set_self _ _ _ _ hpl] at h
              exact Or.inr h
            · rw [getD_set_other _ _ _ _ _ hpp] at h
              exact Or.inl h
          · exact Or.inr h
        · rw [hmem g' hg', hmem1 g']
          by_cases h2 : g ≤ g'
          · rw [if_pos h2, if_pos h2]
            by_cases hgg : g = g'
            · subst hgg
              rw [if_pos rfl, min_eq_right (by omega), min_eq_right (by omega)]
            · rw [if_neg hgg, Nat.sub_zero]
          · rw [if_neg h2, if_neg h2, if_neg (by omega), Nat.sub_zero]
    · rw [if_neg hgl]
      refine ⟨c, i, rfl, hinv.1, fun _ => Or.inl rfl, fun g' hg' => ?_, rfl⟩
      rw [if_neg (by omega)]

/-- The eviction phase of `repair` on a partial candidate. -/
theorem evict_spec (inst : Instance) (rand : Nat → Nat)
    (c : CONFIG) (i : Nat) (hc : Partial inst c) :
    ∃ r i', evict inst rand c i = some (r, i') ∧ Partial inst r ∧
      (∀ p, r.getD p (-1) = c.getD p (-1) ∨ r.getD p (-1) = -1) ∧
      (∀ g, g < inst.groups → members r g = min (members c g) (groupavg inst)) ∧
      i' + c.count (-1) = i + r.count (-1) := by
  obtain ⟨r, i', hres, hpart, hframe, hmem, hi⟩ :=
    evict_loop_spec inst rand (inst.groups + inst.persons + 1) 0 c (groupsize inst c) i
      (sizeInv_groupsize inst c hc) (Nat.zero_le _) (by omega)
  refine ⟨r, i', hres, hpart, hframe, fun g hg => ?_, hi⟩
  rw [hmem g hg, if_pos (Nat.zero_le _)]

/-- `repair` on a partial candidate returns a fully-assigned candidate within the ceiling. -/
theorem repair_spec (inst : Instance) (rand : Nat → Nat) (hg : 1 ≤ inst.groups)
    (hpref : ∀ p, p < inst.persons → ∀ g, g < inst.groups → 0 ≤ inst.pref p g)
    (c : CONFIG) (i : Nat) (hc : Partial inst c) :
    ∃ r i', repair inst rand c i = some (r, i') ∧ Assigned inst r ∧
      ∀ g, g < inst.groups → members r g ≤ groupavg inst := by
  obtain ⟨e, i1, hev, hpart, -, hmem, -⟩ := evict_spec inst rand c i hc
  obtain ⟨r, hgr, hass, -, hcap⟩ := greedy_spec inst rand hg hpref e i1 hpart
  refine ⟨r, i1 + e.count (-1), ?_, hass, hcap (fun g hg => ?_)⟩
  · unfold repair
    rw [if_neg (by omega), hev]
    exact hgr
  · rw [hmem g hg]
    exact min_le_right _ _

/-! ## `fitness` and `max_fitness` -/

theorem row_max_upto (inst : Instance) (p n : Nat) :
    0 ≤ (List.range n).foldl
        (fun mx g => if inst.pref p g > mx then inst.pref p g else mx) (0 : Int) ∧
    (∀ g, g < n → inst.pref p g ≤ (List.range n).foldl
        (fun mx g => if inst.pref p g > mx then inst.pref p g else mx) (0 : Int)) ∧
    ((List.range n).foldl
        (fun mx g => if inst.pref p g > mx then inst.pref p g else mx) (0 : Int) = 0 ∨
      ∃ g, g < n ∧ inst.pref p g = (List.range n).foldl
        (fun mx g => if inst.pref p g > mx then inst.pref p g else mx) (0 : Int)) := by
  induction n with
  | zero => simp
  | succ n ih =>
    rw [foldl_range_succ]
    generalize (List.range n).foldl _ (0 : Int) = m at ih
    obtain ⟨h1, h2, h3⟩ := ih
    by_cases hgt : inst.pref p n > m
    · rw [if_pos hgt]
      refine ⟨by omega, fun g hg => ?_, Or.inr ⟨n, by omega, rfl⟩⟩
      rcases Nat.lt_succ_iff_lt_or_eq.mp hg with h | h
      · have := h2 g h; omega
      · subst h; exact le_rfl
    · rw [if_neg hgt]
      refine ⟨h1, fun g hg => ?_, ?_⟩
      · rcases Nat.lt_succ_iff_lt_or_eq.mp hg with h | h
        · exact h2 g h
        · subst h; omega
      · rcases h3 with h | ⟨g, hg, hge⟩
        · exact Or.inl h
        · exact Or.inr ⟨g, by omega, hge⟩

/-- For a row without negative entries, the running maximum of `read_input` is the greatest
preference of the row. -/
theorem row_max_isGreatest (inst : Instance) (p : Nat) (hg : 1 ≤ inst.groups)
    (hpref : ∀ g, g < inst.groups → 0 ≤ inst.pref p g) :
    IsGreatest {x | ∃ g, g < inst.groups ∧ inst.pref p g = x} (row_max inst p) := by
  obtain ⟨-, h2, h3⟩ := row_max_upto inst p inst.groups
  constructor
  · rcases h3 with h | ⟨g, hg1, hge⟩
    · refine ⟨0, by omega, ?_⟩
      have := h2 0 (by omega)
      have := hpref 0 (by omega)
      unfold row_max
      omega
    · exact ⟨g, hg1, hge⟩
  · rintro x ⟨g, hg1, rfl⟩
    exact h2 g hg1

theorem max_fitness_eq_sum (inst : Instance) :
    max_fitness inst = ∑ p in Finset.range inst.persons, row_max inst p :=
  foldl_range_add_int _ _

theorem fitness_eq_sum (inst : Instance) (c : CONFIG) :
    fitness inst c = ∑ p in Finset.range inst.persons, inst.pref p (c.getD p (-1)).toNat :=
  foldl_range_add_int _ _

theorem assigned_getD (inst : Instance) (c : CONFIG) (hc : Assigned inst c) (p : Nat)
    (hp : p < inst.persons) : 0 ≤ c.getD p (-1) ∧ c.getD p (-1) < (inst.groups : Int) :=
  hc.2 _ (getD_mem c p (-1) (by rw [hc.1]; exact hp))

theorem fitness_le_max_fitness (inst : Instance) (c : CONFIG) (hc : Assigned inst c) :
    fitness inst c ≤ max_fitness inst := by
  rw [fitness_eq_sum, max_fitness_eq_sum]
  apply Finset.sum_le_sum
  intro p hp
  obtain ⟨h0, hlt⟩ := assigned_getD inst c hc p (Finset.mem_range.mp hp)
  exact (row_max_upto inst p inst.groups).2.1 _ (by omega)

theorem fitness_nonneg (inst : Instance) (c : CONFIG) (hc : Assigned inst c)
    (hpref : ∀ p, p < inst.persons → ∀ g, g < inst.groups → 0 ≤ inst.pref p g) :
    0 ≤ fitness inst c := by
  rw [fitness_eq_sum]
  apply Finset.sum_nonneg
  intro p hp
  obtain ⟨h0, hlt⟩ := assigned_getD inst c hc p (Finset.mem_range.mp hp)
  exact hpref p (Finset.mem_range.mp hp) _ (by omega)

/-! ## The merge of `mutate` -/

theorem foldl_set_upto (f : Nat → Int) (init : CONFIG) (n : Nat) (hn : n ≤ init.length) :
    ((List.range n).foldl (fun config p => config.set p (f p)) init).length = init.length ∧
    ∀ p, ((List.range n).foldl (fun config p => config.set p (f p)) init).getD p (-1) =
      if p < n then f p else init.getD p (-1) := by
  induction n with
  | zero => simp
  | succ n ih =>
    rw [foldl_range_succ]
    obtain ⟨h1, h2⟩ := ih (by omega)
    generalize (List.range n).foldl _ init = m at h1 h2
    refine ⟨by rw [List.length_set]; exact h1, fun p => ?_⟩
    by_cases hpn : n = p
    · subst hpn
      rw [getD_set_self _ _ _ _ (by omega), if_pos (by omega)]
    · rw [getD_set_other _ _ _ _ _ hpn, h2 p]
      by_cases hlt : p < n
      · rw [if_pos hlt, if_pos (by omega)]
      · rw [if_neg hlt, if_neg (by omega)]

/-- The candidate `mutate` hands to `repair`: entry `p` comes from the first parent for
`p < persons/2` and from the second parent otherwise. -/
theorem merge_spec (inst : Instance) (A B : CONFIG) :
    (merge inst A B).length = inst.persons ∧
      ∀ p, p < inst.persons → (merge inst A B).getD p (-1) =
        if p < inst.persons / 2 then A.getD p (-1) else B.getD p (-1) := by
  have h := foldl_set_upto
    (fun p => if p < inst.persons / 2 then A.getD p (-1) else B.getD p (-1))
    (new_config inst) inst.persons (by simp [new_config])
  refine ⟨by rw [merge, h.1]; simp [new_config], fun p hp => ?_⟩
  rw [merge, h.2 p, if_pos hp]

theorem mem_iff_getD (c : CONFIG) (x : Int) :
    x ∈ c ↔ ∃ p, p < c.length ∧ c.getD p (-1) = x := by
  constructor
  · intro h
    obtain ⟨p, hp, hpe⟩ := List.getElem_of_mem h
    exact ⟨p, hp, by rw [List.getD_eq_getElem c (-1) hp]; exact hpe⟩
  · rintro ⟨p, hp, rfl⟩
    exact getD_mem c p (-1) hp

theorem merge_assigned (inst : Instance) (A B : CONFIG) (hA : Assigned inst A)
    (hB : Assigned inst B) : Assigned inst (merge inst A B) := by
  obtain ⟨hlen, hget⟩ := merge_spec inst A B
  refine ⟨hlen, fun x hx => ?_⟩
  obtain ⟨p, hp, rfl⟩ := (mem_iff_getD _ x).mp hx
  rw [hlen] at hp
  rw [hget p hp]
  split_ifs
  · exact assigned_getD inst A hA p hp
  · exact assigned_getD inst B hB p hp

/-- On a candidate whose groups are all within the ceiling the eviction loop changes nothing
and draws nothing. -/
theorem evict_loop_id (inst : Instance) (rand : Nat → Nat) (fuel g : Nat) (c : CONFIG)
    (size : List Nat) (i : Nat) (hcap : ∀ g', g' < inst.groups → size.getD g' 0 ≤ groupavg inst)
    (hfuel : inst.groups - g < fuel) :
    evict_loop inst rand fuel g c size i = some (c, i) := by
  induction fuel generalizing g with
  | zero => omega
  | succ fuel ih =>
    unfold evict_loop
    by_cases hgl : g < inst.groups
    · rw [if_pos hgl, if_pos (hcap g hgl)]
      exact ih (g + 1) (by omega)
    · rw [if_neg hgl]

/-- `repair` returns a fully-assigned candidate that is within the ceiling as it is, and
draws nothing. -/
theorem repair_id (inst : Instance) (rand : Nat → Nat) (hg : 1 ≤ inst.groups) (c : CONFIG)
    (i : Nat) (hc : Assigned inst c)
    (hcap : ∀ g, g < inst.groups → members c g ≤ groupavg inst) :
    repair inst rand c i = some (c, i) := by
  have hpart := partial_of_assigned inst c hc
  have hsz := groupsize_spec inst c hpart
  have hev : evict inst rand c i = some (c, i) := by
    apply evict_loop_id
    · intro g hg'
      rw [hsz.2 g hg']
      exact hcap g hg'
    · omega
  have hcnt : c.count (-1) = 0 := by
    rw [List.count_eq_zero]
    intro hmem
    have := (hc.2 _ hmem).1
    omega
  unfold repair
  rw [if_neg (by omega), hev]
  simp only [Option.some_bind, greedy, greedy_run]
  rw [greedy_iterations_eq inst c hpart, hcnt]
  rfl

/-! ## Populations: slots, removal, the elite scan -/

theorem ext_getD_gen {α : Type} (l1 l2 : List α) (d : α) (hlen : l1.length = l2.length)
    (h : ∀ p, p < l1.length → l1.getD p d = l2.getD p d) : l1 = l2 := by
  apply List.ext_getElem hlen
  intro p h1 h2
  have := h p h1
  rwa [List.getD_eq_getElem l1 d h1, List.getD_eq_getElem l2 d h2] at this

theorem getD_none_of_le (l : Population) (p : Nat) (h : l.length ≤ p) :
    l.getD p none = none := by
  rw [List.getD_eq_getElem?_getD, List.getElem?_eq_none h]
  rfl

theorem getD_set_pop (l : Population) (p q : Nat) (a : Option CONFIG) :
    (l.set p a).getD q none = if p = q ∧ p < l.length then a else l.getD q none := by
  by_cases hpq : p = q
  · subst hpq
    by_cases hl : p < l.length
    · rw [getD_set_self _ _ _ _ hl, if_pos ⟨rfl, hl⟩]
    · rw [if_neg (fun h => hl h.2), getD_none_of_le _ _ (by rw [List.length_set]; omega),
        getD_none_of_le _ _ (by omega)]
  · rw [getD_set_other _ _ _ _ _ hpq, if_neg (fun h => hpq h.1)]

theorem length_without (configs : Population) (T : List Nat) :
    (without configs T).length = configs.length := by
  induction T generalizing configs with
  | nil => rfl
  | cons t T ih =>
    simp only [without, List.foldl_cons] at ih ⊢
    rw [ih, List.length_set]

theorem getD_without (configs : Population) (T : List Nat) (j : Nat) :
    (without configs T).getD j none = if j ∈ T then none else configs.getD j none := by
  induction T generalizing configs with
  | nil => simp [without]
  | cons t T ih =>
    simp only [without, List.foldl_cons] at ih ⊢
    rw [ih, getD_set_pop]
    by_cases hjT : j ∈ T
    · rw [if_pos hjT, if_pos (List.mem_cons_of_mem _ hjT)]
    · rw [if_neg hjT]
      by_cases htj : t = j
      · subst htj
        rw [if_pos (List.mem_cons_self _ _)]
        by_cases hl : t < configs.length
        · rw [if_pos ⟨rfl, hl⟩]
        · rw [if_neg (fun h => hl h.2), getD_none_of_le configs t (by omega)]
      · rw [if_neg (fun h => htj h.1), if_neg]
        intro h
        rcases List.mem_cons.mp h with h | h
        · exact htj h.symm
        · exact hjT h

theorem without_append (configs : Population) (T : List Nat) (m : Nat) :
    without configs (T ++ [m]) = (without configs T).set m none := by
  simp [without, List.foldl_append]

theorem best_scan_upto (inst : Instance) (configs : Population) (n : Nat)
    (hfit : ∀ j c, j < n → configs.getD j none = some c → 0 ≤ fitness inst c) :
    ((List.range n).foldl (best_scan_step inst configs) (-1, none) = (-1, none) ∧
      ∀ j, j < n → configs.getD j none = none) ∨
    ∃ m cm, (List.range n).foldl (best_scan_step inst configs) (-1, none)
        = (fitness inst cm, some m) ∧ m < n ∧ configs.getD m none = some cm ∧
      ∀ j c, j < n → configs.getD j none = some c →
        fitness inst c ≤ fitness inst cm ∧ (j < m → fitness inst c < fitness inst cm) := by
  induction n with
  | zero => left; exact ⟨rfl, fun j hj => by omega⟩
  | succ n ih =>
    rw [foldl_range_succ]
    have ih := ih (fun j c hj => hfit j c (by omega))
    generalize (List.range n).foldl _ ((-1 : Int), (none : Option Nat)) = acc at ih
    unfold best_scan_step
    cases hn : configs.getD n none with
    | none =>
      simp only
      rcases ih with ⟨h1, h2⟩ | ⟨m, cm, h1, h2, h3, h4⟩
      · left
        refine ⟨h1, fun j hj => ?_⟩
        rcases Nat.lt_succ_iff_lt_or_eq.mp hj with h | h
        · exact h2 j h
        · subst h; exact hn
      · right
        refine ⟨m, cm, h1, by omega, h3, fun j c hj hc => ?_⟩
        rcases Nat.lt_succ_iff_lt_or_eq.mp hj with h | h
        · exact h4 j c h hc
        · subst h; rw [hn] at hc; cases hc
    | some cn =>
      simp only
      have hcn := hfit n cn (by omega) hn
      rcases ih with ⟨h1, h2⟩ | ⟨m, cm, h1, h2, h3, h4⟩
      · right
        subst h1
        rw [if_pos (by show fitness inst cn > -1; omega)]
        refine ⟨n, cn, rfl, by omega, hn, fun j c hj hc => ?_⟩
        rcases Nat.lt_succ_iff_lt_or_eq.mp hj with h | h
        · rw [h2 j h] at hc; cases hc
        · subst h; rw [hn] at hc; cases hc
          exact ⟨le_rfl, fun h => absurd h (lt_irrefl _)⟩
      · right
        subst h1
        by_cases hgt : fitness inst cn > fitness inst cm
        · rw [if_pos hgt]
          refine ⟨n, cn, rfl, by omega, hn, fun j c hj hc => ?_⟩
          rcases Nat.lt_succ_iff_lt_or_eq.mp hj with h | h
          · have := (h4 j c h hc).1
            exact ⟨by omega, fun _ => by omega⟩
          · subst h; rw [hn] at hc; cases hc
            exact ⟨le_rfl, fun h => absurd h (lt_irrefl _)⟩
        · rw [if_neg hgt]
          refine ⟨m, cm, rfl, by omega, h3, fun j c hj hc => ?_⟩
          rcases Nat.lt_succ_iff_lt_or_eq.mp hj with h | h
          · exact h4 j c h hc
          · subst h; rw [hn] at hc; cases hc
            exact ⟨by omega, fun h => by omega⟩

/-- The elite scan finds the first slot of greatest fitness, provided some slot is not
`NULL` and no candidate has negative fitness. -/
theorem best_scan_spec (inst : Instance) (POPSIZE : Nat) (configs : Population)
    (hfit : ∀ j c, j < POPSIZE → configs.getD j none = some c → 0 ≤ fitness inst c)
    (hex : ∃ j, j < POPSIZE ∧ (configs.getD j none).isSome = true) :
    ∃ m, (best_scan inst POPSIZE configs).2 = some m ∧ FirstBest inst POPSIZE configs m := by
  rcases best_scan_upto inst configs POPSIZE hfit with ⟨-, h2⟩ | ⟨m, cm, h1, h2, h3, h4⟩
  · obtain ⟨j, hj, hs⟩ := hex
    rw [h2 j hj] at hs
    cases hs
  · refine ⟨m, ?_, h2, cm, h3, h4⟩
    unfold best_scan
    rw [h1]

/-! ## The selection phases of `iteration` -/

theorem exists_free_slot (T : List Nat) (P : Nat) (h : T.length < P) :
    ∃ j, j < P ∧ j ∉ T := by
  by_contra hcon
  push_neg at hcon
  have hsub : Finset.range P ⊆ T.toFinset := by
    intro j hj
    rw [List.mem_toFinset]
    exact hcon j (Finset.mem_range.mp hj)
  have h1 := Finset.card_le_card hsub
  have h2 := List.toFinset_card_le T
  rw [Finset.card_range] at h1
  omega

theorem live_without (pop : Population) (T : List Nat) (j : Nat) (c : CONFIG)
    (h : (without pop T).getD j none = some c) : j ∉ T ∧ pop.getD j none = some c := by
  rw [getD_without] at h
  by_cases hj : j ∈ T
  · rw [if_pos hj] at h; cases h
  · rw [if_neg hj] at h; exact ⟨hj, h⟩

/-- The elite selection, started with the slots `T` already taken: it completes, takes `n`
further slots `E`, each time the first slot of greatest fitness among those left, and appends
their candidates to `configs_good` in that order. -/
theorem select_good_spec (inst : Instance) (P : Nat) (pop : Population)
    (hall : ∀ j, j < P → ∃ c, pop.getD j none = some c ∧ 0 ≤ fitness inst c)
    (n : Nat) (T : List Nat) (hT : T.Nodup) (hTlt : ∀ j ∈ T, j < P) (hn : T.length + n ≤ P)
    (good : Population) :
    ∃ E : List Nat, E.length = n ∧ (T ++ E).Nodup ∧ (∀ j ∈ E, j < P) ∧
      select_good inst P n (without pop T) good =
        some (without pop (T ++ E), good ++ E.map (fun j => pop.getD j none)) ∧
      ∀ k, k < n → FirstBest inst P (without pop (T ++ E.take k)) (E.getD k 0) := by
  induction n generalizing T good with
  | zero =>
    refine ⟨[], rfl, by simpa using hT, by simp, ?_, fun k hk => by omega⟩
    simp [select_good]
  | succ n ih =>
    have hfit : ∀ j c, j < P → (without pop T).getD j none = some c → 0 ≤ fitness inst c := by
      intro j c hj hc
      obtain ⟨-, hp⟩ := live_without pop T j c hc
      obtain ⟨c', hc', hf⟩ := hall j hj
      rw [hp] at hc'; cases hc'; exact hf
    have hex : ∃ j, j < P ∧ ((without pop T).getD j none).isSome = true := by
      obtain ⟨j, hj, hjT⟩ := exists_free_slot T P (by omega)
      obtain ⟨c, hc, -⟩ := hall j hj
      refine ⟨j, hj, ?_⟩
      rw [getD_without, if_neg hjT, hc]; rfl
    obtain ⟨m, hm, hfb⟩ := best_scan_spec inst P (without pop T) hfit hex
    obtain ⟨hmP, cm, hcm, -⟩ := id hfb
    obtain ⟨hmT, hpm⟩ := live_without pop T m cm hcm
    have hT' : (T ++ [m]).Nodup := by
      rw [List.nodup_append]
      refine ⟨hT, List.nodup_singleton m, ?_⟩
      intro a ha hb
      rw [List.mem_singleton] at hb
      subst hb; exact hmT ha
    have hTlt' : ∀ j ∈ T ++ [m], j < P := by
      intro j hj
      rcases List.mem_append.mp hj with h | h
      · exact hTlt j h
      · rw [List.mem_singleton] at h; subst h; exact hmP
    obtain ⟨E, hlen, hnd, hlt, hres, hfirst⟩ :=
      ih (T ++ [m]) hT' hTlt' (by rw [List.length_append, List.length_singleton]; omega)
        (good ++ [pop.getD m none])
    refine ⟨m :: E, by simp [hlen], ?_, ?_, ?_, ?_⟩
    · rw [List.append_assoc] at hnd; exact hnd
    · intro j hj
      rcases List.mem_cons.mp hj with h | h
      · subst h; exact hmP
      · exact hlt j h
    · rw [select_good, hm]
      simp only
      rw [← without_append, hcm, ← hpm, hres]
      simp [List.append_assoc]
    · intro k hk
      cases k with
      | zero => simpa using hfb
      | succ k =>
        have := hfirst k (by omega)
        simpa [List.append_assoc] using this

/-- The random retention, started with the slots `T` already taken: it completes, takes `n`
further slots `R`, each time the first slot not yet taken at or circularly after the draw
modulo `POPSIZE`, and consumes one draw per slot. -/
theorem select_random_spec (rand : Nat → Nat) (P : Nat) (pop : Population)
    (hall : ∀ j, j < P → (pop.getD j none).isSome = true)
    (n : Nat) (T : List Nat) (hT : T.Nodup) (hTlt : ∀ j ∈ T, j < P) (hn : T.length + n ≤ P)
    (rnd : Population) (i : Nat) :
    ∃ R : List Nat, R.length = n ∧ (T ++ R).Nodup ∧ (∀ j ∈ R, j < P) ∧
      select_random rand P n (without pop T) rnd i =
        some (without pop (T ++ R), rnd ++ R.map (fun j => pop.getD j none), i + n) ∧
      ∀ k, k < n →
        FirstLive P (without pop (T ++ R.take k)) (rand (i + k) % P) (R.getD k 0) := by
  induction n generalizing T rnd i with
  | zero =>
    refine ⟨[], rfl, by simpa using hT, by simp, ?_, fun k hk => by omega⟩
    simp [select_random]
  | succ n ih =>
    obtain ⟨q, hq, hqT⟩ := exists_free_slot T P (by omega)
    have hqs : ((without pop T).getD q none).isSome = true := by
      rw [getD_without, if_neg hqT]; exact hall q hq
    have hstart : rand i % P < P := Nat.mod_lt _ (by omega)
    have hj0 : ∃ j, j < P ∧ ((without pop T).getD ((rand i % P + j) % P) none).isSome = true := by
      refine ⟨(q + P - rand i % P) % P, Nat.mod_lt _ (by omega), ?_⟩
      rw [circ_reach _ q P hstart hq]; exact hqs
    obtain ⟨j, hj, hres, hok, hfirst⟩ :=
      circScan_first P (fun c2 => ((without pop T).getD c2 none).isSome) P (rand i % P)
        hstart hj0
    generalize hm : (rand i % P + j) % P = m at hres hok
    have hmP : m < P := by rw [← hm]; exact Nat.mod_lt _ (by omega)
    have hlive : FirstLive P (without pop T) (rand i % P) m := by
      refine ⟨j, hj, hm.symm, hok, fun j' hj' => ?_⟩
      have := hfirst j' hj'
      simpa using this
    obtain ⟨cm, hcm⟩ := Option.isSome_iff_exists.mp hok
    obtain ⟨hmT, hpm⟩ := live_without pop T m cm hcm
    have hT' : (T ++ [m]).Nodup := by
      rw [List.nodup_append]
      refine ⟨hT, List.nodup_singleton m, ?_⟩
      intro a ha hb
      rw [List.mem_singleton] at hb
      subst hb; exact hmT ha
    have hTlt' : ∀ j ∈ T ++ [m], j < P := by
      intro j hj
      rcases List.mem_append.mp hj with h | h
      · exact hTlt j h
      · rw [List.mem_singleton] at h; subst h; exact hmP
    obtain ⟨R, hlen, hnd, hlt, hres2, hfirst2⟩ :=
      ih (T ++ [m]) hT' hTlt' (by rw [List.length_append, List.length_singleton]; omega)
        (rnd ++ [pop.getD m none]) (i + 1)
    refine ⟨m :: R, by simp [hlen], ?_, ?_, ?_, ?_⟩
    · rw [List.append_assoc] at hnd; exact hnd
    · intro j hj
      rcases List.mem_cons.mp hj with h | h
      · subst h; exact hmP
      · exact hlt j h
    · rw [select_random, hres]
      simp only
      rw [← without_append, hcm, ← hpm, hres2]
      simp [List.append_assoc, Nat.add_assoc, Nat.add_comm 1 n]
    · intro k hk
      cases k with
      | zero => simpa using hlive
      | succ k =>
        have := hfirst2 k (by omega)
        simpa [List.append_assoc, Nat.add_assoc, Nat.add_comm 1 k] using this

/-! ## Dropping the rest and putting the survivors back -/

theorem foldl_set_offset {α : Type} (f : Nat → α) (d : α) (off : Nat) (init : List α)
    (n : Nat) (hn : off + n ≤ init.length) :
    ((List.range n).foldl (fun cf c => cf.set (off + c) (f c)) init).length = init.length ∧
    ∀ p, ((List.range n).foldl (fun cf c => cf.set (off + c) (f c)) init).getD p d =
      if off ≤ p ∧ p < off + n then f (p - off) else init.getD p d := by
  induction n with
  | zero =>
    refine ⟨rfl, fun p => ?_⟩
    rw [if_neg (by omega)]; rfl
  | succ n ih =>
    rw [foldl_range_succ]
    obtain ⟨h1, h2⟩ := ih (by omega)
    generalize (List.range n).foldl _ init = m at h1 h2
    refine ⟨by rw [List.length_set]; exact h1, fun p => ?_⟩
    by_cases hpn : off + n = p
    · subst hpn
      rw [getD_set_self _ _ _ _ (by omega), if_pos (by omega)]
      congr 1; omega
    · rw [getD_set_other _ _ _ _ _ hpn, h2 p]
      by_cases hlt : off ≤ p ∧ p < off + n
      · rw [if_pos hlt, if_pos (by omega)]
      · rw [if_neg hlt, if_neg (by omega)]

theorem foldl_set_zero {α : Type} (f : Nat → α) (d : α) (init : List α)
    (n : Nat) (hn : n ≤ init.length) :
    ((List.range n).foldl (fun cf c => cf.set c (f c)) init).length = init.length ∧
    ∀ p, ((List.range n).foldl (fun cf c => cf.set c (f c)) init).getD p d =
      if p < n then f p else init.getD p d := by
  have h := foldl_set_offset f d 0 init n (by omega)
  simp only [Nat.zero_add, Nat.zero_le, true_and, Nat.sub_zero] at h
  exact h

theorem drop_rest_upto (configs : Population) (n : Nat) :
    ((List.range n).foldl
        (fun cf c => if (cf.getD c none).isNone then cf else cf.set c none) configs).length
      = configs.length ∧
    ∀ p, ((List.range n).foldl
        (fun cf c => if (cf.getD c none).isNone then cf else cf.set c none) configs).getD p none
      = if p < n then none else configs.getD p none := by
  induction n with
  | zero => exact ⟨rfl, fun p => by rw [if_neg (by omega)]; rfl⟩
  | succ n ih =>
    rw [foldl_range_succ]
    obtain ⟨h1, h2⟩ := ih
    generalize (List.range n).foldl _ configs = m at h1 h2
    by_cases hnone : (m.getD n none).isNone = true
    · rw [if_pos hnone]
      refine ⟨h1, fun p => ?_⟩
      rw [h2 p]
      by_cases hpn : p = n
      · subst hpn
        rw [if_neg (by omega), if_pos (by omega)]
        have := h2 p
        rw [if_neg (by omega)] at this
        rw [← this]
        exact Option.isNone_iff_eq_none.mp hnone
      · by_cases hlt : p < n
        · rw [if_pos hlt, if_pos (by omega)]
        · rw [if_neg hlt, if_neg (by omega)]
    · rw [if_neg hnone]
      refine ⟨by rw [List.length_set]; exact h1, fun p => ?_⟩
      rw [getD_set_pop]
      by_cases hpn : n = p
      · subst hpn
        have hl : n < m.length := by
          by_contra hcon
          exact hnone (by rw [getD_none_of_le m n (by omega)]; rfl)
        rw [if_pos ⟨rfl, hl⟩, if_pos (by omega)]
      · rw [if_neg (fun h => hpn h.1), h2 p]
        by_cases hlt : p < n
        · rw [if_pos hlt, if_pos (by omega)]
        · rw [if_neg hlt, if_neg (by omega)]

theorem getD_replicate_none (n p : Nat) :
    (List.replicate n (none : Option CONFIG)).getD p none = none := by
  rw [List.getD_eq_getElem?_getD]
  by_cases hp : p < n
  · rw [List.getElem?_eq_getElem (by simpa using hp)]
    simp
  · rw [List.getElem?_eq_none (by simpa using hp)]
    rfl

/-- After "drop the remaining solutions" every slot is `NULL`. -/
theorem drop_rest_spec (P : Nat) (configs : Population) (hlen : configs.length = P) :
    drop_rest P configs = List.replicate P none := by
  obtain ⟨h1, h2⟩ := drop_rest_upto configs P
  apply ext_getD_gen _ _ none
  · rw [drop_rest, h1, hlen, List.length_replicate]
  · intro p hp
    rw [drop_rest, h1, hlen] at hp
    rw [drop_rest, h2 p, if_pos hp, getD_replicate_none]

theorem getD_append_left_pop (l1 l2 : Population) (p : Nat) (h : p < l1.length) :
    (l1 ++ l2).getD p none = l1.getD p none := by
  rw [List.getD_eq_getElem?_getD, List.getD_eq_getElem?_getD, List.getElem?_append_left h]

theorem getD_append_right_pop (l1 l2 : Population) (p : Nat) (h : l1.length ≤ p) :
    (l1 ++ l2).getD p none = l2.getD (p - l1.length) none := by
  rw [List.getD_eq_getElem?_getD, List.getD_eq_getElem?_getD, List.getElem?_append_right h]

/-- After the survivors are put back they fill the first slots, the elite first, and the
other slots are `NULL`. -/
theorem put_back_spec (P ng nr : Nat) (good rnd : Population) (hg : good.length = ng)
    (hr : rnd.length = nr) (hsum : ng + nr ≤ P) :
    put_back ng nr (List.replicate P none) good rnd =
      good ++ rnd ++ List.replicate (P - (ng + nr)) none := by
  have h1 := foldl_set_zero (fun c => good.getD c none) none (List.replicate P none) ng
    (by rw [List.length_replicate]; omega)
  have h2 := foldl_set_offset (fun c => rnd.getD c none) none ng
    ((List.range ng).foldl (fun cf c => cf.set c (good.getD c none)) (List.replicate P none)) nr
    (by rw [h1.1, List.length_replicate]; omega)
  apply ext_getD_gen _ _ none
  · rw [put_back, h2.1, h1.1]
    simp only [List.length_append, List.length_replicate, hg, hr]
    omega
  · intro p hp
    rw [put_back, h2.1, h1.1, List.length_replicate] at hp
    rw [put_back, h2.2 p, h1.2 p, List.append_assoc]
    by_cases hp1 : p < ng
    · rw [if_neg (by omega), if_pos hp1, getD_append_left_pop _ _ _ (by omega)]
    · rw [getD_append_right_pop _ _ _ (by omega), hg]
      by_cases hp2 : p < ng + nr
      · rw [if_pos ⟨by omega, hp2⟩, getD_append_left_pop _ _ _ (by omega)]
      · rw [if_neg (by omega), if_neg hp1, getD_replicate_none,
          getD_append_right_pop _ _ _ (by omega), getD_replicate_none]

/-! ## The survivors of a generation -/

theorem getD_map_some (popc : List CONFIG) (j : Nat) (hj : j < popc.length) :
    (popc.map some).getD j none = some (popc.getD j []) := by
  rw [List.getD_eq_getElem _ _ (by rw [List.length_map]; exact hj), List.getElem_map,
    List.getD_eq_getElem _ _ hj]

theorem map_getD_map_some (popc : List CONFIG) (L : List Nat) (hL : ∀ j ∈ L, j < popc.length) :
    L.map (fun j => (popc.map some).getD j none) = (L.map (fun j => popc.getD j [])).map some := by
  rw [List.map_map]
  apply List.map_congr_left
  intro j hj
  exact getD_map_some popc j (hL j hj)

/-- The selection phases of `iteration` on a population without `NULL` slots and without
negative fitness: they complete; the elite slots `E` are taken best-first, the retained slots
`R` at random among the others; the survivors are put into the first slots in that order. -/
theorem survivors_spec (prm : Params) (inst : Instance) (rand : Nat → Nat)
    (popc : List CONFIG) (hlen : popc.length = prm.POPSIZE)
    (hfit : ∀ c ∈ popc, 0 ≤ fitness inst c)
    (hsum : prm.num_good + prm.num_random ≤ prm.POPSIZE) (i : Nat) :
    ∃ E R : List Nat, E.length = prm.num_good ∧ R.length = prm.num_random ∧
      (E ++ R).Nodup ∧ (∀ j ∈ E ++ R, j < prm.POPSIZE) ∧
      survivors prm inst rand (popc.map some) i =
        some (((E ++ R).map (fun j => popc.getD j [])).map some ++
          List.replicate (prm.POPSIZE - (prm.num_good + prm.num_random)) none,
          i + prm.num_random) ∧
      (∀ k, k < prm.num_good →
        FirstBest inst prm.POPSIZE (without (popc.map some) (E.take k)) (E.getD k 0)) ∧
      ∀ k, k < prm.num_random →
        FirstLive prm.POPSIZE (without (popc.map some) (E ++ R.take k))
          (rand (i + k) % prm.POPSIZE) (R.getD k 0) := by
  have hall : ∀ j, j < prm.POPSIZE →
      ∃ c, (popc.map some).getD j none = some c ∧ 0 ≤ fitness inst c := by
    intro j hj
    refine ⟨popc.getD j [], getD_map_some popc j (by omega), hfit _ ?_⟩
    rw [List.getD_eq_getElem _ _ (by omega)]
    exact List.getElem_mem _
  have hall2 : ∀ j, j < prm.POPSIZE → ((popc.map some).getD j none).isSome = true := by
    intro j hj
    obtain ⟨c, hc, -⟩ := hall j hj
    rw [hc]; rfl
  obtain ⟨E, hElen, hEnd, hElt, hEres, hEfirst⟩ :=
    select_good_spec inst prm.POPSIZE (popc.map some) hall prm.num_good [] List.nodup_nil
      (by simp) (by simp; omega) []
  simp only [List.nil_append] at hEnd hEres hEfirst
  obtain ⟨R, hRlen, hRnd, hRlt, hRres, hRfirst⟩ :=
    select_random_spec rand prm.POPSIZE (popc.map some) hall2 prm.num_random E hEnd hElt
      (by omega) [] i
  simp only [List.nil_append] at hRres
  have hERlt : ∀ j ∈ E ++ R, j < prm.POPSIZE := by
    intro j hj
    rcases List.mem_append.mp hj with h | h
    · exact hElt j h
    · exact hRlt j h
  refine ⟨E, R, hElen, hRlen, hRnd, hERlt, ?_, hEfirst, hRfirst⟩
  have hw : without (popc.map some) [] = popc.map some := rfl
  rw [survivors, ← hw, hEres]
  simp only
  rw [hRres]
  simp only
  rw [drop_rest_spec prm.POPSIZE _ (by rw [length_without, List.length_map]; exact hlen),
    put_back_spec prm.POPSIZE prm.num_good prm.num_random _ _
      (by rw [List.length_map]; exact hElen) (by rw [List.length_map]; exact hRlen) hsum,
    ← List.map_append, map_getD_map_some popc (E ++ R) (by rw [hlen]; exact hERlt)]

/-! ## The crossover loop and the fresh fill -/

theorem feasible_of_repair (inst : Instance) (hg : 1 ≤ inst.groups) (r : CONFIG)
    (hass : Assigned inst r) (hcap : ∀ g, g < inst.groups → members r g ≤ groupavg inst) :
    Feasible inst r := by
  refine ⟨hass, ?_⟩
  unfold Capped
  rw [← groupavg_eq_ceiling inst hg]
  exact hcap

/-- `mutate` on two fully-assigned parents returns a feasible child. -/
theorem mutate_spec (inst : Instance) (rand : Nat → Nat) (hg : 1 ≤ inst.groups)
    (hpref : ∀ p, p < inst.persons → ∀ g, g < inst.groups → 0 ≤ inst.pref p g)
    (A B : CONFIG) (hA : Assigned inst A) (hB : Assigned inst B) (i : Nat) :
    ∃ r i', mutate inst rand A B i = some (r, i') ∧ Feasible inst r := by
  obtain ⟨r, i', hres, hass, hcap⟩ := repair_spec inst rand hg hpref (merge inst A B) i
    (partial_of_assigned inst _ (merge_assigned inst A B hA hB))
  exact ⟨r, i', hres, feasible_of_repair inst hg r hass hcap⟩

theorem random_config_assigned (inst : Instance) (rand : Nat → Nat) (hg : 1 ≤ inst.groups)
    (i : Nat) : Assigned inst (random_config inst rand i) := by
  have h := foldl_set_zero (fun p => ((rand (i + p) % inst.groups : Nat) : Int)) (-1)
    (new_config inst) inst.persons (by simp [new_config])
  have hlen : (random_config inst rand i).length = inst.persons := by
    rw [random_config, h.1]; simp [new_config]
  refine ⟨hlen, fun x hx => ?_⟩
  obtain ⟨p, hp, rfl⟩ := (mem_iff_getD _ x).mp hx
  rw [hlen] at hp
  rw [random_config, h.2 p, if_pos hp]
  have := Nat.mod_lt (rand (i + p)) (show 0 < inst.groups by omega)
  simp only
  exact ⟨Int.ofNat_nonneg _, by exact_mod_cast this⟩

/-- A fresh candidate is produced and is feasible. -/
theorem fresh_spec (inst : Instance) (rand : Nat → Nat) (hg : 1 ≤ inst.groups)
    (hpref : ∀ p, p < inst.persons → ∀ g, g < inst.groups → 0 ≤ inst.pref p g) (i : Nat) :
    ∃ r i', fresh inst rand i = some (r, i') ∧ Feasible inst r := by
  obtain ⟨r, i', hres, hass, hcap⟩ := repair_spec inst rand hg hpref
    (random_config inst rand i) (i + inst.persons)
    (partial_of_assigned inst _ (random_config_assigned inst rand hg i))
  exact ⟨r, i', hres, feasible_of_repair inst hg r hass hcap⟩

theorem set_at_length (l1 l2 : Population) (a b : Option CONFIG) :
    (l1 ++ a :: l2).set l1.length b = l1 ++ b :: l2 := by
  induction l1 with
  | nil => rfl
  | cons x l1 ih => simp [ih]

theorem take_set_succ (l : Population) (c : Nat) (b : Option CONFIG) (h : c < l.length) :
    (l.set c b).take (c + 1) = l.take c ++ [b] := by
  induction l generalizing c with
  | nil => simp at h
  | cons x l ih =>
    cases c with
    | zero => simp
    | succ c =>
      simp only [List.set_cons_succ, List.take_succ_cons, List.cons_append, List.cons.injEq,
        true_and]
      exact ih c (by simpa using h)

theorem take_set_le (l : Population) (c n : Nat) (b : Option CONFIG) (h : n ≤ c) :
    (l.set c b).take n = l.take n := by
  induction l generalizing c n with
  | nil => simp
  | cons x l ih =>
    cases n with
    | zero => simp
    | succ n =>
      cases c with
      | zero => omega
      | succ c =>
        simp only [List.set_cons_succ, List.take_succ_cons, List.cons.injEq, true_and]
        exact ih c n (by omega)

/-- The fresh fill from slot `c` on: it completes and replaces the slots from `c` on by
fresh feasible candidates, one per slot. -/
theorem fresh_loop_spec (inst : Instance) (rand : Nat → Nat) (hg : 1 ≤ inst.groups)
    (hpref : ∀ p, p < inst.persons → ∀ g, g < inst.groups → 0 ≤ inst.pref p g)
    (fuel c : Nat) (configs : Population) (i : Nat) (hlen : configs.length = c + fuel) :
    ∃ (F : List CONFIG) (i' : Nat),
      fresh_loop inst rand fuel c configs i = some (configs.take c ++ F.map some, i') ∧
      F.length = fuel ∧ ∀ f ∈ F, Feasible inst f ∧ IsFresh inst rand f := by
  induction fuel generalizing c configs i with
  | zero =>
    refine ⟨[], i, ?_, rfl, by simp⟩
    rw [fresh_loop, List.take_of_length_le (by omega)]
    simp
  | succ fuel ih =>
    obtain ⟨r, i1, hres, hfeas⟩ := fresh_spec inst rand hg hpref i
    obtain ⟨F, i', hloop, hF, hFall⟩ := ih (c + 1) (configs.set c (some r)) i1
      (by rw [List.length_set]; omega)
    refine ⟨r :: F, i', ?_, by simp [hF], ?_⟩
    · rw [fresh_loop, hres]
      simp only
      rw [hloop, take_set_succ _ _ _ (by omega)]
      simp
    · intro f hf
      rcases List.mem_cons.mp hf with h | h
      · subst h; exact ⟨hfeas, i, i1, hres⟩
      · exact hFall f h

theorem getD_survivor (Sl K : List CONFIG) (rest : Population) (k : Nat) (hk : k < Sl.length) :
    ((Sl ++ K).map some ++ rest).getD k none = some (Sl.getD k []) := by
  rw [getD_append_left_pop _ _ _ (by rw [List.length_map, List.length_append]; omega),
    getD_map_some _ _ (by rw [List.length_append]; omega)]
  congr 1
  rw [List.getD_eq_getElem?_getD, List.getD_eq_getElem?_getD, List.getElem?_append_left hk]

theorem getD_mem_gen (l : List CONFIG) (k : Nat) (hk : k < l.length) : l.getD k [] ∈ l := by
  rw [List.getD_eq_getElem _ _ hk]
  exact List.getElem_mem _

/-- The crossover loop on a population that holds the survivors `Sl` (at least two, all fully
assigned), then the children `K` made so far, then `fuel` empty slots: it completes and
appends children `K'`, each a feasible crossover child of two survivors.  It makes
`num_mutate` calls of `mutate` (one if `num_mutate ≤ 1`) and then leaves with `c` at the slot
of the last child, or fills all `fuel` slots if they are fewer. -/
theorem mutate_loop_spec (inst : Instance) (rand : Nat → Nat) (hg : 1 ≤ inst.groups)
    (hpref : ∀ p, p < inst.persons → ∀ g, g < inst.groups → 0 ≤ inst.pref p g)
    (Sl : List CONFIG) (hS : 2 ≤ Sl.length) (hSa : ∀ c ∈ Sl, Assigned inst c)
    (fuel : Nat) (nm : Int) (K : List CONFIG) (i : Nat) :
    ∃ (K' : List CONFIG) (c' i' : Nat),
      mutate_loop inst rand Sl.length fuel (Sl.length + K.length) nm
          ((Sl ++ K).map some ++ List.replicate fuel none) i =
        some ((Sl ++ K ++ K').map some ++ List.replicate (fuel - K'.length) none, c', i') ∧
      (∀ k ∈ K', Feasible inst k ∧ IsChild inst rand Sl k) ∧
      ((if nm ≤ 1 then 1 else nm.toNat) ≤ fuel →
        K'.length = (if nm ≤ 1 then 1 else nm.toNat) ∧
          c' + 1 = Sl.length + K.length + K'.length) ∧
      (fuel < (if nm ≤ 1 then 1 else nm.toNat) →
        K'.length = fuel ∧ c' = Sl.length + K.length + fuel) := by
  induction fuel generalizing nm K i with
  | zero =>
    refine ⟨[], Sl.length + K.length, i, ?_, by simp, fun h => ?_, fun _ => ⟨rfl, rfl⟩⟩
    · simp [mutate_loop]
    · split_ifs at h <;> omega
  | succ fuel ih =>
    have hget : ∀ k, k < Sl.length →
        ((Sl ++ K).map some ++ List.replicate (fuel + 1) none).getD k none
          = some (Sl.getD k []) := fun k hk => getD_survivor Sl K _ k hk
    -- the first parent
    obtain ⟨c1, hc1, hc1lt, -⟩ := circScan_finds Sl.length
      (fun k => (((Sl ++ K).map some ++ List.replicate (fuel + 1) none).getD k none).isSome)
      (rand i % Sl.length) 0 (Nat.mod_lt _ (by omega)) (by omega)
      (by simp only [hget 0 (by omega)]; rfl)
    -- the second parent, in another slot
    obtain ⟨c2, hc2, hc2lt, hc2ok⟩ := circScan_finds Sl.length
      (fun k => (((Sl ++ K).map some ++ List.replicate (fuel + 1) none).getD k none).isSome
        && k != c1)
      (rand (i + 1) % Sl.length) (if c1 = 0 then 1 else 0) (Nat.mod_lt _ (by omega))
      (by split_ifs <;> omega)
      (by
        simp only [hget _ (show (if c1 = 0 then 1 else 0) < Sl.length by split_ifs <;> omega)]
        split_ifs with h
        · subst h; rfl
        · simp only [Option.isSome_some, Bool.true_and, bne_iff_ne, ne_eq]
          exact fun h' => h h'.symm)
    have hne : c1 ≠ c2 := by
      simp only [Bool.and_eq_true, bne_iff_ne, ne_eq] at hc2ok
      exact fun h => hc2ok.2 h.symm
    obtain ⟨child, i1, hmut, hfeas⟩ := mutate_spec inst rand hg hpref
      (Sl.getD c1 []) (Sl.getD c2 []) (hSa _ (getD_mem_gen Sl c1 hc1lt))
      (hSa _ (getD_mem_gen Sl c2 hc2lt)) (i + 2)
    have hchild : IsChild inst rand Sl child := ⟨c1, c2, i + 2, i1, hc1lt, hc2lt, hne, hmut⟩
    have hset : ((Sl ++ K).map some ++ List.replicate (fuel + 1) none).set
        (Sl.length + K.length) (some child)
          = (Sl ++ (K ++ [child])).map some ++ List.replicate fuel none := by
      have h1 := set_at_length ((Sl ++ K).map some) (List.replicate fuel none) none (some child)
      rw [List.length_map, List.length_append] at h1
      rw [List.replicate_succ, h1]
      simp
    rw [mutate_loop, hc1]
    simp only
    rw [hc2]
    simp only
    rw [hget c1 hc1lt, hget c2 hc2lt]
    simp only
    rw [hmut]
    simp only
    rw [hset]
    by_cases hnm : nm - 1 ≤ 0
    · rw [if_pos hnm]
      refine ⟨[child], Sl.length + K.length, i1, ?_, ?_, fun _ => ?_, fun h => ?_⟩
      · simp [List.append_assoc]
      · intro k hk
        rw [List.mem_singleton] at hk
        subst hk; exact ⟨hfeas, hchild⟩
      · rw [if_pos (by omega)]
        simp
      · rw [if_pos (by omega)] at h
        omega
    · rw [if_neg hnm]
      obtain ⟨K', c', i', hloop, hall, hbreak, hfull⟩ := ih (nm - 1) (K ++ [child]) i1
      have hlen1 : Sl.length + (K ++ [child]).length = Sl.length + K.length + 1 := by
        rw [List.length_append, List.length_singleton]; omega
      rw [hlen1] at hloop
      have ht : (if nm - 1 ≤ 1 then 1 else (nm - 1).toNat) + 1
          = (if nm ≤ 1 then 1 else nm.toNat) := by
        rw [if_neg (show ¬ nm ≤ 1 by omega)]
        split_ifs <;> omega
      rw [← ht]
      generalize (if nm - 1 ≤ 1 then 1 else (nm - 1).toNat) = t at hbreak hfull
      refine ⟨child :: K', c', i', ?_, ?_, fun h => ?_, fun h => ?_⟩
      · rw [hloop]
        simp [List.append_assoc]
      · intro k hk
        rcases List.mem_cons.mp hk with h | h
        · subst h; exact ⟨hfeas, hchild⟩
        · exact hall k h
      · obtain ⟨h1, h2⟩ := hbreak (by omega)
        rw [hlen1] at h2
        refine ⟨by rw [List.length_cons, h1], ?_⟩
        rw [List.length_cons]; omega
      · obtain ⟨h1, h2⟩ := hfull (by omega)
        rw [hlen1] at h2
        refine ⟨by rw [List.length_cons, h1], by omega⟩

/-! ## One generation step -/

theorem take_survivors_children (Sl K' : List CONFIG) (rest : Population) (c' : Nat)
    (h1 : Sl.length ≤ c') (h2 : c' ≤ Sl.length + K'.length) :
    ((Sl ++ K').map some ++ rest).take c' = (Sl ++ K'.take (c' - Sl.length)).map some := by
  rw [List.take_append_of_le_length (by rw [List.length_map, List.length_append]; exact h2),
    ← List.map_take]
  congr 1
  obtain ⟨d, rfl⟩ : ∃ d, c' = Sl.length + d := ⟨c' - Sl.length, by omega⟩
  rw [List.take_append, Nat.add_sub_cancel_left]

/-- The structure of the population returned by `iteration`.  On a population of `POPSIZE`
fully-assigned candidates, with `groups ≥ 1`, no negative preference,
`num_good + num_random ≤ POPSIZE` and at least two survivors unless the survivors fill the
population, the step completes and returns: the elite (slots `E` of the old population, taken
best-first), the randomly retained (slots `R`), `children_kept` crossover children of two
survivors, and fresh candidates in all remaining slots. -/
theorem iteration_spec (prm : Params) (inst : Instance) (rand : Nat → Nat)
    (hg : 1 ≤ inst.groups)
    (hpref : ∀ p, p < inst.persons → ∀ g, g < inst.groups → 0 ≤ inst.pref p g)
    (popc : List CONFIG) (hlen : popc.length = prm.POPSIZE)
    (hpop : ∀ c ∈ popc, Assigned inst c)
    (hsum : prm.num_good + prm.num_random ≤ prm.POPSIZE)
    (h2 : 2 ≤ prm.num_good + prm.num_random ∨ prm.num_good + prm.num_random = prm.POPSIZE)
    (i : Nat) :
    ∃ (E R : List Nat) (K F : List CONFIG) (i' : Nat),
      E.length = prm.num_good ∧ R.length = prm.num_random ∧
      (E ++ R).Nodup ∧ (∀ j ∈ E ++ R, j < prm.POPSIZE) ∧
      (∀ k, k < prm.num_good →
        FirstBest inst prm.POPSIZE (without (popc.map some) (E.take k)) (E.getD k 0)) ∧
      (∀ k, k < prm.num_random →
        FirstLive prm.POPSIZE (without (popc.map some) (E ++ R.take k))
          (rand (i + k) % prm.POPSIZE) (R.getD k 0)) ∧
      iteration prm inst rand (popc.map some) i =
        some (((E ++ R).map (fun j => popc.getD j []) ++ K ++ F).map some, i') ∧
      (∀ k ∈ K, Feasible inst k ∧
        IsChild inst rand ((E ++ R).map (fun j => popc.getD j [])) k) ∧
      (∀ f ∈ F, Feasible inst f ∧ IsFresh inst rand f) ∧
      K.length = children_kept prm ∧
      F.length = prm.POPSIZE - (prm.num_good + prm.num_random) - children_kept prm := by
  have hfit : ∀ c ∈ popc, 0 ≤ fitness inst c :=
    fun c hc => fitness_nonneg inst c (hpop c hc) hpref
  obtain ⟨E, R, hE, hR, hnd, hlt, hsurv, hbest, hlive⟩ :=
    survivors_spec prm inst rand popc hlen hfit hsum i
  refine ⟨E, R, ?_⟩
  generalize hSl : (E ++ R).map (fun j => popc.getD j []) = Sl at hsurv ⊢
  have hSlen : Sl.length = prm.num_good + prm.num_random := by
    rw [← hSl, List.length_map, List.length_append, hE, hR]
  have hSa : ∀ c ∈ Sl, Assigned inst c := by
    intro c hc
    rw [← hSl] at hc
    obtain ⟨j, hj, rfl⟩ := List.mem_map.mp hc
    exact hpop _ (getD_mem_gen popc j (by rw [hlen]; exact hlt j hj))
  have hmc : 1 ≤ mutate_calls prm := by
    unfold mutate_calls; split_ifs <;> omega
  by_cases hfull : prm.num_good + prm.num_random = prm.POPSIZE
  · -- the survivors fill the population: no crossover, no fresh candidate
    refine ⟨[], [], i + prm.num_random, hE, hR, hnd, hlt, hbest, hlive, ?_, by simp, by simp,
      ?_, ?_⟩
    · rw [iteration, crossover, hsurv]
      simp only
      rw [hfull, Nat.sub_self, mutate_loop]
      simp only
      rw [Nat.sub_self, fresh_loop]
      simp
    · unfold children_kept
      rw [hfull, Nat.sub_self, if_neg (by omega)]
      rfl
    · unfold children_kept
      rw [hfull, Nat.sub_self, if_neg (by omega)]
      rfl
  · have hS2 : 2 ≤ Sl.length := by rw [hSlen]; omega
    obtain ⟨K', c', i1, hloop, hKall, hbreak, hrun⟩ :=
      mutate_loop_spec inst rand hg hpref Sl hS2 hSa
        (prm.POPSIZE - (prm.num_good + prm.num_random)) prm.num_mutate [] (i + prm.num_random)
    simp only [List.append_nil, List.length_nil, Nat.add_zero] at hloop hbreak hrun
    rw [hSlen] at hloop
    have hc' : Sl.length ≤ c' ∧ c' ≤ Sl.length + K'.length ∧
        K'.length ≤ prm.POPSIZE - (prm.num_good + prm.num_random) ∧
        c' - Sl.length = children_kept prm := by
      unfold children_kept mutate_calls
      by_cases ht : (if prm.num_mutate ≤ 1 then 1 else prm.num_mutate.toNat)
          ≤ prm.POPSIZE - (prm.num_good + prm.num_random)
      · obtain ⟨h3, h4⟩ := hbreak ht
        rw [if_pos ht]
        unfold mutate_calls at hmc
        omega
      · obtain ⟨h3, h4⟩ := hrun (by omega)
        rw [if_neg ht]
        omega
    obtain ⟨hc1, hc2, hc3, hc4⟩ := hc'
    obtain ⟨F, i', hfresh, hFlen, hFall⟩ := fresh_loop_spec inst rand hg hpref
      (prm.POPSIZE - c') c'
      ((Sl ++ K').map some ++
        List.replicate (prm.POPSIZE - (prm.num_good + prm.num_random) - K'.length) none) i1
      (by
        rw [List.length_append, List.length_map, List.length_append, List.length_replicate]
        omega)
    rw [take_survivors_children Sl K' _ c' hc1 hc2] at hfresh
    refine ⟨K'.take (c' - Sl.length), F, i', hE, hR, hnd, hlt, hbest, hlive, ?_, ?_, hFall,
      ?_, ?_⟩
    · rw [iteration, crossover, hsurv]
      simp only
      rw [Nat.add_comm prm.num_random prm.num_good, hloop]
      simp only
      rw [hfresh]
      simp only [List.map_append]
    · intro k hk
      exact hKall k (List.mem_of_mem_take hk)
    · rw [List.length_take, hc4]
      omega
    · rw [hFlen, ← hc4]
      omega

/-! ## `max` and the elite order -/

theorem getD_not_mem_take (E : List Nat) (hnd : E.Nodup) (k l : Nat) (hkl : k ≤ l)
    (hl : l < E.length) : E.getD l 0 ∉ E.take k := by
  induction E generalizing k l with
  | nil => simp at hl
  | cons x E ih =>
    cases k with
    | zero => simp
    | succ k =>
      obtain ⟨l', rfl⟩ : ∃ l', l = l' + 1 := ⟨l - 1, by omega⟩
      have hl' : l' < E.length := by simpa using hl
      rw [List.take_succ_cons, List.getD_cons_succ]
      intro hmem
      rcases List.mem_cons.mp hmem with h | h
      · have hx : x ∉ E := (List.nodup_cons.mp hnd).1
        apply hx
        rw [← h, List.getD_eq_getElem _ _ hl']
        exact List.getElem_mem _
      · exact ih (List.nodup_cons.mp hnd).2 k l' (by omega) hl' h

theorem getD_mem_nat (E : List Nat) (l : Nat) (hl : l < E.length) : E.getD l 0 ∈ E := by
  rw [List.getD_eq_getElem _ _ hl]
  exact List.getElem_mem _

theorem max_scan_upto (inst : Instance) (config : Population) (n : Nat) (r : Int × Option Nat)
    (h : (List.range n).foldl (max_scan_step inst config) (some (-1, none)) = some r) :
    (r = (-1, none) ∧ ∀ j, j < n → ∃ c, config.getD j none = some c ∧ fitness inst c ≤ -1) ∨
    ∃ m cm, r = (fitness inst cm, some m) ∧ m < n ∧ config.getD m none = some cm ∧
      ∀ j, j < n → ∃ c, config.getD j none = some c ∧ fitness inst c ≤ fitness inst cm := by
  induction n generalizing r with
  | zero =>
    left
    simp only [List.range_zero, List.foldl_nil, Option.some.injEq] at h
    exact ⟨h.symm, fun j hj => by omega⟩
  | succ n ih =>
    rw [foldl_range_succ] at h
    cases hacc : (List.range n).foldl (max_scan_step inst config) (some (-1, none)) with
    | none => rw [hacc] at h; simp [max_scan_step] at h
    | some acc =>
      rw [hacc] at h
      obtain ⟨mf, mc⟩ := acc
      cases hn : config.getD n none with
      | none =>
        simp only [max_scan_step, hn] at h
        cases h
      | some cn =>
        simp only [max_scan_step, hn] at h
        have ih := ih (mf, mc) hacc
        by_cases hgt : fitness inst cn > mf
        · rw [if_pos hgt, Option.some.injEq] at h
          right
          refine ⟨n, cn, h.symm, by omega, hn, fun j hj => ?_⟩
          rcases Nat.lt_succ_iff_lt_or_eq.mp hj with hlt | heq
          · rcases ih with ⟨h1, h2⟩ | ⟨m, cm, h1, -, -, h4⟩
            · obtain ⟨c, hc, hf⟩ := h2 j hlt
              have : mf = -1 := congrArg Prod.fst h1
              exact ⟨c, hc, by omega⟩
            · obtain ⟨c, hc, hf⟩ := h4 j hlt
              have : mf = fitness inst cm := congrArg Prod.fst h1
              exact ⟨c, hc, by omega⟩
          · subst heq; exact ⟨cn, hn, le_rfl⟩
        · rw [if_neg hgt, Option.some.injEq] at h
          subst h
          rcases ih with ⟨h1, h2⟩ | ⟨m, cm, h1, h2, h3, h4⟩
          · left
            refine ⟨h1, fun j hj => ?_⟩
            have : mf = -1 := congrArg Prod.fst h1
            rcases Nat.lt_succ_iff_lt_or_eq.mp hj with hlt | heq
            · exact h2 j hlt
            · subst heq; exact ⟨cn, hn, by omega⟩
          · right
            refine ⟨m, cm, h1, by omega, h3, fun j hj => ?_⟩
            have : mf = fitness inst cm := congrArg Prod.fst h1
            rcases Nat.lt_succ_iff_lt_or_eq.mp hj with hlt | heq
            · exact h4 j hlt
            · subst heq; exact ⟨cn, hn, by omega⟩

/-- When `max` returns a configuration, its fitness is the greatest fitness in the
population. -/
theorem max_spec (inst : Instance) (P : Nat) (config : Population) (mc : CONFIG)
    (h : max inst P config = some mc) :
    IsGreatest {f | ∃ j c, j < P ∧ config.getD j none = some c ∧ fitness inst c = f}
      (fitness inst mc) := by
  unfold max at h
  cases hs : max_scan inst P config with
  | none => rw [hs] at h; simp at h
  | some r =>
    rw [hs] at h
    rcases max_scan_upto inst config P r hs with ⟨h1, -⟩ | ⟨m, cm, h1, h2, h3, h4⟩
    · subst h1; simp at h
    · subst h1
      simp only at h
      rw [h3, Option.some.injEq] at h
      subst h
      refine ⟨⟨m, cm, h2, h3, rfl⟩, ?_⟩
      rintro f ⟨j, c, hj, hc, rfl⟩
      obtain ⟨c', hc', hf⟩ := h4 j hj
      rw [hc, Option.some.injEq] at hc'
      subst hc'; exact hf

/-! ## Theorems on `repair`, `fitness`, `mutate` and `greedy` -/

theorem capped_iff (inst : Instance) (hg : 1 ≤ inst.groups) (c : CONFIG) :
    Capped inst c ↔ ∀ g, g < inst.groups → members c g ≤ groupavg inst := by
  unfold Capped
  rw [groupavg_eq_ceiling inst hg]

theorem not_mem_of_assigned (inst : Instance) (c : CONFIG) (hc : Assigned inst c) :
    (-1 : Int) ∉ c := by
  intro h
  have := (hc.2 _ h).1
  omega

/-- C1: on a well-formed instance, `repair` applied to a candidate of length `persons` with
every entry in `[0, groups)` returns, for every sequence of draws, a candidate without the
entry `-1`, with every entry in `[0, groups)` and with at most `ceil(persons/groups)` members
in every group. -/
theorem C1_repair_feasible (inst : Instance) (rand : Nat → Nat) (c : CONFIG) (i : Nat)
    (hw : WellFormed inst) (hc : Assigned inst c) :
    ∃ r i', repair inst rand c i = some (r, i') ∧ (-1 : Int) ∉ r ∧
      r.length = inst.persons ∧ (∀ x ∈ r, 0 ≤ x ∧ x < (inst.groups : Int)) ∧
      ∀ g, g < inst.groups → members r g ≤ ceiling inst := by
  obtain ⟨r, i', hres, hass, hcap⟩ :=
    repair_spec inst rand hw.2.1 hw.2.2 c i (partial_of_assigned inst c hc)
  refine ⟨r, i', hres, not_mem_of_assigned inst r hass, hass.1, hass.2, ?_⟩
  rw [← groupavg_eq_ceiling inst hw.2.1]
  exact hcap

theorem C1_repair_feasible_witness :
    ∃ r i', repair scenario (fun n => 7 * n + 3) [1, 1, 1, 1] 0 = some (r, i') ∧
      (-1 : Int) ∉ r ∧ r.length = scenario.persons ∧
      (∀ x ∈ r, 0 ≤ x ∧ x < (scenario.groups : Int)) ∧
      ∀ g, g < scenario.groups → members r g ≤ ceiling scenario :=
  C1_repair_feasible scenario (fun n => 7 * n + 3) [1, 1, 1, 1] 0
    (by unfold WellFormed; decide) (by unfold Assigned; decide)

/-- C2: with `groups ≥ 1` and no negative preference, `fitness` of a fully-assigned candidate
is at most the `max_fitness` computed by `read_input`, and `max_fitness` is the sum over the
persons of the greatest preference of their row. -/
theorem C2_fitness_le_max_fitness (inst : Instance) (hg : 1 ≤ inst.groups)
    (hpref : ∀ p, p < inst.persons → ∀ g, g < inst.groups → 0 ≤ inst.pref p g) :
    (∀ c, Assigned inst c → fitness inst c ≤ max_fitness inst) ∧
      (∀ p, p < inst.persons →
        IsGreatest {x | ∃ g, g < inst.groups ∧ inst.pref p g = x} (row_max inst p)) ∧
      ∀ m : Nat → Int,
        (∀ p, p < inst.persons →
          IsGreatest {x | ∃ g, g < inst.groups ∧ inst.pref p g = x} (m p)) →
        max_fitness inst = ∑ p in Finset.range inst.persons, m p := by
  refine ⟨fun c hc => fitness_le_max_fitness inst c hc,
    fun p hp => row_max_isGreatest inst p hg (hpref p hp), fun m hm => ?_⟩
  rw [max_fitness_eq_sum]
  apply Finset.sum_congr rfl
  intro p hp
  have hp' := Finset.mem_range.mp hp
  exact (row_max_isGreatest inst p hg (hpref p hp')).unique (hm p hp')

theorem C2_fitness_le_max_fitness_witness :
    (∀ c, Assigned scenario c → fitness scenario c ≤ max_fitness scenario) ∧
      (∀ p, p < scenario.persons →
        IsGreatest {x | ∃ g, g < scenario.groups ∧ scenario.pref p g = x}
          (row_max scenario p)) ∧
      ∀ m : Nat → Int,
        (∀ p, p < scenario.persons →
          IsGreatest {x | ∃ g, g < scenario.groups ∧ scenario.pref p g = x} (m p)) →
        max_fitness scenario = ∑ p in Finset.range scenario.persons, m p :=
  C2_fitness_le_max_fitness scenario (by decide) (by decide)

/-- C3: on a well-formed instance, `mutate` applied to two feasible parents returns, for every
sequence of draws, a feasible candidate: fully assigned, with at most `ceil(persons/groups)`
members in every group. -/
theorem C3_mutate_feasible (inst : Instance) (rand : Nat → Nat) (A B : CONFIG) (i : Nat)
    (hw : WellFormed inst) (hA : Feasible inst A) (hB : Feasible inst B) :
    ∃ r i', mutate inst rand A B i = some (r, i') ∧ Feasible inst r := by
  obtain ⟨r, i', hres, hass, hcap⟩ := repair_spec inst rand hw.2.1 hw.2.2 (merge inst A B) i
    (partial_of_assigned inst _ (merge_assigned inst A B hA.1 hB.1))
  exact ⟨r, i', hres, hass, (capped_iff inst hw.2.1 r).mpr hcap⟩

theorem C3_mutate_feasible_witness :
    ∃ r i', mutate scenario (fun n => 7 * n + 3) [1, 1, 0, 0] [0, 0, 1, 1] 0 = some (r, i') ∧
      Feasible scenario r :=
  C3_mutate_feasible scenario (fun n => 7 * n + 3) [1, 1, 0, 0] [0, 0, 1, 1] 0
    (by unfold WellFormed; decide)
    ⟨by unfold Assigned; decide, (capped_iff scenario (by decide) _).mpr (by decide)⟩
    ⟨by unfold Assigned; decide, (capped_iff scenario (by decide) _).mpr (by decide)⟩

theorem scenario_candidates (c : CONFIG) (hc : Assigned scenario c) :
    ∃ a b d e : Int, c = [a, b, d, e] ∧ (a = 0 ∨ a = 1) ∧ (b = 0 ∨ b = 1) ∧
      (d = 0 ∨ d = 1) ∧ (e = 0 ∨ e = 1) := by
  obtain ⟨hlen, hmem⟩ := hc
  have h2 : ∀ x ∈ c, x = 0 ∨ x = 1 := by
    intro x hx
    have := hmem x hx
    have hg : (scenario.groups : Int) = 2 := rfl
    omega
  match c, hlen, h2 with
  | [a, b, d, e], _, h2 =>
    exact ⟨a, b, d, e, rfl, h2 a (by simp), h2 b (by simp), h2 d (by simp), h2 e (by simp)⟩

/-- C8: in the concrete scenario `max_fitness` is 23, and every fully-assigned candidate
with at most 2 members per group has group sizes `(2,2)`, fitness at most 23, and fitness 23
exactly when it is `[0,1,0,1]`. -/
theorem C8_scenario (c : CONFIG) (hc : Assigned scenario c)
    (hcap : ∀ g, g < 2 → members c g ≤ 2) :
    max_fitness scenario = 23 ∧ ceiling scenario = 2 ∧ groupsize scenario c = [2, 2] ∧
      fitness scenario c ≤ 23 ∧ (fitness scenario c = 23 ↔ c = [0, 1, 0, 1]) := by
  have hceil : ceiling scenario = 2 := by
    rw [← groupavg_eq_ceiling scenario (by decide)]; rfl
  refine ⟨by decide, hceil, ?_⟩
  obtain ⟨a, b, d, e, rfl, ha, hb, hd, he⟩ := scenario_candidates c hc
  rcases ha with rfl | rfl <;> rcases hb with rfl | rfl <;> rcases hd with rfl | rfl <;>
    rcases he with rfl | rfl <;> revert hcap <;> decide

theorem C8_scenario_witness :
    max_fitness scenario = 23 ∧ ceiling scenario = 2 ∧
      groupsize scenario [0, 1, 0, 1] = [2, 2] ∧
      fitness scenario [0, 1, 0, 1] ≤ 23 ∧
      (fitness scenario [0, 1, 0, 1] = 23 ↔ ([0, 1, 0, 1] : CONFIG) = [0, 1, 0, 1]) :=
  C8_scenario [0, 1, 0, 1] (by unfold Assigned; decide) (by decide)

theorem ext_getD (c d : CONFIG) (hlen : c.length = d.length)
    (h : ∀ p, p < c.length → c.getD p (-1) = d.getD p (-1)) : c = d := by
  apply List.ext_getElem hlen
  intro p h1 h2
  have := h p h1
  rwa [List.getD_eq_getElem c (-1) h1, List.getD_eq_getElem d (-1) h2] at this

theorem getD_map_range (f : Nat → Int) (n p : Nat) (hp : p < n) :
    ((List.range n).map f).getD p (-1) = f p := by
  have hlen : p < ((List.range n).map f).length := by
    rw [List.length_map, List.length_range]; exact hp
  rw [List.getD_eq_getElem _ _ hlen, List.getElem_map, List.getElem_range]

theorem merge_eq_midpoint_merge (inst : Instance) (A B : CONFIG) :
    merge inst A B = midpoint_merge inst A B := by
  obtain ⟨hlen, hget⟩ := merge_spec inst A B
  apply ext_getD
  · rw [hlen, midpoint_merge, List.length_map, List.length_range]
  · intro p hp
    rw [hlen] at hp
    rw [hget p hp, midpoint_merge, getD_map_range _ _ _ hp]

/-- C9, as amended: `mutate` hands to `repair` the single-midpoint merge `m` of its two
parents, so `mutate(A,B) = repair(m)`; and when, with `groups ≥ 1`, `m` is fully assigned and
has every group at or below `ceil(persons/groups)`, the child is `m` itself and no draw is
consumed. -/
theorem C9_mutate_midpoint (inst : Instance) (rand : Nat → Nat) (A B : CONFIG) (i : Nat)
    (_ : A.length = inst.persons) (_ : B.length = inst.persons) :
    merge inst A B = midpoint_merge inst A B ∧
      (midpoint_merge inst A B).length = inst.persons ∧
      (∀ p, p < inst.persons → (midpoint_merge inst A B).getD p (-1) =
        if p < inst.persons / 2 then A.getD p (-1) else B.getD p (-1)) ∧
      mutate inst rand A B i = repair inst rand (midpoint_merge inst A B) i ∧
      (1 ≤ inst.groups → Assigned inst (midpoint_merge inst A B) →
        Capped inst (midpoint_merge inst A B) →
        mutate inst rand A B i = some (midpoint_merge inst A B, i)) := by
  have hm := merge_eq_midpoint_merge inst A B
  have hs := merge_spec inst A B
  rw [hm] at hs
  refine ⟨hm, hs.1, hs.2, by rw [mutate, hm], fun hg hass hcap => ?_⟩
  rw [mutate, hm]
  exact repair_id inst rand hg _ i hass ((capped_iff inst hg _).mp hcap)

theorem C9_mutate_midpoint_witness :
    merge scenario [0, 1, 1, 1] [0, 0, 0, 1] = midpoint_merge scenario [0, 1, 1, 1] [0, 0, 0, 1] ∧
      (midpoint_merge scenario [0, 1, 1, 1] [0, 0, 0, 1]).length = scenario.persons ∧
      (∀ p, p < scenario.persons →
        (midpoint_merge scenario [0, 1, 1, 1] [0, 0, 0, 1]).getD p (-1) =
          if p < scenario.persons / 2 then ([0, 1, 1, 1] : CONFIG).getD p (-1)
          else ([0, 0, 0, 1] : CONFIG).getD p (-1)) ∧
      mutate scenario (fun n => n) [0, 1, 1, 1] [0, 0, 0, 1] 5 =
        repair scenario (fun n => n) (midpoint_merge scenario [0, 1, 1, 1] [0, 0, 0, 1]) 5 ∧
      (1 ≤ scenario.groups → Assigned scenario (midpoint_merge scenario [0, 1, 1, 1] [0, 0, 0, 1]) →
        Capped scenario (midpoint_merge scenario [0, 1, 1, 1] [0, 0, 0, 1]) →
        mutate scenario (fun n => n) [0, 1, 1, 1] [0, 0, 0, 1] 5 =
          some (midpoint_merge scenario [0, 1, 1, 1] [0, 0, 0, 1], 5)) :=
  C9_mutate_midpoint scenario (fun n => n) [0, 1, 1, 1] [0, 0, 0, 1] 5 (by decide) (by decide)

/-- C9, the claim as stated fails: with one person, one group and both parents unassigned,
the merged candidate `[-1]` has every group within the ceiling, but `mutate` returns `[0]`,
not the merged candidate. -/
theorem C9_counterexample :
    ([-1] : CONFIG).length = tiny.persons ∧ midpoint_merge tiny [-1] [-1] = [-1] ∧
      Capped tiny (midpoint_merge tiny [-1] [-1]) ∧
      mutate tiny (fun _ => 0) [-1] [-1] 0 = some ([0], 1) ∧
      ¬ ∃ i', mutate tiny (fun _ => 0) [-1] [-1] 0 = some (midpoint_merge tiny [-1] [-1], i') := by
  refine ⟨by decide, by decide, (capped_iff tiny (by decide) _).mpr (by decide), by decide, ?_⟩
  rintro ⟨i', h⟩
  revert h
  have h1 : mutate tiny (fun _ => 0) [-1] [-1] 0 = some ([0], 1) := by decide
  have h2 : midpoint_merge tiny [-1] [-1] = [-1] := by decide
  rw [h1, h2]
  simp

/-- C10: on a well-formed instance, `greedy` applied to a candidate whose entries are each
`-1` or a group index runs its outer loop exactly once per `-1` entry; every one of these
iterations completes and assigns one person who was unassigned, leaving all other entries
as they were; the result has no `-1` entry and keeps every entry that was assigned in the
input. -/
theorem C10_greedy_terminates (inst : Instance) (rand : Nat → Nat) (c : CONFIG) (i : Nat)
    (hw : WellFormed inst) (hc : Partial inst c) :
    greedy_iterations inst c = c.count (-1) ∧
      (∀ j, j < c.count (-1) → ∃ s s' p g,
        greedy_loop inst rand j (greedy_init inst c i) = some s ∧
        greedy_step inst rand s = some s' ∧
        greedy_loop inst rand (j + 1) (greedy_init inst c i) = some s' ∧
        s.config.count (-1) = c.count (-1) - j ∧
        p < inst.persons ∧ g < inst.groups ∧ s.config.getD p (-1) = -1 ∧
        s'.config = s.config.set p (g : Int)) ∧
      ∃ r i', greedy inst rand c i = some (r, i') ∧ (-1 : Int) ∉ r ∧
        r.length = inst.persons ∧
        ∀ p, c.getD p (-1) ≠ -1 → r.getD p (-1) = c.getD p (-1) := by
  refine ⟨greedy_iterations_eq inst c hc, fun j hj => ?_, ?_⟩
  · obtain ⟨s, hloop, hinv, hcnt, -, -, -⟩ :=
      greedy_loop_spec inst rand hw.2.1 hw.2.2 j (greedy_init inst c i) (sizeInv_groupsize inst c hc)
        (Nat.le_of_lt hj)
    have hcnt' : s.config.count (-1) + j = c.count (-1) := hcnt
    obtain ⟨s', p, hstep, hp, hpu, hcfg, -, -, -, -⟩ :=
      greedy_step_spec inst rand hw.2.1 hw.2.2 s hinv (by omega)
    refine ⟨s, s', p, min_group inst s.group_size, hloop, hstep, ?_, by omega, hp,
      (min_group_spec inst s.group_size hw.2.1).1, hpu, hcfg⟩
    rw [greedy_loop_succ, hloop]
    exact hstep
  · obtain ⟨r, hres, hass, hframe, -⟩ := greedy_spec inst rand hw.2.1 hw.2.2 c i hc
    exact ⟨r, _, hres, not_mem_of_assigned inst r hass, hass.1, hframe⟩

theorem C10_greedy_terminates_witness :
    greedy_iterations scenario [-1, 1, -1, -1] = ([-1, 1, -1, -1] : CONFIG).count (-1) ∧
      (∀ j, j < ([-1, 1, -1, -1] : CONFIG).count (-1) → ∃ s s' p g,
        greedy_loop scenario (fun n => n) j (greedy_init scenario [-1, 1, -1, -1] 0) = some s ∧
        greedy_step scenario (fun n => n) s = some s' ∧
        greedy_loop scenario (fun n => n) (j + 1) (greedy_init scenario [-1, 1, -1, -1] 0)
          = some s' ∧
        s.config.count (-1) = ([-1, 1, -1, -1] : CONFIG).count (-1) - j ∧
        p < scenario.persons ∧ g < scenario.groups ∧ s.config.getD p (-1) = -1 ∧
        s'.config = s.config.set p (g : Int)) ∧
      ∃ r i', greedy scenario (fun n => n) [-1, 1, -1, -1] 0 = some (r, i') ∧ (-1 : Int) ∉ r ∧
        r.length = scenario.persons ∧
        ∀ p, ([-1, 1, -1, -1] : CONFIG).getD p (-1) ≠ -1 →
          r.getD p (-1) = ([-1, 1, -1, -1] : CONFIG).getD p (-1) :=
  C10_greedy_terminates scenario (fun n => n) [-1, 1, -1, -1] 0
    (by unfold WellFormed; decide) (by unfold Partial; decide)

/-! ## Theorems on `iteration` and `solve` -/

theorem feasible_of_groupavg (inst : Instance) (hg : 1 ≤ inst.groups) (c : CONFIG)
    (h : Assigned inst c ∧ ∀ g, g < inst.groups → members c g ≤ groupavg inst) :
    Feasible inst c :=
  feasible_of_repair inst hg c h.1 h.2

/-- C4, as amended: for every `POPSIZE` and counts with `num_good + num_random ≤ POPSIZE`
and at least two survivors (`num_good + num_random ≥ 2`) unless the survivors fill the whole
population, every well-formed instance, every population of `POPSIZE` feasible candidates and
every sequence of draws, `iteration` completes and returns exactly `POPSIZE` candidates, each
fully assigned and with at most `ceil(persons/groups)` members in every group. -/
theorem C4_iteration_population (prm : Params) (inst : Instance) (rand : Nat → Nat)
    (popc : List CONFIG) (i : Nat) (hw : WellFormed inst)
    (hlen : popc.length = prm.POPSIZE) (hpop : ∀ c ∈ popc, Feasible inst c)
    (hsum : prm.num_good + prm.num_random ≤ prm.POPSIZE)
    (h2 : 2 ≤ prm.num_good + prm.num_random ∨ prm.num_good + prm.num_random = prm.POPSIZE) :
    ∃ (out : List CONFIG) (i' : Nat),
      iteration prm inst rand (popc.map some) i = some (out.map some, i') ∧
      out.length = prm.POPSIZE ∧ ∀ c ∈ out, Feasible inst c := by
  obtain ⟨E, R, K, F, i', hE, hR, -, hlt, -, -, hres, hK, hF, hKlen, hFlen⟩ :=
    iteration_spec prm inst rand hw.2.1 hw.2.2 popc hlen (fun c hc => (hpop c hc).1) hsum h2 i
  refine ⟨_, i', hres, ?_, fun c hc => ?_⟩
  · simp only [List.length_append, List.length_map, hE, hR, hKlen, hFlen]
    have : children_kept prm ≤ prm.POPSIZE - (prm.num_good + prm.num_random) := by
      unfold children_kept; split_ifs <;> omega
    omega
  · rcases List.mem_append.mp hc with h | h
    · rcases List.mem_append.mp h with h | h
      · obtain ⟨j, hj, rfl⟩ := List.mem_map.mp h
        exact hpop _ (getD_mem_gen popc j (by rw [hlen]; exact hlt j hj))
      · exact (hK c h).1
    · exact (hF c h).1

theorem C4_iteration_population_witness :
    ∃ (out : List CONFIG) (i' : Nat),
      iteration small scenario (fun n => 7 * n + 3) (small_pop.map some) 0
        = some (out.map some, i') ∧
      out.length = small.POPSIZE ∧ ∀ c ∈ out, Feasible scenario c :=
  C4_iteration_population small scenario (fun n => 7 * n + 3) small_pop 0
    (by unfold WellFormed; decide) (by decide)
    (fun c hc => feasible_of_groupavg scenario (by decide) c
      ((by unfold Assigned; decide :
        ∀ c ∈ small_pop, Assigned scenario c ∧
          ∀ g, g < scenario.groups → members c g ≤ groupavg scenario) c hc))
    (by decide) (by decide)

/-- C4, the claim as stated fails: with `POPSIZE = 2` and the ratios `0.5`, `0` and `0`
(one elite, nothing else) on the smallest instance with a feasible population, the search
for a second parent different from the only survivor never ends, so `iteration` returns
nothing. -/
theorem C4_counterexample :
    WellFormed tiny ∧ Feasible tiny [0] ∧
      lonely.num_good + lonely.num_random ≤ lonely.POPSIZE ∧
      0 ≤ lonely.num_mutate ∧ lonely.num_mutate ≤ lonely.POPSIZE ∧
      iteration lonely tiny (fun _ => 0) [some [0], some [0]] 0 = none := by
  refine ⟨by unfold WellFormed; decide, ?_, by decide, by decide, by decide, by decide⟩
  exact feasible_of_groupavg tiny (by decide) [0] (by unfold Assigned; decide)

theorem getD_replicate_config (n j : Nat) (a : CONFIG) (hj : j < n) :
    (List.replicate n a).getD j [] = a := by
  rw [List.getD_eq_getElem _ _ (by rw [List.length_replicate]; exact hj), List.getElem_replicate]

/-- Two parents that are both `[0,1]` have the child `[0,1]`, whatever the draws. -/
theorem child_of_same (rand : Nat → Nat) (S : List CONFIG) (k : CONFIG)
    (hS : ∀ c ∈ S, c = [0, 1]) (hk : IsChild pairs rand S k) : k = [0, 1] := by
  obtain ⟨c1, c2, j, j', h1, h2, -, hm⟩ := hk
  rw [hS _ (getD_mem_gen S c1 h1), hS _ (getD_mem_gen S c2 h2)] at hm
  have hmerge : merge pairs [0, 1] [0, 1] = [0, 1] := rfl
  have hrep : repair pairs rand [0, 1] j = some ([0, 1], j) :=
    repair_id pairs rand (by decide) [0, 1] j (by unfold Assigned; decide) (by decide)
  rw [mutate, hmerge, hrep] at hm
  simp only [Option.some.injEq, Prod.mk.injEq] at hm
  exact hm.1.symm

/-- With every draw equal to `0`, the fresh candidate is `[1,0]`: the random configuration
`[0,0]` loses person 0, who is then put into group 1. -/
theorem fresh_of_zeros (f : CONFIG) (hf : IsFresh pairs (fun _ => 0) f) : f = [1, 0] := by
  obtain ⟨j, j', h⟩ := hf
  have hfr : fresh pairs (fun _ => 0) j = some ([1, 0], j + 2 + 1 + 1) := rfl
  rw [hfr] at h
  simp only [Option.some.injEq, Prod.mk.injEq] at h
  exact h.1.symm

/-- With every draw equal to `0`, every seed candidate of `solve` is `[0,1]`. -/
theorem seed_of_zeros (n : Nat) (configs : Population) (i : Nat) :
    seed_loop pairs (fun _ => 0) n configs i
      = some (configs ++ List.replicate n (some [0, 1]), i + 2 * n) := by
  induction n generalizing configs i with
  | zero => simp [seed_loop]
  | succ n ih =>
    have hgr : greedy pairs (fun _ => 0) (new_config pairs) i = some ([0, 1], i + 1 + 1) := rfl
    rw [seed_loop, hgr]
    simp only
    rw [ih, List.replicate_succ, List.append_assoc]
    simp only [List.singleton_append, Option.some.injEq, Prod.mk.injEq, true_and]
    omega

/-- C5, the code at the compiled-in constants, two persons, two groups, all preferences `0`
and every draw equal to `0`.  The seed population of `solve` is 1000 copies of `[0,1]`; every
crossover child of two survivors is `[0,1]` and every fresh candidate is `[1,0]`.  The first
generation step returns `[0,1]` in slots `0..698` and `[1,0]` in slots `699..999`: only 199
crossover children are kept, slot 699 holds a fresh candidate that was written over the
200th child, and there are 301 fresh candidates. -/
theorem C5_last_child_overwritten :
    children_kept compiled = 199 ∧
      solve_init compiled pairs (fun _ => 0) 0 =
        some { configs := (List.replicate 1000 ([0, 1] : CONFIG)).map some
               cur_fitness := 0, i := 2000 } ∧
      (∀ (S : List CONFIG) (k : CONFIG), (∀ c ∈ S, c = [0, 1]) →
        IsChild pairs (fun _ => 0) S k → k = [0, 1]) ∧
      (∀ f, IsFresh pairs (fun _ => 0) f → f = [1, 0]) ∧
      ∃ i', iteration compiled pairs (fun _ => 0)
          ((List.replicate 1000 ([0, 1] : CONFIG)).map some) 2000 =
        some (List.replicate 699 (some [0, 1]) ++ List.replicate 301 (some [1, 0]), i') := by
  refine ⟨rfl, ?_, fun S k hS hk => child_of_same _ S k hS hk, fresh_of_zeros, ?_⟩
  · rw [solve_init, seed_of_zeros]
    simp only [List.nil_append, List.map_replicate]
    rfl
  obtain ⟨E, R, K, F, i', hE, hR, -, hlt, -, -, hres, hK, hF, hKlen, hFlen⟩ :=
    iteration_spec compiled pairs (fun _ => 0) (by decide) (fun _ _ _ _ => le_refl _)
      (List.replicate 1000 [0, 1]) (List.length_replicate _ _)
      (fun c hc => by
        rw [List.eq_of_mem_replicate hc]
        unfold Assigned; decide)
      (by decide) (Or.inl (by decide)) 2000
  have hSl : (E ++ R).map (fun j => (List.replicate 1000 ([0, 1] : CONFIG)).getD j [])
      = List.replicate 500 [0, 1] := by
    rw [List.eq_replicate_iff]
    refine ⟨by rw [List.length_map, List.length_append, hE, hR]; rfl, fun b hb => ?_⟩
    obtain ⟨j, hj, rfl⟩ := List.mem_map.mp hb
    exact getD_replicate_config 1000 j _ (hlt j hj)
  rw [hSl] at hres hK
  have hKeq : K = List.replicate 199 [0, 1] := by
    rw [List.eq_replicate_iff]
    refine ⟨hKlen, fun k hk => ?_⟩
    exact child_of_same _ _ k (fun c hc => List.eq_of_mem_replicate hc) (hK k hk).2
  have hFeq : F = List.replicate 301 [1, 0] := by
    rw [List.eq_replicate_iff]
    refine ⟨hFlen, fun f hf => fresh_of_zeros f (hF f hf).2⟩
  refine ⟨i', ?_⟩
  rw [hres, hKeq, hFeq, ← List.replicate_add]
  simp only [List.map_append, List.map_replicate]

theorem getD_elite_slot (popc : List CONFIG) (E R : List Nat) (K F : List CONFIG) (k : Nat)
    (hk : k < E.length) :
    (((E ++ R).map (fun j => popc.getD j []) ++ K ++ F).map some).getD k none
      = some (popc.getD (E.getD k 0) []) := by
  have h1 : k < ((E ++ R).map (fun j => popc.getD j []) ++ K ++ F).length := by
    simp only [List.length_append, List.length_map]; omega
  have h2 : k < (E ++ R).length := by rw [List.length_append]; omega
  have h3 : k < ((E ++ R).map (fun j => popc.getD j [])).length := by
    rw [List.length_map]; exact h2
  have h4 : ((E ++ R).map (fun j => popc.getD j [])).getD k []
      = popc.getD ((E ++ R).getD k 0) [] := by
    rw [List.getD_eq_getElem _ _ h3, List.getElem_map, List.getD_eq_getElem _ _ h2]
  rw [getD_map_some _ _ h1, List.append_assoc, List.getD_append _ _ _ _ h3, h4,
    List.getD_append _ _ _ _ hk]

/-- The candidate in a slot that has not been taken is still there. -/
theorem getD_without_free (popc : List CONFIG) (T : List Nat) (j : Nat) (hj : j < popc.length)
    (hT : j ∉ T) : (without (popc.map some) T).getD j none = some (popc.getD j []) := by
  rw [getD_without, if_neg hT, getD_map_some popc j hj]

/-- A slot chosen best-first beats every slot not taken before it. -/
theorem firstBest_ge (inst : Instance) (popc : List CONFIG) (T : List Nat) (m j : Nat)
    (h : FirstBest inst popc.length (without (popc.map some) T) m) (hm : m ∉ T)
    (hj : j < popc.length) (hjT : j ∉ T) :
    fitness inst (popc.getD j []) ≤ fitness inst (popc.getD m []) := by
  obtain ⟨hmP, cm, hcm, hall⟩ := h
  rw [getD_without_free popc T m hmP hm, Option.some.injEq] at hcm
  subst hcm
  exact (hall j _ hj (getD_without_free popc T j hj hjT)).1

/-- C6: on a population of `POPSIZE` fully-assigned candidates over an instance without
negative preferences, `iteration` completes and slots `0..num_good-1` of the new population
hold, unchanged and in the order of selection, the candidates of the old slots `E[0]`,
`E[1]`, ..., where each `E[k]` holds the maximum-fitness candidate among the slots not taken
before it, the lowest-index one on ties.  So the fitness does not increase along these slots
and each of them is at least the fitness of every old candidate that was not selected. -/
theorem C6_elite_slots (prm : Params) (inst : Instance) (rand : Nat → Nat)
    (popc : List CONFIG) (i : Nat) (hg : 1 ≤ inst.groups)
    (hpref : ∀ p, p < inst.persons → ∀ g, g < inst.groups → 0 ≤ inst.pref p g)
    (hlen : popc.length = prm.POPSIZE) (hpop : ∀ c ∈ popc, Assigned inst c)
    (hsum : prm.num_good + prm.num_random ≤ prm.POPSIZE)
    (h2 : 2 ≤ prm.num_good + prm.num_random ∨ prm.num_good + prm.num_random = prm.POPSIZE) :
    ∃ (out : Population) (i' : Nat) (E : List Nat),
      iteration prm inst rand (popc.map some) i = some (out, i') ∧
      E.length = prm.num_good ∧ E.Nodup ∧ (∀ j ∈ E, j < prm.POPSIZE) ∧
      (∀ k, k < prm.num_good → out.getD k none = some (popc.getD (E.getD k 0) [])) ∧
      (∀ k, k < prm.num_good →
        FirstBest inst prm.POPSIZE (without (popc.map some) (E.take k)) (E.getD k 0)) ∧
      (∀ k l, k ≤ l → l < prm.num_good →
        fitness inst (popc.getD (E.getD l 0) []) ≤ fitness inst (popc.getD (E.getD k 0) [])) ∧
      (∀ k j, k < prm.num_good → j < prm.POPSIZE → j ∉ E →
        fitness inst (popc.getD j []) ≤ fitness inst (popc.getD (E.getD k 0) [])) := by
  obtain ⟨E, R, K, F, i', hE, hR, hnd, hlt, hbest, -, hres, -, -, -, -⟩ :=
    iteration_spec prm inst rand hg hpref popc hlen hpop hsum h2 i
  have hEnd : E.Nodup := (List.nodup_append.mp hnd).1
  have hElt : ∀ j ∈ E, j < prm.POPSIZE := fun j hj => hlt j (List.mem_append_left _ hj)
  refine ⟨_, i', E, hres, hE, hEnd, hElt, fun k hk => ?_, hbest, fun k l hkl hl => ?_,
    fun k j hk hj hjE => ?_⟩
  · exact getD_elite_slot popc E R K F k (by omega)
  · have hb := hbest k (by omega)
    rw [← hlen] at hb
    exact firstBest_ge inst popc (E.take k) _ _ hb
      (getD_not_mem_take E hEnd k k le_rfl (by omega))
      (by rw [hlen]; exact hElt _ (getD_mem_nat E l (by omega)))
      (getD_not_mem_take E hEnd k l hkl (by omega))
  · have hb := hbest k hk
    rw [← hlen] at hb
    exact firstBest_ge inst popc (E.take k) _ _ hb
      (getD_not_mem_take E hEnd k k le_rfl (by omega)) (by omega)
      (fun h => hjE (List.mem_of_mem_take h))

theorem C6_elite_slots_witness :
    ∃ (out : Population) (i' : Nat) (E : List Nat),
      iteration small scenario (fun n => n) (small_pop.map some) 0 = some (out, i') ∧
      E.length = small.num_good ∧ E.Nodup ∧ (∀ j ∈ E, j < small.POPSIZE) ∧
      (∀ k, k < small.num_good → out.getD k none = some (small_pop.getD (E.getD k 0) [])) ∧
      (∀ k, k < small.num_good →
        FirstBest scenario small.POPSIZE (without (small_pop.map some) (E.take k))
          (E.getD k 0)) ∧
      (∀ k l, k ≤ l → l < small.num_good →
        fitness scenario (small_pop.getD (E.getD l 0) [])
          ≤ fitness scenario (small_pop.getD (E.getD k 0) [])) ∧
      (∀ k j, k < small.num_good → j < small.POPSIZE → j ∉ E →
        fitness scenario (small_pop.getD j [])
          ≤ fitness scenario (small_pop.getD (E.getD k 0) [])) :=
  C6_elite_slots small scenario (fun n => n) small_pop 0 (by decide) (by decide) (by decide)
    (by unfold Assigned; decide) (by decide) (by decide)

/-- One pass through the loop of `solve`: `M`, the fitness of the configuration `max` returns,
is the greatest fitness in the new population; a report is printed exactly when `M` exceeds
`cur_fitness`, and then `M` is the reported fitness and the new `cur_fitness`. -/
theorem solve_step_spec (prm : Params) (inst : Instance) (rand : Nat → Nat) (s s' : SState)
    (out : Option Report) (h : solve_step prm inst rand s = some (s', out)) :
    ∃ M, IsGreatest {f | ∃ j c, j < prm.POPSIZE ∧ s'.configs.getD j none = some c ∧
          fitness inst c = f} M ∧
      (out.isSome = true ↔ s.cur_fitness < M) ∧
      (∀ r, out = some r → r.fitness = M ∧ s'.cur_fitness = M) ∧
      (out = none → s'.cur_fitness = s.cur_fitness) := by
  unfold solve_step at h
  cases hit : iteration prm inst rand s.configs s.i with
  | none => rw [hit] at h; simp at h
  | some r =>
    obtain ⟨configs, i'⟩ := r
    rw [hit] at h
    simp only at h
    cases hmax : max inst prm.POPSIZE configs with
    | none => rw [hmax] at h; simp at h
    | some mc =>
      rw [hmax] at h
      simp only at h
      have hgr := max_spec inst prm.POPSIZE configs mc hmax
      refine ⟨fitness inst mc, ?_⟩
      by_cases hcur : s.cur_fitness ≥ fitness inst mc
      · rw [if_pos hcur] at h
        simp only [Option.some.injEq, Prod.mk.injEq] at h
        obtain ⟨h1, h2⟩ := h
        subst h1 h2
        refine ⟨hgr, ?_, fun r hr => (by cases hr), fun _ => rfl⟩
        simp only [Option.isSome_none, Bool.false_eq_true, false_iff, not_lt]
        exact hcur
      · rw [if_neg hcur] at h
        simp only [Option.some.injEq, Prod.mk.injEq] at h
        obtain ⟨h1, h2⟩ := h
        subst h1 h2
        refine ⟨hgr, ?_, fun r hr => ?_, fun hn => (by cases hn)⟩
        · simp only [Option.isSome_some, true_iff]
          omega
        · simp only [Option.some.injEq] at hr
          subst hr
          exact ⟨rfl, rfl⟩

theorem solve_run_spec (prm : Params) (inst : Instance) (rand : Nat → Nat) (n : Nat)
    (s s' : SState) (reports : List Report)
    (h : solve_run prm inst rand n s = some (s', reports)) :
    List.Pairwise (fun a b => a < b) (reports.map Report.fitness) ∧
      (∀ r ∈ reports, s.cur_fitness < r.fitness ∧ r.fitness ≤ s'.cur_fitness) ∧
      s.cur_fitness ≤ s'.cur_fitness := by
  induction n generalizing s s' reports with
  | zero =>
    simp only [solve_run, Option.some.injEq, Prod.mk.injEq] at h
    obtain ⟨h1, h2⟩ := h
    subst h1 h2
    exact ⟨List.Pairwise.nil, fun r hr => (by cases hr), le_rfl⟩
  | succ n ih =>
    unfold solve_run at h
    cases hst : solve_step prm inst rand s with
    | none => rw [hst] at h; simp at h
    | some r1 =>
      obtain ⟨s1, out⟩ := r1
      rw [hst] at h
      simp only at h
      cases hrun : solve_run prm inst rand n s1 with
      | none => rw [hrun] at h; simp at h
      | some r2 =>
        obtain ⟨s2, reps⟩ := r2
        rw [hrun] at h
        simp only [Option.some.injEq, Prod.mk.injEq] at h
        obtain ⟨h1, h2⟩ := h
        subst h1 h2
        obtain ⟨hpw, hall, hle⟩ := ih s1 s2 reps hrun
        obtain ⟨M, -, hiff, hsome, hnone⟩ := solve_step_spec prm inst rand s s1 out hst
        cases out with
        | none =>
          have := hnone rfl
          refine ⟨hpw, fun r hr => ?_, by omega⟩
          have := hall r hr
          simp only [Option.toList, List.nil_append] at hr
          omega
        | some r0 =>
          obtain ⟨hr0, hs1⟩ := hsome r0 rfl
          have hlt : s.cur_fitness < M := hiff.mp rfl
          simp only [Option.toList, List.singleton_append, List.map_cons, List.pairwise_cons,
            List.mem_map, forall_exists_index, and_imp, forall_apply_eq_imp_iff₂, List.mem_cons,
            forall_eq_or_imp]
          refine ⟨⟨fun r hr => ?_, hpw⟩, ⟨⟨by omega, by omega⟩, fun r hr => ?_⟩, by omega⟩
          · have := hall r hr; omega
          · have := hall r hr; omega

/-- C7: `solve` starts with best-so-far `0`.  A pass through its loop prints a report exactly
when the greatest fitness `M` in the new population exceeds the best-so-far value, the
reported fitness is `M` and `M` becomes the new best-so-far value.  Along every run every
reported fitness is greater than all fitnesses reported before it, and greater than the
value the run started with. -/
theorem C7_reports_increase (prm : Params) (inst : Instance) (rand : Nat → Nat) :
    (∀ i s0, solve_init prm inst rand i = some s0 → s0.cur_fitness = 0) ∧
      (∀ s s' out, solve_step prm inst rand s = some (s', out) →
        ∃ M, IsGreatest {f | ∃ j c, j < prm.POPSIZE ∧ s'.configs.getD j none = some c ∧
              fitness inst c = f} M ∧
          (out.isSome = true ↔ s.cur_fitness < M) ∧
          (∀ r, out = some r → r.fitness = M ∧ s'.cur_fitness = M) ∧
          (out = none → s'.cur_fitness = s.cur_fitness)) ∧
      ∀ n s s' reports, solve_run prm inst rand n s = some (s', reports) →
        List.Pairwise (fun a b => a < b) (reports.map Report.fitness) ∧
          (∀ r ∈ reports, s.cur_fitness < r.fitness ∧ r.fitness ≤ s'.cur_fitness) ∧
          s.cur_fitness ≤ s'.cur_fitness := by
  refine ⟨fun i s0 h => ?_, solve_step_spec prm inst rand, solve_run_spec prm inst rand⟩
  unfold solve_init at h
  cases hseed : seed_loop inst rand prm.POPSIZE [] i with
  | none => rw [hseed] at h; simp at h
  | some r =>
    rw [hseed] at h
    simp only [Option.some.injEq] at h
    subst h; rfl

theorem C7_reports_increase_witness :
    List.Pairwise (fun a b => a < b)
        (([{ config := [1, 0, 1, 0], fitness := 5, max_fitness := 23, sizes := [2, 2] },
           { config := [0, 1, 0, 1], fitness := 23, max_fitness := 23, sizes := [2, 2] }] :
          List Report).map Report.fitness) ∧
      (∀ r ∈ ([{ config := [1, 0, 1, 0], fitness := 5, max_fitness := 23, sizes := [2, 2] },
           { config := [0, 1, 0, 1], fitness := 23, max_fitness := 23, sizes := [2, 2] }] :
          List Report), (0 : Int) < r.fitness ∧ r.fitness ≤ 23) ∧
      (0 : Int) ≤ 23 :=
  (C7_reports_increase small scenario (fun n => n)).2.2 2
    { configs := (List.replicate 6 [1, 0, 1, 0]).map some, cur_fitness := 0, i := 0 }
    { configs := [some [1, 0, 1, 0], some [1, 0, 1, 0], some [1, 0, 1, 0], some [1, 0, 1, 0],
        some [0, 1, 0, 1], some [0, 1, 0, 1]], cur_fitness := 23, i := 26 }
    [{ config := [1, 0, 1, 0], fitness := 5, max_fitness := 23, sizes := [2, 2] },
     { config := [0, 1, 0, 1], fitness := 23, max_fitness := 23, sizes := [2, 2] }]
    (by decide)

/-! ## One iteration of `greedy`, in full -/

/-- An iteration of `greedy` with an unassigned person left: the person scan stops at the
first index, in circular order from the draw modulo `persons`, that is unassigned and has
preference `max_pref` for `min_g`, and that person is assigned to `min_g`. -/
theorem greedy_step_first (inst : Instance) (rand : Nat → Nat) (hg : 1 ≤ inst.groups)
    (hpref : ∀ p, p < inst.persons → ∀ g, g < inst.groups → 0 ≤ inst.pref p g)
    (s : GState) (hc : Partial inst s.config) (hun : 0 < s.config.count (-1)) :
    ∃ p j, j < inst.persons ∧ p = (rand s.i % inst.persons + j) % inst.persons ∧
      p < inst.persons ∧ s.config.getD p (-1) = -1 ∧
      inst.pref p (min_group inst s.group_size) =
        max_pref inst s.config (min_group inst s.group_size) ∧
      (∀ j', j' < j →
        ¬ (s.config.getD ((rand s.i % inst.persons + j') % inst.persons) (-1) = -1 ∧
          inst.pref ((rand s.i % inst.persons + j') % inst.persons)
            (min_group inst s.group_size) =
              max_pref inst s.config (min_group inst s.group_size))) ∧
      greedy_step inst rand s = some
        { config := s.config.set p (min_group inst s.group_size : Int)
          group_size := s.group_size.set (min_group inst s.group_size)
            (s.group_size.getD (min_group inst s.group_size) 0 + 1)
          i := s.i + 1
          warnings := if max_pref inst s.config (min_group inst s.group_size) = 0
            then s.warnings + 1 else s.warnings } := by
  obtain ⟨hmin, -, -⟩ := min_group_spec inst s.group_size hg
  obtain ⟨q, hq, hqu⟩ := exists_getD_of_count_pos s.config (-1) hun
  rw [hc.1] at hq
  obtain ⟨-, p0, hp0, hp0u, hp0e⟩ :=
    max_pref_spec inst s.config _ hc (fun p hp => hpref p hp _ hmin) q hq hqu
  have hstart : rand s.i % inst.persons < inst.persons := Nat.mod_lt _ (by omega)
  have hok0 : ∃ j, j < inst.persons ∧ greedy_ok inst s.config (min_group inst s.group_size)
      (max_pref inst s.config (min_group inst s.group_size))
      ((rand s.i % inst.persons + j) % inst.persons) = true := by
    refine ⟨(p0 + inst.persons - rand s.i % inst.persons) % inst.persons,
      Nat.mod_lt _ (by omega), ?_⟩
    rw [circ_reach _ p0 _ hstart hp0]
    unfold greedy_ok
    rw [hp0u, hp0e]
    simp
  obtain ⟨j, hj, hres, hok, hfirst⟩ := circScan_first inst.persons _ inst.persons
    (rand s.i % inst.persons) hstart hok0
  simp only [greedy_ok, Bool.and_eq_true, beq_iff_eq] at hok
  refine ⟨_, j, hj, rfl, Nat.mod_lt _ (by omega), hok.1, hok.2, fun j' hj' => ?_, ?_⟩
  · have := hfirst j' hj'
    simp only [greedy_ok, Bool.and_eq_false_iff, beq_eq_false_iff_ne, ne_eq] at this
    rintro ⟨h1, h2⟩
    rcases this with h | h
    · exact h h1
    · exact h h2
  · simp only [greedy_step, hres]

/-- The state of `greedy` before its iteration `j`, for `j` below the number of unassigned
persons of the input: the loop invariant holds and a person is still unassigned. -/
theorem greedy_state (inst : Instance) (rand : Nat → Nat) (hg : 1 ≤ inst.groups)
    (hpref : ∀ p, p < inst.persons → ∀ g, g < inst.groups → 0 ≤ inst.pref p g)
    (c : CONFIG) (i : Nat) (hc : Partial inst c) (j : Nat) (hj : j < c.count (-1)) :
    ∃ s, greedy_loop inst rand j (greedy_init inst c i) = some s ∧
      SizeInv inst s.config s.group_size ∧ s.config.count (-1) + j = c.count (-1) ∧
      s.i = i + j := by
  obtain ⟨s, hloop, hinv, hcnt, hi, -, -⟩ :=
    greedy_loop_spec inst rand hg hpref j (greedy_init inst c i) (sizeInv_groupsize inst c hc)
      (Nat.le_of_lt hj)
  exact ⟨s, hloop, hinv, hcnt, hi⟩

/-! ## Theorems on the iterations of `greedy` -/

/-- C11: with no negative preference, an iteration of `greedy` emits the warning (the
warning count grows by one) exactly when every still-unassigned person has preference `0`
for the group chosen in that iteration, and otherwise emits nothing.  The iteration
completes all the same: it assigns an unassigned person to the group, one with preference `0`
when the warning is emitted, and the run ends with a fully-assigned candidate. -/
theorem C11_warning_does_not_abort (inst : Instance) (rand : Nat → Nat) (c : CONFIG) (i : Nat)
    (hg : 1 ≤ inst.groups)
    (hpref : ∀ p, p < inst.persons → ∀ g, g < inst.groups → 0 ≤ inst.pref p g)
    (hc : Partial inst c) :
    (∀ j, j < c.count (-1) → ∃ s s' p,
      greedy_loop inst rand j (greedy_init inst c i) = some s ∧
      greedy_step inst rand s = some s' ∧
      greedy_loop inst rand (j + 1) (greedy_init inst c i) = some s' ∧
      (s'.warnings = s.warnings + 1 ↔
        ∀ q, q < inst.persons → s.config.getD q (-1) = -1 →
          inst.pref q (min_group inst s.group_size) = 0) ∧
      (s'.warnings = s.warnings ∨ s'.warnings = s.warnings + 1) ∧
      p < inst.persons ∧ s.config.getD p (-1) = -1 ∧
      s'.config = s.config.set p (min_group inst s.group_size : Int) ∧
      (s'.warnings = s.warnings + 1 → inst.pref p (min_group inst s.group_size) = 0)) ∧
    ∃ final, greedy_run inst rand c i = some final ∧
      greedy inst rand c i = some (final.config, final.i) ∧ Assigned inst final.config := by
  constructor
  · intro j hj
    obtain ⟨s, hloop, hinv, hcnt, -⟩ := greedy_state inst rand hg hpref c i hc j hj
    have hun : 0 < s.config.count (-1) := by omega
    obtain ⟨hmin, -, -⟩ := min_group_spec inst s.group_size hg
    obtain ⟨p, k, -, -, hp, hpu, hpe, -, hstep⟩ :=
      greedy_step_first inst rand hg hpref s hinv.1 hun
    obtain ⟨hle, -⟩ := max_pref_spec inst s.config (min_group inst s.group_size) hinv.1
      (fun q hq => hpref q hq _ hmin) p hp hpu
    have hiff : max_pref inst s.config (min_group inst s.group_size) = 0 ↔
        ∀ q, q < inst.persons → s.config.getD q (-1) = -1 →
          inst.pref q (min_group inst s.group_size) = 0 := by
      constructor
      · intro h0 q hq hqu
        have h1 := hle q hq hqu
        have h2 := hpref q hq _ hmin
        omega
      · intro hall
        rw [← hpe]
        exact hall p hp hpu
    refine ⟨s, _, p, hloop, hstep, ?_, ?_, ?_, hp, hpu, rfl, ?_⟩
    · rw [greedy_loop_succ, hloop]; exact hstep
    · rw [← hiff]
      simp only
      split_ifs with h0
      · exact ⟨fun _ => h0, fun _ => rfl⟩
      · exact ⟨fun h => by omega, fun h => absurd h h0⟩
    · simp only
      split_ifs
      · exact Or.inr rfl
      · exact Or.inl rfl
    · simp only
      split_ifs with h0
      · intro _; rw [hpe]; exact h0
      · intro h; omega
  · obtain ⟨s', hloop, hinv, hcnt, -, -, -⟩ :=
      greedy_loop_spec inst rand hg hpref (c.count (-1)) (greedy_init inst c i)
        (sizeInv_groupsize inst c hc) le_rfl
    have hrun : greedy_run inst rand c i = some s' := by
      rw [greedy_run, greedy_iterations_eq inst c hc, hloop]
    refine ⟨s', hrun, by rw [greedy, hrun]; rfl, ?_⟩
    apply assigned_of_complete inst _ hinv.1
    have : (greedy_init inst c i).config = c := rfl
    rw [this] at hcnt
    omega

theorem C11_warning_does_not_abort_witness :
    (∀ j, j < ([-1, -1] : CONFIG).count (-1) → ∃ s s' p,
      greedy_loop pairs (fun n => n) j (greedy_init pairs [-1, -1] 0) = some s ∧
      greedy_step pairs (fun n => n) s = some s' ∧
      greedy_loop pairs (fun n => n) (j + 1) (greedy_init pairs [-1, -1] 0) = some s' ∧
      (s'.warnings = s.warnings + 1 ↔
        ∀ q, q < pairs.persons → s.config.getD q (-1) = -1 →
          pairs.pref q (min_group pairs s.group_size) = 0) ∧
      (s'.warnings = s.warnings ∨ s'.warnings = s.warnings + 1) ∧
      p < pairs.persons ∧ s.config.getD p (-1) = -1 ∧
      s'.config = s.config.set p (min_group pairs s.group_size : Int) ∧
      (s'.warnings = s.warnings + 1 → pairs.pref p (min_group pairs s.group_size) = 0)) ∧
    ∃ final, greedy_run pairs (fun n => n) [-1, -1] 0 = some final ∧
      greedy pairs (fun n => n) [-1, -1] 0 = some (final.config, final.i) ∧
      Assigned pairs final.config :=
  C11_warning_does_not_abort pairs (fun n => n) [-1, -1] 0 (by decide) (by decide)
    (by unfold Partial; decide)

/-- C13: in iteration `j` of `greedy` (no negative preference, a person still unassigned) the
group filled is the lowest-index group among those of minimum current size; the person
assigned to it is unassigned, has the greatest preference for that group among all unassigned
persons, and is the first such person in circular order from the draw modulo `persons`; the
size of the group grows by exactly one and no other size changes. -/
theorem C13_greedy_choice (inst : Instance) (rand : Nat → Nat) (c : CONFIG) (i : Nat)
    (hg : 1 ≤ inst.groups)
    (hpref : ∀ p, p < inst.persons → ∀ g, g < inst.groups → 0 ≤ inst.pref p g)
    (hc : Partial inst c) (j : Nat) (hj : j < c.count (-1)) :
    ∃ s s' g p k,
      greedy_loop inst rand j (greedy_init inst c i) = some s ∧
      greedy_step inst rand s = some s' ∧
      (∀ g', g' < inst.groups → s.group_size.getD g' 0 = members s.config g') ∧
      g < inst.groups ∧
      (∀ g', g' < inst.groups → s.group_size.getD g 0 ≤ s.group_size.getD g' 0) ∧
      (∀ g', g' < g → s.group_size.getD g 0 < s.group_size.getD g' 0) ∧
      p < inst.persons ∧ s.config.getD p (-1) = -1 ∧
      IsGreatest {x | ∃ q, q < inst.persons ∧ s.config.getD q (-1) = -1 ∧ inst.pref q g = x}
        (inst.pref p g) ∧
      k < inst.persons ∧ p = (rand s.i % inst.persons + k) % inst.persons ∧
      (∀ k', k' < k →
        ¬ (s.config.getD ((rand s.i % inst.persons + k') % inst.persons) (-1) = -1 ∧
          inst.pref ((rand s.i % inst.persons + k') % inst.persons) g = inst.pref p g)) ∧
      s'.config = s.config.set p (g : Int) ∧
      s'.group_size.getD g 0 = s.group_size.getD g 0 + 1 ∧
      (∀ g', g' ≠ g → s'.group_size.getD g' 0 = s.group_size.getD g' 0) ∧
      members s'.config g = members s.config g + 1 := by
  obtain ⟨s, hloop, hinv, hcnt, -⟩ := greedy_state inst rand hg hpref c i hc j hj
  have hun : 0 < s.config.count (-1) := by omega
  obtain ⟨hmin, hle, hlow⟩ := min_group_spec inst s.group_size hg
  obtain ⟨p, k, hk, hpk, hp, hpu, hpe, hfirst, hstep⟩ :=
    greedy_step_first inst rand hg hpref s hinv.1 hun
  obtain ⟨hmax, -⟩ := max_pref_spec inst s.config (min_group inst s.group_size) hinv.1
    (fun q hq => hpref q hq _ hmin) p hp hpu
  have hpl : p < s.config.length := by rw [hinv.1.1]; exact hp
  refine ⟨s, _, min_group inst s.group_size, p, k, hloop, hstep, hinv.2.2, hmin, hle, hlow,
    hp, hpu, ⟨⟨p, hp, hpu, rfl⟩, ?_⟩, hk, hpk, ?_, rfl, ?_, fun g' hg' => ?_, ?_⟩
  · rintro x ⟨q, hq, hqu, rfl⟩
    rw [hpe]
    exact hmax q hq hqu
  · rw [hpe]; exact hfirst
  · simp only
    rw [getD_set_self _ _ _ _ (by rw [hinv.2.1]; exact hmin)]
  · simp only
    rw [getD_set_other _ _ _ _ _ (fun h => hg' h.symm)]
  · simp only
    rw [(assign_counts s.config p (min_group inst s.group_size) hpl hpu).2, if_pos rfl]

theorem C13_greedy_choice_witness :
    ∃ s s' g p k,
      greedy_loop scenario (fun n => n) 1 (greedy_init scenario [-1, 1, -1, -1] 0) = some s ∧
      greedy_step scenario (fun n => n) s = some s' ∧
      (∀ g', g' < scenario.groups → s.group_size.getD g' 0 = members s.config g') ∧
      g < scenario.groups ∧
      (∀ g', g' < scenario.groups → s.group_size.getD g 0 ≤ s.group_size.getD g' 0) ∧
      (∀ g', g' < g → s.group_size.getD g 0 < s.group_size.getD g' 0) ∧
      p < scenario.persons ∧ s.config.getD p (-1) = -1 ∧
      IsGreatest
        {x | ∃ q, q < scenario.persons ∧ s.config.getD q (-1) = -1 ∧ scenario.pref q g = x}
        (scenario.pref p g) ∧
      k < scenario.persons ∧ p = (s.i % scenario.persons + k) % scenario.persons ∧
      (∀ k', k' < k →
        ¬ (s.config.getD ((s.i % scenario.persons + k') % scenario.persons) (-1) = -1 ∧
          scenario.pref ((s.i % scenario.persons + k') % scenario.persons) g
            = scenario.pref p g)) ∧
      s'.config = s.config.set p (g : Int) ∧
      s'.group_size.getD g 0 = s.group_size.getD g 0 + 1 ∧
      (∀ g', g' ≠ g → s'.group_size.getD g' 0 = s.group_size.getD g' 0) ∧
      members s'.config g = members s.config g + 1 :=
  C13_greedy_choice scenario (fun n => n) [-1, 1, -1, -1] 0 (by decide) (by decide)
    (by unfold Partial; decide) 1 (by decide)

/-! ## `greedy` on the fully unassigned candidate -/

/-- When the person scan stops at the same person from every start, the iteration of
`greedy` does not depend on the draw. -/
theorem greedy_step_of_scan (inst : Instance) (rand : Nat → Nat) (config : CONFIG)
    (size : List Nat) (i w p : Nat) (hp : 0 < inst.persons)
    (h : ∀ k, k < inst.persons →
      circScan inst.persons
        (greedy_ok inst config (min_group inst size)
          (max_pref inst config (min_group inst size))) inst.persons k = some p) :
    greedy_step inst rand { config := config, group_size := size, i := i, warnings := w } =
      some
        { config := config.set p (min_group inst size : Int)
          group_size := size.set (min_group inst size) (size.getD (min_group inst size) 0 + 1)
          i := i + 1
          warnings := if max_pref inst config (min_group inst size) = 0 then w + 1 else w } := by
  simp only [greedy_step, h _ (Nat.mod_lt (rand i) hp)]

/-- If `greedy` turns the new configuration into `x` with `d` draws, whatever the draw
counter, the seed loop of `solve` appends `n` copies of `x`. -/
theorem seed_loop_const (inst : Instance) (rand : Nat → Nat) (x : CONFIG) (d : Nat)
    (h : ∀ i, greedy inst rand (new_config inst) i = some (x, i + d))
    (n : Nat) (configs : Population) (i : Nat) :
    seed_loop inst rand n configs i
      = some (configs ++ List.replicate n (some x), i + d * n) := by
  induction n generalizing configs i with
  | zero => simp [seed_loop]
  | succ n ih =>
    rw [seed_loop, h i]
    simp only
    rw [ih, List.replicate_succ, List.append_assoc, Nat.mul_succ]
    simp only [List.singleton_append, Option.some.injEq, Prod.mk.injEq, true_and]
    omega

theorem new_config_valid (inst : Instance) : Partial inst (new_config inst) := by
  refine ⟨by simp [new_config], fun x hx => ?_⟩
  exact Or.inl (List.eq_of_mem_replicate hx)

theorem new_config_count (inst : Instance) : (new_config inst).count (-1) = inst.persons := by
  simp [new_config]

theorem new_config_members (inst : Instance) (g : Nat) : members (new_config inst) g = 0 := by
  unfold members new_config
  rw [List.count_eq_zero]
  intro h
  have := List.eq_of_mem_replicate h
  omega

theorem round_robin_succ (G j g : Nat) (hG : 0 < G) (hg : g < G) :
    (j + 1) / G + (if g < (j + 1) % G then 1 else 0)
      = j / G + (if g < j % G then 1 else 0) + (if j % G = g then 1 else 0) := by
  have hdm := Nat.div_add_mod j G
  have hlt := Nat.mod_lt j hG
  by_cases hwrap : j % G + 1 < G
  · have h : (j + 1) / G = j / G ∧ (j + 1) % G = j % G + 1 :=
      (Nat.div_mod_unique hG).mpr ⟨by omega, hwrap⟩
    rw [h.1, h.2]
    split_ifs <;> omega
  · have h : (j + 1) / G = j / G + 1 ∧ (j + 1) % G = 0 :=
      (Nat.div_mod_unique hG).mpr ⟨by rw [Nat.mul_succ]; omega, hG⟩
    rw [h.1, h.2]
    split_ifs <;> omega

/-- With sizes in round-robin shape after `j` assignments, the group `greedy` fills next is
group `j mod groups`. -/
theorem min_group_round_robin (inst : Instance) (hg : 1 ≤ inst.groups) (size : List Nat)
    (j : Nat)
    (h : ∀ g, g < inst.groups →
      size.getD g 0 = j / inst.groups + (if g < j % inst.groups then 1 else 0)) :
    min_group inst size = j % inst.groups := by
  obtain ⟨hmin, hle, hlow⟩ := min_group_spec inst size hg
  have hr : j % inst.groups < inst.groups := Nat.mod_lt _ (by omega)
  have h1 := h _ hmin
  have h2 := h _ hr
  rw [if_neg (lt_irrefl _)] at h2
  have h3 := hle _ hr
  by_contra hne
  rcases Nat.lt_or_gt_of_ne hne with hlt | hgt
  · rw [if_pos hlt] at h1
    omega
  · have := hlow _ hgt
    rw [if_neg (by omega)] at h1
    omega

/-- On the fully unassigned candidate `greedy` fills the groups in turn: after `j`
iterations group `g` has `j / groups` members, and one more if `g < j mod groups`. -/
theorem greedy_round_robin (inst : Instance) (rand : Nat → Nat) (hg : 1 ≤ inst.groups)
    (hpref : ∀ p, p < inst.persons → ∀ g, g < inst.groups → 0 ≤ inst.pref p g)
    (i j : Nat) (hj : j ≤ inst.persons) :
    ∃ s, greedy_loop inst rand j (greedy_init inst (new_config inst) i) = some s ∧
      SizeInv inst s.config s.group_size ∧ s.config.count (-1) + j = inst.persons ∧
      s.i = i + j ∧
      ∀ g, g < inst.groups →
        members s.config g = j / inst.groups + (if g < j % inst.groups then 1 else 0) := by
  induction j with
  | zero =>
    refine ⟨greedy_init inst (new_config inst) i, rfl,
      sizeInv_groupsize inst _ (new_config_valid inst), new_config_count inst, rfl,
      fun g hg' => ?_⟩
    have : (greedy_init inst (new_config inst) i).config = new_config inst := rfl
    rw [this, new_config_members, Nat.zero_div, Nat.zero_mod, if_neg (by omega)]
  | succ j ih =>
    obtain ⟨s, hloop, hinv, hcnt, hi, hshape⟩ := ih (by omega)
    obtain ⟨s', p, hstep, -, -, -, hi', hinv', hcnt', hmem⟩ :=
      greedy_step_spec inst rand hg hpref s hinv (by omega)
    have hmin : min_group inst s.group_size = j % inst.groups :=
      min_group_round_robin inst hg s.group_size j
        (fun g hg' => by rw [hinv.2.2 g hg']; exact hshape g hg')
    refine ⟨s', ?_, hinv', by omega, by omega, fun g hg' => ?_⟩
    · rw [greedy_loop_succ, hloop]; exact hstep
    · rw [hmem g, hshape g hg', hmin, round_robin_succ inst.groups j g (by omega) hg']

/-! ## Theorems on `greedy` from the fully unassigned candidate -/

/-- In the concrete scenario `greedy` on the new configuration assigns person 0 to group 0,
person 3 to group 1, person 2 to group 0 and person 1 to group 1, whatever the draws, and
never warns. -/
theorem scenario_greedy_run (rand : Nat → Nat) (i : Nat) :
    greedy_run scenario rand [-1, -1, -1, -1] i =
      some { config := [0, 1, 0, 1], group_size := [2, 2], i := i + 4, warnings := 0 } := by
  have h1 : greedy_step scenario rand
      { config := [-1, -1, -1, -1], group_size := [0, 0], i := i, warnings := 0 }
      = some { config := [0, -1, -1, -1], group_size := [1, 0], i := i + 1, warnings := 0 } :=
    greedy_step_of_scan scenario rand [-1, -1, -1, -1] [0, 0] i 0 0 (by decide) (by decide)
  have h2 : greedy_step scenario rand
      { config := [0, -1, -1, -1], group_size := [1, 0], i := i + 1, warnings := 0 }
      = some { config := [0, -1, -1, 1], group_size := [1, 1], i := i + 1 + 1,
               warnings := 0 } :=
    greedy_step_of_scan scenario rand [0, -1, -1, -1] [1, 0] (i + 1) 0 3 (by decide) (by decide)
  have h3 : greedy_step scenario rand
      { config := [0, -1, -1, 1], group_size := [1, 1], i := i + 1 + 1, warnings := 0 }
      = some { config := [0, -1, 0, 1], group_size := [2, 1], i := i + 1 + 1 + 1,
               warnings := 0 } :=
    greedy_step_of_scan scenario rand [0, -1, -1, 1] [1, 1] (i + 1 + 1) 0 2 (by decide) (by decide)
  have h4 : greedy_step scenario rand
      { config := [0, -1, 0, 1], group_size := [2, 1], i := i + 1 + 1 + 1, warnings := 0 }
      = some { config := [0, 1, 0, 1], group_size := [2, 2], i := i + 1 + 1 + 1 + 1,
               warnings := 0 } :=
    greedy_step_of_scan scenario rand [0, -1, 0, 1] [2, 1] (i + 1 + 1 + 1) 0 1 (by decide)
      (by decide)
  have hit : greedy_iterations scenario [-1, -1, -1, -1] = 4 := by decide
  have hinit : greedy_init scenario [-1, -1, -1, -1] i
      = { config := [-1, -1, -1, -1], group_size := [0, 0], i := i, warnings := 0 } := rfl
  rw [greedy_run, hit, hinit]
  simp only [greedy_loop, h1, h2, h3, h4, Option.some_bind]

/-- C16: in the concrete scenario, `greedy` on the fully unassigned candidate returns
`[0,1,0,1]` for every sequence of draws, with fitness `23 = max_fitness` and without a
warning; so every seed candidate of `solve` is `[0,1,0,1]`, whatever `POPSIZE`. -/
theorem C16_scenario_seed (rand : Nat → Nat) (i : Nat) :
    new_config scenario = [-1, -1, -1, -1] ∧
      greedy scenario rand [-1, -1, -1, -1] i = some ([0, 1, 0, 1], i + 4) ∧
      (∃ s, greedy_run scenario rand [-1, -1, -1, -1] i = some s ∧ s.warnings = 0) ∧
      fitness scenario [0, 1, 0, 1] = 23 ∧ max_fitness scenario = 23 ∧
      ∀ prm : Params, solve_init prm scenario rand i =
        some { configs := List.replicate prm.POPSIZE (some [0, 1, 0, 1])
               cur_fitness := 0, i := i + 4 * prm.POPSIZE } := by
  have hgr : ∀ i, greedy scenario rand (new_config scenario) i = some ([0, 1, 0, 1], i + 4) := by
    intro i
    have : new_config scenario = [-1, -1, -1, -1] := rfl
    rw [this, greedy, scenario_greedy_run]
    rfl
  refine ⟨rfl, hgr i, ⟨_, scenario_greedy_run rand i, rfl⟩, by decide, by decide,
    fun prm => ?_⟩
  rw [solve_init, seed_loop_const scenario rand [0, 1, 0, 1] 4 hgr]
  simp only [List.nil_append]

/-- C18: on a well-formed instance, `greedy` applied to the fully unassigned candidate
returns, for every sequence of draws, a candidate in which group `g` has
`floor(persons/groups) + 1` members if `g < persons mod groups` and `floor(persons/groups)`
members otherwise (`groupsize` reports these numbers), so that two group sizes differ by at
most one. -/
theorem C18_greedy_balanced (inst : Instance) (rand : Nat → Nat) (i : Nat)
    (hw : WellFormed inst) :
    ∃ r i', greedy inst rand (new_config inst) i = some (r, i') ∧
      (∀ g, g < inst.groups → members r g =
        inst.persons / inst.groups + (if g < inst.persons % inst.groups then 1 else 0)) ∧
      (∀ g, g < inst.groups → (groupsize inst r).getD g 0 =
        inst.persons / inst.groups + (if g < inst.persons % inst.groups then 1 else 0)) ∧
      ∀ g g', g < inst.groups → g' < inst.groups → members r g ≤ members r g' + 1 := by
  obtain ⟨s, hloop, hinv, hcnt, hi, hshape⟩ :=
    greedy_round_robin inst rand hw.2.1 hw.2.2 i inst.persons le_rfl
  have hass : Assigned inst s.config := assigned_of_complete inst _ hinv.1 (by omega)
  refine ⟨s.config, s.i, ?_, hshape, fun g hg => ?_, fun g g' hg hg' => ?_⟩
  · rw [greedy, greedy_run, greedy_iterations_eq inst _ (new_config_valid inst),
      new_config_count, hloop]
    rfl
  · rw [(groupsize_spec inst s.config hinv.1).2 g hg]
    exact hshape g hg
  · rw [hshape g hg, hshape g' hg']
    split_ifs <;> omega

theorem C18_greedy_balanced_witness :
    ∃ r i', greedy scenario (fun n => n) (new_config scenario) 0 = some (r, i') ∧
      (∀ g, g < scenario.groups → members r g =
        scenario.persons / scenario.groups +
          (if g < scenario.persons % scenario.groups then 1 else 0)) ∧
      (∀ g, g < scenario.groups → (groupsize scenario r).getD g 0 =
        scenario.persons / scenario.groups +
          (if g < scenario.persons % scenario.groups then 1 else 0)) ∧
      ∀ g g', g < scenario.groups → g' < scenario.groups → members r g ≤ members r g' + 1 :=
  C18_greedy_balanced scenario (fun n => n) 0 (by unfold WellFormed; decide)

theorem circScan_never (n : Nat) (ok : Nat → Bool) (h : ∀ p, ok p = false) (fuel p : Nat) :
    circScan n ok fuel p = none := by
  induction fuel generalizing p with
  | zero => rfl
  | succ fuel ih => rw [circScan, h p]; exact ih _

/-- C20: with one person, one group and the preference `-1`, `greedy` on the unassigned
candidate chooses group 0 and computes `max_pref = 0`; the only person has preference `-1`,
so nobody passes the test of the person scan, the scan never stops however long it runs, and
`greedy` returns nothing, for every sequence of draws. -/
theorem C20_negative_preference :
    greedy_iterations sour [-1] = 1 ∧
      min_group sour (groupsize sour [-1]) = 0 ∧
      max_pref sour [-1] 0 = 0 ∧
      (∀ p, p < sour.persons → sour.pref p 0 ≠ max_pref sour [-1] 0) ∧
      (∀ fuel start, circScan sour.persons (greedy_ok sour [-1] 0 0) fuel start = none) ∧
      ∀ (rand : Nat → Nat) (i : Nat),
        greedy_run sour rand [-1] i = none ∧ greedy sour rand [-1] i = none := by
  have hscan : ∀ fuel start, circScan sour.persons (greedy_ok sour [-1] 0 0) fuel start = none :=
    circScan_never _ _ (fun p => by
      unfold greedy_ok
      have : (sour.pref p 0 == (0 : Int)) = false := rfl
      rw [this, Bool.and_false])
  have hneg : ∀ p, p < sour.persons → sour.pref p 0 ≠ max_pref sour [-1] 0 := by
    intro p _
    show (-1 : Int) ≠ 0
    decide
  refine ⟨rfl, rfl, rfl, hneg, hscan, fun rand i => ?_⟩
  have hstep : greedy_step sour rand (greedy_init sour [-1] i) = none := by
    have hmin : min_group sour (greedy_init sour [-1] i).group_size = 0 := rfl
    have hmp : max_pref sour (greedy_init sour [-1] i).config 0 = 0 := rfl
    have hcfg : (greedy_init sour [-1] i).config = [-1] := rfl
    have hmp0 : max_pref sour [-1] 0 = 0 := rfl
    simp only [greedy_step, hmin, hmp, hcfg, hmp0, hscan]
  have hrun : greedy_run sour rand [-1] i = none := by
    have hit : greedy_iterations sour [-1] = 1 := rfl
    rw [greedy_run, hit, greedy_loop, hstep]
    rfl
  exact ⟨hrun, by rw [greedy, hrun]; rfl⟩

/-! ## Counting the persons that `repair` moves -/

theorem count_take_eq_card (c : CONFIG) (a : Int) (n : Nat) (hn : n ≤ c.length) :
    (c.take n).count a = ((Finset.range n).filter (fun p => c.getD p (-1) = a)).card := by
  induction n with
  | zero => simp
  | succ n ih =>
    rw [take_succ_getD c n (by omega), List.count_append, ih (by omega), count_single,
      Finset.range_succ, Finset.filter_insert]
    by_cases h : c.getD n (-1) = a
    · rw [if_pos h, if_pos h, Finset.card_insert_of_not_mem]
      simp
    · rw [if_neg h, if_neg h, Nat.add_zero]

/-- The number of entries equal to `a` is the number of persons holding `a`. -/
theorem count_eq_card (inst : Instance) (c : CONFIG) (a : Int) (hlen : c.length = inst.persons) :
    c.count a = ((Finset.range inst.persons).filter (fun p => c.getD p (-1) = a)).card := by
  have h := count_take_eq_card c a c.length le_rfl
  rw [List.take_length, hlen] at h
  exact h

/-- When `e` arises from `c` by unassigning persons, the members of `g` in `c` are the
members of `g` in `e` and the persons evicted from `g`. -/
theorem members_split (inst : Instance) (c e : CONFIG) (g : Nat)
    (hc : c.length = inst.persons) (he : e.length = inst.persons)
    (hframe : ∀ p, e.getD p (-1) = c.getD p (-1) ∨ e.getD p (-1) = -1) :
    members c g = members e g + (evicted inst c e g).card := by
  unfold members evicted
  rw [count_eq_card inst c _ hc, count_eq_card inst e _ he]
  have hsplit :
      (((Finset.range inst.persons).filter (fun p => c.getD p (-1) = (g : Int))).filter
          (fun p => e.getD p (-1) = -1)).card +
        (((Finset.range inst.persons).filter (fun p => c.getD p (-1) = (g : Int))).filter
          (fun p => ¬ e.getD p (-1) = -1)).card
        = ((Finset.range inst.persons).filter (fun p => c.getD p (-1) = (g : Int))).card :=
    Finset.filter_card_add_filter_neg_card_eq_card _
  rw [Finset.filter_filter, Finset.filter_filter] at hsplit
  have hsame : (Finset.range inst.persons).filter
      (fun p => c.getD p (-1) = (g : Int) ∧ ¬ e.getD p (-1) = -1)
      = (Finset.range inst.persons).filter (fun p => e.getD p (-1) = (g : Int)) := by
    apply Finset.filter_congr
    intro p _
    constructor
    · rintro ⟨h1, h2⟩
      rcases hframe p with h | h
      · rw [h, h1]
      · exact absurd h h2
    · intro h1
      have h2 : ¬ e.getD p (-1) = -1 := by rw [h1]; omega
      rcases hframe p with h | h
      · exact ⟨by rw [← h, h1], h2⟩
      · exact absurd h h2
  rw [hsame] at hsplit
  omega

theorem sum_excess (groups : Nat) (a b : Nat → Nat) (h : ∀ g, g < groups → b g ≤ a g) :
    (∑ g in Finset.range groups, (a g - b g)) + ∑ g in Finset.range groups, b g
      = ∑ g in Finset.range groups, a g := by
  rw [← Finset.sum_add_distrib]
  apply Finset.sum_congr rfl
  intro g hg
  have := h g (Finset.mem_range.mp hg)
  omega

/-! ## Theorems on what `repair` changes -/

/-- C14: on a well-formed instance and a fully-assigned candidate `c`, the eviction phase of
`repair` hands to `greedy` a candidate `e` that differs from `c` only in unassigned entries;
from each group `g` it unassigns exactly `max(0, s_g - ceiling)` persons, all of them
members of `g`, where `s_g` is the number of members of `g` in `c`.  Hence a person whose
group has at most `ceiling` members keeps that group in the output of `repair`, and the
number of persons whose group differs between input and output is at most the sum over the
groups of `max(0, s_g - ceiling)`. -/
theorem C14_eviction_frame (inst : Instance) (rand : Nat → Nat) (c : CONFIG) (i : Nat)
    (hw : WellFormed inst) (hc : Assigned inst c) :
    ∃ e i1 r i2, evict inst rand c i = some (e, i1) ∧ greedy inst rand e i1 = some (r, i2) ∧
      repair inst rand c i = some (r, i2) ∧
      (∀ g, g < inst.groups → (groupsize inst c).getD g 0 = members c g) ∧
      (∀ g, g < inst.groups → (evicted inst c e g).card = members c g - ceiling inst) ∧
      (∀ p, p < inst.persons → e.getD p (-1) ≠ -1 → e.getD p (-1) = c.getD p (-1)) ∧
      (∀ p, p < inst.persons → e.getD p (-1) = -1 →
        ∃ g, g < inst.groups ∧ c.getD p (-1) = (g : Int) ∧ p ∈ evicted inst c e g) ∧
      i1 = i + ∑ g in Finset.range inst.groups, (members c g - ceiling inst) ∧
      (∀ p g, p < inst.persons → g < inst.groups → c.getD p (-1) = (g : Int) →
        members c g ≤ ceiling inst → r.getD p (-1) = (g : Int)) ∧
      (changed inst c r).card ≤ ∑ g in Finset.range inst.groups, (members c g - ceiling inst) := by
  have hg := hw.2.1
  have hpart := partial_of_assigned inst c hc
  obtain ⟨e, i1, hev, hepart, hframe, hmem, hi⟩ := evict_spec inst rand c i hpart
  obtain ⟨r, hgr, -, hgframe, -⟩ := greedy_spec inst rand hg hw.2.2 e i1 hepart
  rw [groupavg_eq_ceiling inst hg] at hmem
  have hc0 : c.count (-1) = 0 := by
    rw [List.count_eq_zero]
    exact not_mem_of_assigned inst c hc
  have hsplit : ∀ g, members c g = members e g + (evicted inst c e g).card :=
    fun g => members_split inst c e g hc.1 hepart.1 hframe
  have hcard : ∀ g, g < inst.groups → (evicted inst c e g).card = members c g - ceiling inst := by
    intro g hg'
    have h1 := hsplit g
    have h2 := hmem g hg'
    omega
  -- the unassigned entries of `e` are the evicted persons
  have hsum : e.count (-1) = ∑ g in Finset.range inst.groups, (members c g - ceiling inst) := by
    have h1 := sum_members inst.groups c hpart.2
    have h2 := sum_members inst.groups e hepart.2
    have h3 := sum_excess inst.groups (fun g => members c g) (fun g => members e g)
      (fun g _ => by
        show members e g ≤ members c g
        have := hsplit g
        omega)
    have h4 : ∑ g in Finset.range inst.groups, (members c g - members e g)
        = ∑ g in Finset.range inst.groups, (members c g - ceiling inst) := by
      apply Finset.sum_congr rfl
      intro g hg'
      have := hmem g (Finset.mem_range.mp hg')
      omega
    rw [hc.1] at h1
    rw [hepart.1] at h2
    simp only at h3
    omega
  refine ⟨e, i1, r, _, hev, hgr, ?_, (groupsize_spec inst c hpart).2, hcard, ?_, ?_, by omega,
    ?_, ?_⟩
  · rw [repair, if_neg (by omega), hev]
    exact hgr
  · intro p _ hne
    rcases hframe p with h | h
    · exact h
    · exact absurd h hne
  · intro p hp hpe
    obtain ⟨h0, hlt⟩ := assigned_getD inst c hc p hp
    refine ⟨(c.getD p (-1)).toNat, by omega, by omega, ?_⟩
    unfold evicted
    rw [Finset.mem_filter, Finset.mem_range]
    exact ⟨hp, by omega, hpe⟩
  · intro p g hp hg' hpg hle
    have hep : e.getD p (-1) = (g : Int) := by
      rcases hframe p with h | h
      · rw [h, hpg]
      · exfalso
        have hin : p ∈ evicted inst c e g := by
          unfold evicted
          rw [Finset.mem_filter, Finset.mem_range]
          exact ⟨hp, hpg, h⟩
        have := hcard g hg'
        have hpos : 0 < (evicted inst c e g).card := Finset.card_pos.mpr ⟨p, hin⟩
        omega
    rw [hgframe p (by rw [hep]; omega), hep]
  · rw [← hsum, count_eq_card inst e (-1) hepart.1]
    apply Finset.card_le_card
    intro p hp
    unfold changed at hp
    rw [Finset.mem_filter] at hp ⊢
    refine ⟨hp.1, ?_⟩
    by_contra hne
    apply hp.2
    rw [hgframe p hne]
    rcases hframe p with h | h
    · exact h
    · exact absurd h hne

theorem C14_eviction_frame_witness :
    ∃ e i1 r i2, evict scenario (fun n => n) [1, 1, 0, 1] 0 = some (e, i1) ∧
      greedy scenario (fun n => n) e i1 = some (r, i2) ∧
      repair scenario (fun n => n) [1, 1, 0, 1] 0 = some (r, i2) ∧
      (∀ g, g < scenario.groups →
        (groupsize scenario [1, 1, 0, 1]).getD g 0 = members [1, 1, 0, 1] g) ∧
      (∀ g, g < scenario.groups →
        (evicted scenario [1, 1, 0, 1] e g).card = members [1, 1, 0, 1] g - ceiling scenario) ∧
      (∀ p, p < scenario.persons → e.getD p (-1) ≠ -1 →
        e.getD p (-1) = ([1, 1, 0, 1] : CONFIG).getD p (-1)) ∧
      (∀ p, p < scenario.persons → e.getD p (-1) = -1 →
        ∃ g, g < scenario.groups ∧ ([1, 1, 0, 1] : CONFIG).getD p (-1) = (g : Int) ∧
          p ∈ evicted scenario [1, 1, 0, 1] e g) ∧
      i1 = 0 + ∑ g in Finset.range scenario.groups,
        (members [1, 1, 0, 1] g - ceiling scenario) ∧
      (∀ p g, p < scenario.persons → g < scenario.groups →
        ([1, 1, 0, 1] : CONFIG).getD p (-1) = (g : Int) →
        members [1, 1, 0, 1] g ≤ ceiling scenario → r.getD p (-1) = (g : Int)) ∧
      (changed scenario [1, 1, 0, 1] r).card
        ≤ ∑ g in Finset.range scenario.groups, (members [1, 1, 0, 1] g - ceiling scenario) :=
  C14_eviction_frame scenario (fun n => n) [1, 1, 0, 1] 0 (by unfold WellFormed; decide)
    (by unfold Assigned; decide)

theorem merge_self (inst : Instance) (c : CONFIG) (hlen : c.length = inst.persons) :
    merge inst c c = c := by
  obtain ⟨hl, hget⟩ := merge_spec inst c c
  apply ext_getD
  · rw [hl, hlen]
  · intro p hp
    rw [hl] at hp
    rw [hget p hp]
    split_ifs <;> rfl

/-- C17: with `groups ≥ 1`, `repair` returns a fully-assigned candidate whose groups all have
at most `ceil(persons/groups)` members as it is and consumes no draw, and so does `mutate`
applied to such a candidate twice.  When no preference is negative, `repair` applied to any
fully-assigned candidate returns a candidate that a second `repair` returns unchanged,
whatever the draws. -/
theorem C17_repair_idempotent (inst : Instance) (rand : Nat → Nat) (c : CONFIG) (i : Nat)
    (hg : 1 ≤ inst.groups) (hc : Assigned inst c) :
    (Capped inst c →
      repair inst rand c i = some (c, i) ∧ mutate inst rand c c i = some (c, i)) ∧
    ((∀ p, p < inst.persons → ∀ g, g < inst.groups → 0 ≤ inst.pref p g) →
      ∃ r i1, repair inst rand c i = some (r, i1) ∧
        ∀ (rand' : Nat → Nat) (j : Nat), repair inst rand' r j = some (r, j) ∧
          (repair inst rand c i).bind (fun x => repair inst rand' x.1 x.2)
            = repair inst rand c i) := by
  constructor
  · intro hcap
    have hid := repair_id inst rand hg c i hc ((capped_iff inst hg c).mp hcap)
    exact ⟨hid, by rw [mutate, merge_self inst c hc.1]; exact hid⟩
  · intro hpref
    obtain ⟨r, i1, hres, hass, hcap⟩ :=
      repair_spec inst rand hg hpref c i (partial_of_assigned inst c hc)
    refine ⟨r, i1, hres, fun rand' j => ?_⟩
    have hid : ∀ j, repair inst rand' r j = some (r, j) :=
      fun j => repair_id inst rand' hg r j hass hcap
    refine ⟨hid j, ?_⟩
    rw [hres]
    exact hid i1

theorem C17_repair_idempotent_witness :
    (Capped scenario [0, 1, 1, 0] →
      repair scenario (fun n => n) [0, 1, 1, 0] 7 = some ([0, 1, 1, 0], 7) ∧
        mutate scenario (fun n => n) [0, 1, 1, 0] [0, 1, 1, 0] 7 = some ([0, 1, 1, 0], 7)) ∧
    ((∀ p, p < scenario.persons → ∀ g, g < scenario.groups → 0 ≤ scenario.pref p g) →
      ∃ r i1, repair scenario (fun n => n) [0, 1, 1, 0] 7 = some (r, i1) ∧
        ∀ (rand' : Nat → Nat) (j : Nat), repair scenario rand' r j = some (r, j) ∧
          (repair scenario (fun n => n) [0, 1, 1, 0] 7).bind
              (fun x => repair scenario rand' x.1 x.2)
            = repair scenario (fun n => n) [0, 1, 1, 0] 7) :=
  C17_repair_idempotent scenario (fun n => n) [0, 1, 1, 0] 7 (by decide)
    (by unfold Assigned; decide)

/-! ## `max` on a full population, and the frame of the fill loops -/

theorem max_scan_eq_best (inst : Instance) (configs : Population) (n : Nat)
    (h : ∀ j, j < n → (configs.getD j none).isSome = true) :
    (List.range n).foldl (max_scan_step inst configs) (some (-1, none))
      = some ((List.range n).foldl (best_scan_step inst configs) (-1, none)) := by
  induction n with
  | zero => rfl
  | succ n ih =>
    rw [foldl_range_succ, foldl_range_succ, ih (fun j hj => h j (by omega))]
    obtain ⟨cn, hcn⟩ := Option.isSome_iff_exists.mp (h n (by omega))
    generalize (List.range n).foldl (best_scan_step inst configs) (-1, none) = acc
    obtain ⟨mf, mc⟩ := acc
    simp only [max_scan_step, best_scan_step, hcn]
    split_ifs <;> rfl

theorem firstBest_unique (inst : Instance) (P : Nat) (configs : Population) (m m' : Nat)
    (h : FirstBest inst P configs m) (h' : FirstBest inst P configs m') : m = m' := by
  obtain ⟨hm, cm, hcm, hall⟩ := h
  obtain ⟨hm', cm', hcm', hall'⟩ := h'
  have h1 := hall m' cm' hm' hcm'
  have h2 := hall' m cm hm hcm
  by_contra hne
  rcases Nat.lt_or_gt_of_ne hne with hlt | hgt
  · have := h2.2 hlt; omega
  · have := h1.2 hgt; omega

/-- On a population without `NULL` slots, non-empty and without negative fitness, `max`
returns the candidate in the first slot of greatest fitness. -/
theorem max_some (inst : Instance) (P : Nat) (popc : List CONFIG) (hlen : popc.length = P)
    (hP : 1 ≤ P) (hfit : ∀ c ∈ popc, 0 ≤ fitness inst c) :
    ∃ m, FirstBest inst P (popc.map some) m ∧
      max inst P (popc.map some) = some (popc.getD m []) := by
  have hsome : ∀ j, j < P → ((popc.map some).getD j none).isSome = true := by
    intro j hj
    rw [getD_map_some popc j (by omega)]; rfl
  obtain ⟨m, hm, hfb⟩ := best_scan_spec inst P (popc.map some)
    (fun j c hj hc => by
      rw [getD_map_some popc j (by omega), Option.some.injEq] at hc
      rw [← hc]
      exact hfit _ (getD_mem_gen popc j (by omega)))
    ⟨0, by omega, hsome 0 (by omega)⟩
  refine ⟨m, hfb, ?_⟩
  have hscan := max_scan_eq_best inst (popc.map some) P hsome
  unfold best_scan at hm
  generalize (List.range P).foldl (best_scan_step inst (popc.map some)) (-1, none) = acc
    at hm hscan
  obtain ⟨mf, mc⟩ := acc
  simp only at hm
  subst hm
  rw [max, max_scan, hscan]
  simp only
  exact getD_map_some popc m (by rw [hlen]; exact hfb.1)

/-- The crossover loop writes no slot before the one it starts at. -/
theorem mutate_loop_frame (inst : Instance) (rand : Nat → Nat) (nsel fuel c : Nat) (nm : Int)
    (configs configs' : Population) (i c' i' : Nat)
    (h : mutate_loop inst rand nsel fuel c nm configs i = some (configs', c', i')) :
    c ≤ c' ∧ configs'.length = configs.length ∧
      ∀ k, k < c → configs'.getD k none = configs.getD k none := by
  induction fuel generalizing c nm configs i with
  | zero =>
    simp only [mutate_loop, Option.some.injEq, Prod.mk.injEq] at h
    obtain ⟨h1, h2, -⟩ := h
    subst h1 h2
    exact ⟨le_rfl, rfl, fun _ _ => rfl⟩
  | succ fuel ih =>
    rw [mutate_loop] at h
    cases hc1 : circScan nsel (fun k => (configs.getD k none).isSome) nsel (rand i % nsel) with
    | none => rw [hc1] at h; cases h
    | some c1 =>
      rw [hc1] at h
      simp only at h
      cases hc2 : circScan nsel (fun k => (configs.getD k none).isSome && k != c1) nsel
          (rand (i + 1) % nsel) with
      | none => rw [hc2] at h; cases h
      | some c2 =>
        rw [hc2] at h
        simp only at h
        cases hp1 : configs.getD c1 none with
        | none => rw [hp1] at h; cases h
        | some p1 =>
          cases hp2 : configs.getD c2 none with
          | none => rw [hp1, hp2] at h; cases h
          | some p2 =>
            rw [hp1, hp2] at h
            simp only at h
            cases hm : mutate inst rand p1 p2 (i + 2) with
            | none => rw [hm] at h; cases h
            | some r =>
              obtain ⟨child, i1⟩ := r
              rw [hm] at h
              simp only at h
              by_cases hnm : nm - 1 ≤ 0
              · rw [if_pos hnm, Option.some.injEq, Prod.mk.injEq, Prod.mk.injEq] at h
                obtain ⟨h1, h2, -⟩ := h
                subst h1 h2
                refine ⟨le_rfl, List.length_set _ _ _, fun k hk => ?_⟩
                exact getD_set_other _ _ _ _ _ (by omega)
              · rw [if_neg hnm] at h
                obtain ⟨h1, h2, h3⟩ := ih (c + 1) (nm - 1) _ i1 h
                refine ⟨by omega, by rw [h2, List.length_set], fun k hk => ?_⟩
                rw [h3 k (by omega)]
                exact getD_set_other _ _ _ _ _ (by omega)

/-- The fresh fill writes no slot before the one it starts at. -/
theorem fresh_loop_frame (inst : Instance) (rand : Nat → Nat) (fuel c : Nat)
    (configs configs' : Population) (i i' : Nat)
    (h : fresh_loop inst rand fuel c configs i = some (configs', i')) :
    configs'.length = configs.length ∧
      ∀ k, k < c → configs'.getD k none = configs.getD k none := by
  induction fuel generalizing c configs i with
  | zero =>
    simp only [fresh_loop, Option.some.injEq, Prod.mk.injEq] at h
    obtain ⟨h1, -⟩ := h
    subst h1
    exact ⟨rfl, fun _ _ => rfl⟩
  | succ fuel ih =>
    rw [fresh_loop] at h
    cases hf : fresh inst rand i with
    | none => rw [hf] at h; cases h
    | some r =>
      obtain ⟨cfg, i1⟩ := r
      rw [hf] at h
      simp only at h
      obtain ⟨h2, h3⟩ := ih (c + 1) _ i1 h
      refine ⟨by rw [h2, List.length_set], fun k hk => ?_⟩
      rw [h3 k (by omega)]
      exact getD_set_other _ _ _ _ _ (by omega)

/-- Whenever `iteration` returns, the first `num_good + num_random` slots of its result are
those of the population after the selection phases. -/
theorem iteration_frame (prm : Params) (inst : Instance) (rand : Nat → Nat)
    (configs surv out : Population) (i i1 i' : Nat)
    (hs : survivors prm inst rand configs i = some (surv, i1))
    (h : iteration prm inst rand configs i = some (out, i')) :
    ∀ k, k < prm.num_good + prm.num_random → out.getD k none = surv.getD k none := by
  rw [iteration, crossover, hs] at h
  simp only at h
  cases hm : mutate_loop inst rand (prm.num_random + prm.num_good)
      (prm.POPSIZE - (prm.num_good + prm.num_random)) (prm.num_good + prm.num_random)
      prm.num_mutate surv i1 with
  | none => rw [hm] at h; cases h
  | some r =>
    obtain ⟨configs5, c, i2⟩ := r
    rw [hm] at h
    simp only at h
    obtain ⟨h1, -, h3⟩ := mutate_loop_frame _ _ _ _ _ _ _ _ _ _ _ hm
    obtain ⟨-, h5⟩ := fresh_loop_frame _ _ _ _ _ _ _ _ h
    intro k hk
    rw [h5 k (by omega), h3 k hk]

/-! ## The population invariant of `solve` -/

/-- A generation step keeps the population invariant. -/
theorem iteration_popInv (prm : Params) (inst : Instance) (rand : Nat → Nat)
    (hg : 1 ≤ inst.groups)
    (hpref : ∀ p, p < inst.persons → ∀ g, g < inst.groups → 0 ≤ inst.pref p g)
    (hsum : prm.num_good + prm.num_random ≤ prm.POPSIZE)
    (h2 : 2 ≤ prm.num_good + prm.num_random ∨ prm.num_good + prm.num_random = prm.POPSIZE)
    (configs : Population) (i : Nat) (hinv : PopInv prm inst configs) :
    ∃ out i', iteration prm inst rand configs i = some (out, i') ∧ PopInv prm inst out := by
  obtain ⟨popc, rfl, hlen, hpop⟩ := hinv
  obtain ⟨E, R, K, F, i', hE, hR, -, hlt, -, -, hres, hK, hF, hKlen, hFlen⟩ :=
    iteration_spec prm inst rand hg hpref popc hlen (fun c hc => (hpop c hc).1) hsum h2 i
  refine ⟨_, i', hres, _, rfl, ?_, fun c hc => ?_⟩
  · simp only [List.length_append, List.length_map, hE, hR, hKlen, hFlen]
    have : children_kept prm ≤ prm.POPSIZE - (prm.num_good + prm.num_random) := by
      unfold children_kept; split_ifs <;> omega
    omega
  · rcases List.mem_append.mp hc with h | h
    · rcases List.mem_append.mp h with h | h
      · obtain ⟨j, hj, rfl⟩ := List.mem_map.mp h
        exact hpop _ (getD_mem_gen popc j (by rw [hlen]; exact hlt j hj))
      · exact (hK c h).1
    · exact (hF c h).1

/-- On a population that satisfies the invariant, `max` returns a configuration. -/
theorem max_of_popInv (prm : Params) (inst : Instance)
    (hpref : ∀ p, p < inst.persons → ∀ g, g < inst.groups → 0 ≤ inst.pref p g)
    (hP : 1 ≤ prm.POPSIZE) (configs : Population) (hinv : PopInv prm inst configs) :
    ∃ mc, max inst prm.POPSIZE configs = some mc := by
  obtain ⟨popc, rfl, hlen, hpop⟩ := hinv
  obtain ⟨m, -, hmax⟩ := max_some inst prm.POPSIZE popc hlen hP
    (fun c hc => fitness_nonneg inst c (hpop c hc).1 hpref)
  exact ⟨_, hmax⟩

/-- A pass through the loop of `solve` completes and keeps the population invariant. -/
theorem solve_step_popInv (prm : Params) (inst : Instance) (rand : Nat → Nat)
    (hg : 1 ≤ inst.groups)
    (hpref : ∀ p, p < inst.persons → ∀ g, g < inst.groups → 0 ≤ inst.pref p g)
    (hsum : prm.num_good + prm.num_random ≤ prm.POPSIZE)
    (h2 : 2 ≤ prm.num_good + prm.num_random ∨ prm.num_good + prm.num_random = prm.POPSIZE)
    (hP : 1 ≤ prm.POPSIZE) (s : SState) (hinv : PopInv prm inst s.configs) :
    ∃ s' out, solve_step prm inst rand s = some (s', out) ∧ PopInv prm inst s'.configs := by
  obtain ⟨cfgs, i', hit, hinv'⟩ :=
    iteration_popInv prm inst rand hg hpref hsum h2 s.configs s.i hinv
  obtain ⟨mc, hmax⟩ := max_of_popInv prm inst hpref hP cfgs hinv'
  by_cases hcur : s.cur_fitness ≥ fitness inst mc
  · refine ⟨{ configs := cfgs, cur_fitness := s.cur_fitness, i := i' }, none, ?_, hinv'⟩
    rw [solve_step, hit]
    simp only
    rw [hmax]
    simp only
    rw [if_pos hcur]
  · refine ⟨{ configs := cfgs, cur_fitness := fitness inst mc, i := i' },
      some { config := mc, fitness := fitness inst mc, max_fitness := max_fitness inst,
             sizes := groupsize inst mc }, ?_, hinv'⟩
    rw [solve_step, hit]
    simp only
    rw [hmax]
    simp only
    rw [if_neg hcur]

/-- Every number of passes through the loop of `solve` completes and keeps the invariant. -/
theorem solve_run_popInv (prm : Params) (inst : Instance) (rand : Nat → Nat)
    (hg : 1 ≤ inst.groups)
    (hpref : ∀ p, p < inst.persons → ∀ g, g < inst.groups → 0 ≤ inst.pref p g)
    (hsum : prm.num_good + prm.num_random ≤ prm.POPSIZE)
    (h2 : 2 ≤ prm.num_good + prm.num_random ∨ prm.num_good + prm.num_random = prm.POPSIZE)
    (hP : 1 ≤ prm.POPSIZE) (n : Nat) (s : SState) (hinv : PopInv prm inst s.configs) :
    ∃ s' reports, solve_run prm inst rand n s = some (s', reports) ∧
      PopInv prm inst s'.configs := by
  induction n generalizing s with
  | zero => exact ⟨s, [], rfl, hinv⟩
  | succ n ih =>
    obtain ⟨s1, out, hstep, hinv1⟩ := solve_step_popInv prm inst rand hg hpref hsum h2 hP s hinv
    obtain ⟨s2, reps, hrun, hinv2⟩ := ih s1 hinv1
    refine ⟨s2, out.toList ++ reps, ?_, hinv2⟩
    rw [solve_run, hstep]
    simp only
    rw [hrun]

/-- A seed candidate, `greedy` on the new configuration, is feasible. -/
theorem seed_feasible (inst : Instance) (rand : Nat → Nat) (hg : 1 ≤ inst.groups)
    (hpref : ∀ p, p < inst.persons → ∀ g, g < inst.groups → 0 ≤ inst.pref p g) (i : Nat) :
    ∃ r i', greedy inst rand (new_config inst) i = some (r, i') ∧ Feasible inst r := by
  obtain ⟨r, hres, hass, -, hcap⟩ :=
    greedy_spec inst rand hg hpref (new_config inst) i (new_config_valid inst)
  refine ⟨r, _, hres, feasible_of_repair inst hg r hass (hcap (fun g _ => ?_))⟩
  rw [new_config_members]
  exact Nat.zero_le _

/-- The seed loop of `solve` completes and appends one feasible candidate per slot. -/
theorem seed_loop_spec (inst : Instance) (rand : Nat → Nat) (hg : 1 ≤ inst.groups)
    (hpref : ∀ p, p < inst.persons → ∀ g, g < inst.groups → 0 ≤ inst.pref p g)
    (n : Nat) (configs : Population) (i : Nat) :
    ∃ (seeds : List CONFIG) (i' : Nat),
      seed_loop inst rand n configs i = some (configs ++ seeds.map some, i') ∧
      seeds.length = n ∧ ∀ c ∈ seeds, Feasible inst c := by
  induction n generalizing configs i with
  | zero => exact ⟨[], i, by simp [seed_loop], rfl, by simp⟩
  | succ n ih =>
    obtain ⟨r, i1, hres, hfeas⟩ := seed_feasible inst rand hg hpref i
    obtain ⟨seeds, i', hloop, hlen, hall⟩ := ih (configs ++ [some r]) i1
    refine ⟨r :: seeds, i', ?_, by simp [hlen], ?_⟩
    · rw [seed_loop, hres]
      simp only
      rw [hloop]
      simp
    · intro c hc
      rcases List.mem_cons.mp hc with h | h
      · subst h; exact hfeas
      · exact hall c h

/-- The seed population of `solve` satisfies the population invariant. -/
theorem solve_init_popInv (prm : Params) (inst : Instance) (rand : Nat → Nat)
    (hg : 1 ≤ inst.groups)
    (hpref : ∀ p, p < inst.persons → ∀ g, g < inst.groups → 0 ≤ inst.pref p g) (i : Nat) :
    ∃ s0, solve_init prm inst rand i = some s0 ∧ PopInv prm inst s0.configs ∧
      s0.cur_fitness = 0 := by
  obtain ⟨seeds, i', hloop, hlen, hall⟩ := seed_loop_spec inst rand hg hpref prm.POPSIZE [] i
  refine ⟨{ configs := seeds.map some, cur_fitness := 0, i := i' }, ?_,
    ⟨seeds, rfl, hlen, hall⟩, rfl⟩
  rw [solve_init, hloop]
  simp

/-- The survivors sit in the first slots in the order of selection. -/
theorem getD_survivor_slot (popc : List CONFIG) (L : List Nat) (rest : Population) (k : Nat)
    (hk : k < L.length) :
    ((L.map (fun j => popc.getD j [])).map some ++ rest).getD k none
      = some (popc.getD (L.getD k 0) []) := by
  have h3 : k < (L.map (fun j => popc.getD j [])).length := by
    rw [List.length_map]; exact hk
  rw [getD_append_left_pop _ _ _ (by rw [List.length_map]; exact h3), getD_map_some _ _ h3,
    List.getD_eq_getElem _ _ h3, List.getElem_map, List.getD_eq_getElem _ _ hk]

/-! ## Theorems on the generations of `solve` -/

/-- C12: with the compiled-in constants and a well-formed instance, "the population has
exactly `POPSIZE` candidates, each fully assigned and with at most `ceil(persons/groups)`
members in every group" holds for the seed population of `solve`, is kept by every
generation step, and so holds after any number of passes through the loop of `solve`, for
every sequence of draws. -/
theorem C12_population_invariant (inst : Instance) (rand : Nat → Nat) (hw : WellFormed inst) :
    (∀ i, ∃ s0, solve_init compiled inst rand i = some s0 ∧
      PopInv compiled inst s0.configs) ∧
    (∀ configs i, PopInv compiled inst configs →
      ∃ out i', iteration compiled inst rand configs i = some (out, i') ∧
        PopInv compiled inst out) ∧
    (∀ s, PopInv compiled inst s.configs →
      ∃ s' out, solve_step compiled inst rand s = some (s', out) ∧
        PopInv compiled inst s'.configs) ∧
    ∀ i n, ∃ s0 s reports, solve_init compiled inst rand i = some s0 ∧
      solve_run compiled inst rand n s0 = some (s, reports) ∧ PopInv compiled inst s.configs := by
  have hsum : compiled.num_good + compiled.num_random ≤ compiled.POPSIZE := by decide
  have h2 : 2 ≤ compiled.num_good + compiled.num_random ∨
      compiled.num_good + compiled.num_random = compiled.POPSIZE := Or.inl (by decide)
  have hP : 1 ≤ compiled.POPSIZE := by decide
  refine ⟨fun i => ?_, fun configs i hinv => ?_, fun s hinv => ?_, fun i n => ?_⟩
  · obtain ⟨s0, h0, hinv, -⟩ := solve_init_popInv compiled inst rand hw.2.1 hw.2.2 i
    exact ⟨s0, h0, hinv⟩
  · exact iteration_popInv compiled inst rand hw.2.1 hw.2.2 hsum h2 configs i hinv
  · exact solve_step_popInv compiled inst rand hw.2.1 hw.2.2 hsum h2 hP s hinv
  · obtain ⟨s0, h0, hinv, -⟩ := solve_init_popInv compiled inst rand hw.2.1 hw.2.2 i
    obtain ⟨s, reports, hrun, hinv'⟩ :=
      solve_run_popInv compiled inst rand hw.2.1 hw.2.2 hsum h2 hP n s0 hinv
    exact ⟨s0, s, reports, h0, hrun, hinv'⟩

theorem C12_population_invariant_witness :
    (∀ i, ∃ s0, solve_init compiled scenario (fun n => n) i = some s0 ∧
      PopInv compiled scenario s0.configs) ∧
    (∀ configs i, PopInv compiled scenario configs →
      ∃ out i', iteration compiled scenario (fun n => n) configs i = some (out, i') ∧
        PopInv compiled scenario out) ∧
    (∀ s, PopInv compiled scenario s.configs →
      ∃ s' out, solve_step compiled scenario (fun n => n) s = some (s', out) ∧
        PopInv compiled scenario s'.configs) ∧
    ∀ i n, ∃ s0 s reports, solve_init compiled scenario (fun n => n) i = some s0 ∧
      solve_run compiled scenario (fun n => n) n s0 = some (s, reports) ∧
      PopInv compiled scenario s.configs :=
  C12_population_invariant scenario (fun n => n) (by unfold WellFormed; decide)

/-- C15: on a population of `POPSIZE` fully-assigned candidates without negative
preferences and with `num_good + num_random ≤ POPSIZE`, the selection phases of `iteration`
complete, with one draw per retained candidate.  The retained slots `R` are pairwise distinct
and distinct from the elite slots `E`, and each is the first slot not yet taken at or
circularly after the draw modulo `POPSIZE`.  The first `num_good + num_random` slots after
selection, and of the new population whenever `iteration` returns, hold the candidates of
the old slots `E ++ R` unchanged; and `iteration` does return when `groups ≥ 1` and at least
two candidates survive or the survivors fill the population. -/
theorem C15_random_retention (prm : Params) (inst : Instance) (rand : Nat → Nat)
    (popc : List CONFIG) (i : Nat)
    (hpref : ∀ p, p < inst.persons → ∀ g, g < inst.groups → 0 ≤ inst.pref p g)
    (hlen : popc.length = prm.POPSIZE) (hpop : ∀ c ∈ popc, Assigned inst c)
    (hsum : prm.num_good + prm.num_random ≤ prm.POPSIZE) :
    ∃ (E R : List Nat) (surv : Population),
      survivors prm inst rand (popc.map some) i = some (surv, i + prm.num_random) ∧
      E.length = prm.num_good ∧ R.length = prm.num_random ∧
      (E ++ R).Nodup ∧ (∀ j ∈ E ++ R, j < prm.POPSIZE) ∧
      (∀ k, k < prm.num_random →
        FirstLive prm.POPSIZE (without (popc.map some) (E ++ R.take k))
          (rand (i + k) % prm.POPSIZE) (R.getD k 0)) ∧
      (∀ k, k < prm.num_good + prm.num_random →
        surv.getD k none = some (popc.getD ((E ++ R).getD k 0) [])) ∧
      (∀ out i', iteration prm inst rand (popc.map some) i = some (out, i') →
        ∀ k, k < prm.num_good + prm.num_random →
          out.getD k none = some (popc.getD ((E ++ R).getD k 0) [])) ∧
      (1 ≤ inst.groups →
        (2 ≤ prm.num_good + prm.num_random ∨ prm.num_good + prm.num_random = prm.POPSIZE) →
        ∃ out i', iteration prm inst rand (popc.map some) i = some (out, i')) := by
  obtain ⟨E, R, hE, hR, hnd, hlt, hsurv, -, hlive⟩ :=
    survivors_spec prm inst rand popc hlen
      (fun c hc => fitness_nonneg inst c (hpop c hc) hpref) hsum i
  have hslot : ∀ k, k < prm.num_good + prm.num_random →
      (((E ++ R).map (fun j => popc.getD j [])).map some ++
        List.replicate (prm.POPSIZE - (prm.num_good + prm.num_random)) none).getD k none
        = some (popc.getD ((E ++ R).getD k 0) []) :=
    fun k hk => getD_survivor_slot popc (E ++ R) _ k (by rw [List.length_append, hE, hR]; exact hk)
  refine ⟨E, R, _, hsurv, hE, hR, hnd, hlt, hlive, hslot, fun out i' hit k hk => ?_,
    fun hg h2 => ?_⟩
  · rw [iteration_frame prm inst rand _ _ out i _ i' hsurv hit k hk]
    exact hslot k hk
  · obtain ⟨E', R', K, F, i', -, -, -, -, -, -, hres, -⟩ :=
      iteration_spec prm inst rand hg hpref popc hlen hpop hsum h2 i
    exact ⟨_, i', hres⟩

theorem C15_random_retention_witness :
    ∃ (E R : List Nat) (surv : Population),
      survivors small scenario (fun n => n) (small_pop.map some) 0
        = some (surv, 0 + small.num_random) ∧
      E.length = small.num_good ∧ R.length = small.num_random ∧
      (E ++ R).Nodup ∧ (∀ j ∈ E ++ R, j < small.POPSIZE) ∧
      (∀ k, k < small.num_random →
        FirstLive small.POPSIZE (without (small_pop.map some) (E ++ R.take k))
          ((0 + k) % small.POPSIZE) (R.getD k 0)) ∧
      (∀ k, k < small.num_good + small.num_random →
        surv.getD k none = some (small_pop.getD ((E ++ R).getD k 0) [])) ∧
      (∀ out i', iteration small scenario (fun n => n) (small_pop.map some) 0 = some (out, i') →
        ∀ k, k < small.num_good + small.num_random →
          out.getD k none = some (small_pop.getD ((E ++ R).getD k 0) [])) ∧
      (1 ≤ scenario.groups →
        (2 ≤ small.num_good + small.num_random ∨
          small.num_good + small.num_random = small.POPSIZE) →
        ∃ out i', iteration small scenario (fun n => n) (small_pop.map some) 0
          = some (out, i')) :=
  C15_random_retention small scenario (fun n => n) small_pop 0 (by decide) (by decide)
    (by unfold Assigned; decide) (by decide)

/-- C19: with at least one elite slot, no negative preference and a configuration under
which the generation step completes, the step carries the configuration that `max` returns
for the old population unchanged into slot 0, so the greatest fitness in the new population
is at least the greatest fitness in the old one, for every population of fully-assigned
candidates and every sequence of draws. -/
theorem C19_best_never_decreases (prm : Params) (inst : Instance) (rand : Nat → Nat)
    (popc : List CONFIG) (i : Nat) (hg : 1 ≤ inst.groups)
    (hpref : ∀ p, p < inst.persons → ∀ g, g < inst.groups → 0 ≤ inst.pref p g)
    (hlen : popc.length = prm.POPSIZE) (hpop : ∀ c ∈ popc, Assigned inst c)
    (hsum : prm.num_good + prm.num_random ≤ prm.POPSIZE)
    (h2 : 2 ≤ prm.num_good + prm.num_random ∨ prm.num_good + prm.num_random = prm.POPSIZE)
    (hne : 1 ≤ prm.num_good) :
    ∃ out i' mold mnew, iteration prm inst rand (popc.map some) i = some (out, i') ∧
      max inst prm.POPSIZE (popc.map some) = some mold ∧
      max inst prm.POPSIZE out = some mnew ∧
      IsGreatest {f | ∃ j c, j < prm.POPSIZE ∧ (popc.map some).getD j none = some c ∧
        fitness inst c = f} (fitness inst mold) ∧
      IsGreatest {f | ∃ j c, j < prm.POPSIZE ∧ out.getD j none = some c ∧
        fitness inst c = f} (fitness inst mnew) ∧
      out.getD 0 none = some mold ∧
      fitness inst mold ≤ fitness inst mnew := by
  have hP : 1 ≤ prm.POPSIZE := by omega
  obtain ⟨E, R, K, F, i', hE, hR, -, hlt, hbest, -, hres, hK, hF, hKlen, hFlen⟩ :=
    iteration_spec prm inst rand hg hpref popc hlen hpop hsum h2 i
  -- the old best is the first elite
  obtain ⟨m, hfb, hmold⟩ := max_some inst prm.POPSIZE popc hlen hP
    (fun c hc => fitness_nonneg inst c (hpop c hc) hpref)
  have hfirst : FirstBest inst prm.POPSIZE (popc.map some) (E.getD 0 0) := hbest 0 (by omega)
  have hm : m = E.getD 0 0 := firstBest_unique inst _ _ _ _ hfb hfirst
  have hslot0 := getD_elite_slot popc E R K F 0 (by omega)
  rw [← hm] at hslot0
  -- the new population is full, so `max` returns its best
  have hLlen : ((E ++ R).map (fun j => popc.getD j []) ++ K ++ F).length = prm.POPSIZE := by
    simp only [List.length_append, List.length_map, hE, hR, hKlen, hFlen]
    have : children_kept prm ≤ prm.POPSIZE - (prm.num_good + prm.num_random) := by
      unfold children_kept; split_ifs <;> omega
    omega
  have hLfit : ∀ c ∈ (E ++ R).map (fun j => popc.getD j []) ++ K ++ F, 0 ≤ fitness inst c := by
    intro c hc
    apply fitness_nonneg inst c _ hpref
    rcases List.mem_append.mp hc with h | h
    · rcases List.mem_append.mp h with h | h
      · obtain ⟨j, hj, rfl⟩ := List.mem_map.mp h
        exact hpop _ (getD_mem_gen popc j (by rw [hlen]; exact hlt j hj))
      · exact (hK c h).1.1
    · exact (hF c h).1.1
  obtain ⟨m', hfb', hmnew⟩ := max_some inst prm.POPSIZE _ hLlen hP hLfit
  refine ⟨_, i', _, _, hres, hmold, hmnew, max_spec inst _ _ _ hmold,
    max_spec inst _ _ _ hmnew, hslot0, ?_⟩
  exact (max_spec inst _ _ _ hmnew).2 ⟨0, _, by omega, hslot0, rfl⟩

theorem C19_best_never_decreases_witness :
    ∃ out i' mold mnew,
      iteration small scenario (fun n => 7 * n + 3) (small_pop.map some) 0 = some (out, i') ∧
      max scenario small.POPSIZE (small_pop.map some) = some mold ∧
      max scenario small.POPSIZE out = some mnew ∧
      IsGreatest {f | ∃ j c, j < small.POPSIZE ∧ (small_pop.map some).getD j none = some c ∧
        fitness scenario c = f} (fitness scenario mold) ∧
      IsGreatest {f | ∃ j c, j < small.POPSIZE ∧ out.getD j none = some c ∧
        fitness scenario c = f} (fitness scenario mnew) ∧
      out.getD 0 none = some mold ∧
      fitness scenario mold ≤ fitness scenario mnew :=
  C19_best_never_decreases small scenario (fun n => 7 * n + 3) small_pop 0 (by decide)
    (by decide) (by decide) (by unfold Assigned; decide) (by decide) (by decide) (by decide)

end Allocation
